import Mathlib

/-!
Verification of the cutting-stock optimization engine of the woodie-planner
repository (src/lib/optimizer.ts, src/lib/stock-matcher.ts, the bin-packing
wrapper, and src/lib/types.ts).

Numbers are modelled as rationals (`ℚ`); material thickness is a discrete
class and is modelled as `ℕ`.  Identifiers and categories are strings.
JavaScript's stable `Array.prototype.sort` is modelled by stable insertion
sort; iteration over the integer-like keys of a plain object (`for…in`) is
modelled by ascending key order.

The third-party 2D packing routine (`binpackingjs`, BP2D) is not part of the
repository; it is modelled from the spec (first-fit placement into free
regions, with optional 90° rotation).  Everything else is translated
directly from the TypeScript source.
-/

namespace Woodie

/-- Model of the TypeScript interface `CutPiece` (src/lib/types.ts). -/
structure CutPiece where
  id : String
  name : String
  width : ℚ
  height : ℚ
  quantity : Nat
  category : String
  thickness : Nat
  deriving DecidableEq, Repr

/-- Model of the TypeScript interface `StockPiece` (src/lib/types.ts). -/
structure StockPiece where
  id : String
  width : ℚ
  height : ℚ
  thickness : Nat
  available : Bool
  deriving DecidableEq, Repr

/-- Model of the TypeScript interface `PlacedPiece` (src/lib/types.ts). -/
structure PlacedPiece where
  cutPieceId : String
  x : ℚ
  y : ℚ
  width : ℚ
  height : ℚ
  rotated : Bool
  cutSequence : Nat
  deriving DecidableEq, Repr

/-- Model of the TypeScript interface `CutLayout` (src/lib/types.ts). -/
structure CutLayout where
  stockPieceId : String
  cuts : List PlacedPiece
  wastePercentage : ℚ
  deriving DecidableEq, Repr

/-- Model of the TypeScript interface `MatchingResult` (src/lib/stock-matcher.ts). -/
structure MatchingResult where
  layouts : List CutLayout
  unmatchedPieces : List CutPiece
  totalWastePercentage : ℚ
  stockUsed : Nat
  deriving DecidableEq, Repr

/-! ### Decimal rendering of natural numbers

`natStr n` models the JavaScript template interpolation `${i}` for a natural
number `i` (decimal digits, most significant first).  It is defined with
explicit fuel so that it reduces inside the kernel. -/

/-- Decimal digit character: `digitChar d` is the character for digit `d`. -/
def digitChar (d : Nat) : Char := Char.ofNat (48 + d)

/-- Fueled decimal rendering; `fuel` bounds the recursion depth. -/
def natDigitsAux : Nat → Nat → List Char
  | 0, _ => []
  | fuel + 1, n =>
    if n < 10 then [digitChar n]
    else natDigitsAux fuel (n / 10) ++ [digitChar (n % 10)]

/-- Decimal string of a natural number, modelling the template `${i}`. -/
def natStr (n : Nat) : String := ⟨natDigitsAux (n + 1) n⟩

theorem natDigitsAux_ne_nil {fuel n : Nat} (h : n < fuel) :
    natDigitsAux fuel n ≠ [] := by
  cases fuel with
  | zero => omega
  | succ f =>
    unfold natDigitsAux
    split
    · simp
    · simp

theorem natDigitsAux_fuel_irrel {f g n : Nat} (hf : n < f) (hg : n < g) :
    natDigitsAux f n = natDigitsAux g n := by
  induction f using Nat.strong_induction_on generalizing g n with
  | _ f ih =>
    cases f with
    | zero => omega
    | succ f' =>
      cases g with
      | zero => omega
      | succ g' =>
        unfold natDigitsAux
        by_cases h10 : n < 10
        · simp [h10]
        · have hdiv : n / 10 < n := Nat.div_lt_self (by omega) (by omega)
          simp only [h10, if_false]
          have h1 : n / 10 < f' := by omega
          have h2 : n / 10 < g' := by omega
          rw [ih f' (by omega) h1 h2]

theorem digitChar_inj {d e : Nat} (hd : d < 10) (he : e < 10)
    (h : digitChar d = digitChar e) : d = e := by
  interval_cases d <;> interval_cases e <;> simp_all [digitChar]

theorem natDigitsAux_inj {f g n m : Nat} (hf : n < f) (hg : m < g)
    (h : natDigitsAux f n = natDigitsAux g m) : n = m := by
  induction f using Nat.strong_induction_on generalizing g n m with
  | _ f ih =>
    cases f with
    | zero => omega
    | succ f' =>
      cases g with
      | zero => omega
      | succ g' =>
        unfold natDigitsAux at h
        by_cases hn : n < 10 <;> by_cases hm : m < 10
        · simp only [hn, hm, if_true] at h
          exact digitChar_inj hn hm (by simpa using h)
        · exfalso
          simp only [hn, hm, if_true, if_false] at h
          have hne : natDigitsAux g' (m / 10) ≠ [] :=
            natDigitsAux_ne_nil (by
              have : m / 10 < m := Nat.div_lt_self (by omega) (by omega)
              omega)
          have hlen := congrArg List.length h
          simp [List.length_append] at hlen
          rcases List.exists_cons_of_ne_nil hne with ⟨c, cs, hcs⟩
          rw [hcs] at hlen
          simp at hlen
        · exfalso
          simp only [hn, hm, if_true, if_false] at h
          have hne : natDigitsAux f' (n / 10) ≠ [] :=
            natDigitsAux_ne_nil (by
              have : n / 10 < n := Nat.div_lt_self (by omega) (by omega)
              omega)
          have hlen := congrArg List.length h
          simp [List.length_append] at hlen
          rcases List.exists_cons_of_ne_nil hne with ⟨c, cs, hcs⟩
          rw [hcs] at hlen
          simp at hlen
        · simp only [hn, hm, if_false] at h
          have hdivn : n / 10 < n := Nat.div_lt_self (by omega) (by omega)
          have hdivm : m / 10 < m := Nat.div_lt_self (by omega) (by omega)
          have h2 := List.append_inj' h (by simp)
          have hn1 : n / 10 < f' := by omega
          have hm1 : m / 10 < g' := by omega
          have hdiveq : n / 10 = m / 10 := ih f' (by omega) hn1 hm1 (by simpa using h2.1)
          have hmodeq : n % 10 = m % 10 := by
            have := h2.2
            simp at this
            exact digitChar_inj (Nat.mod_lt _ (by omega)) (Nat.mod_lt _ (by omega)) this
          omega

theorem natStr_inj {n m : Nat} (h : natStr n = natStr m) : n = m := by
  have hd : natDigitsAux (n + 1) n = natDigitsAux (m + 1) m := by
    have := congrArg String.data h
    simpa [natStr] using this
  exact natDigitsAux_inj (Nat.lt_succ_self n) (Nat.lt_succ_self m) hd

/-! ### Box identifiers

The wrapper builds one box per demanded piece instance, with identifier
`` `${piece.id}_${i}` ``, and later recovers the owning piece id of an
unpacked box with `boxId.split("_")[0]`, i.e. the longest underscore-free
first segment. -/

/-- Identifier of the `i`-th instance of a piece: the template `` `${id}_${i}` ``. -/
def boxIdOf (pieceId : String) (i : Nat) : String := pieceId ++ "_" ++ natStr i

/-- Model of `boxId.split("_")[0]`: the first underscore-separated segment. -/
def originId (s : String) : String := ⟨s.data.takeWhile (fun c => !(c == '_'))⟩

/-- Does a string avoid the underscore character? -/
def noUnderscore (s : String) : Bool := s.data.all (fun c => !(c == '_'))

theorem takeWhile_append_of_pos {p : Char → Bool} :
    ∀ (l1 : List Char) (c : Char) (l2 : List Char), (∀ x ∈ l1, p x) → p c = false →
      (l1 ++ c :: l2).takeWhile p = l1 := by
  intro l1
  induction l1 with
  | nil =>
    intro c l2 _ hc
    simp [List.takeWhile, hc]
  | cons a l ih =>
    intro c l2 hall hc
    have ha : p a = true := hall a (by simp)
    simp only [List.cons_append, List.takeWhile, ha]
    have := ih c l2 (fun x hx => hall x (by simp [hx])) hc
    simp only [List.append_eq] at this ⊢
    rw [this]

theorem data_boxIdOf (pieceId : String) (i : Nat) :
    (boxIdOf pieceId i).data = pieceId.data ++ '_' :: (natStr i).data := by
  simp [boxIdOf, String.data_append]

theorem originId_boxIdOf {pieceId : String} (h : noUnderscore pieceId) (i : Nat) :
    originId (boxIdOf pieceId i) = pieceId := by
  have hdata : (boxIdOf pieceId i).data = pieceId.data ++ '_' :: (natStr i).data :=
    data_boxIdOf pieceId i
  have hall : ∀ x ∈ pieceId.data, (fun c => !(c == '_')) x = true := by
    intro x hx
    exact (List.all_eq_true.mp h) x hx
  have : (boxIdOf pieceId i).data.takeWhile (fun c => !(c == '_')) = pieceId.data := by
    rw [hdata]
    exact takeWhile_append_of_pos pieceId.data '_' (natStr i).data hall (by decide)
  unfold originId
  rw [this]

theorem boxIdOf_inj {id1 id2 : String} {i1 i2 : Nat}
    (h1 : noUnderscore id1) (h2 : noUnderscore id2)
    (h : boxIdOf id1 i1 = boxIdOf id2 i2) : id1 = id2 ∧ i1 = i2 := by
  have hid : id1 = id2 := by
    have e1 := originId_boxIdOf h1 i1
    have e2 := originId_boxIdOf h2 i2
    rw [← e1, ← e2, h]
  refine ⟨hid, ?_⟩
  subst hid
  have hdata := congrArg String.data h
  rw [data_boxIdOf, data_boxIdOf] at hdata
  have : (natStr i1).data = (natStr i2).data := by
    have := List.append_inj_right hdata (by rfl)
    simpa using this
  exact natStr_inj (by cases hs1 : natStr i1; cases hs2 : natStr i2; simp_all)

/-! ### The packing primitive

Modelled from the spec: the repository calls the third-party `binpackingjs`
BP2D `Packer`, whose source is not part of the repository.  Per spec §4.1 it
is a heuristic first-fit placement of rectangles into free regions of one
sheet, optionally allowing 90° rotation; placements are in bounds and
non-overlapping, and every input box is either placed or left unplaced. -/

/-- An axis-aligned rectangle (free region of a sheet). -/
structure Rect where
  x : ℚ
  y : ℚ
  w : ℚ
  h : ℚ
  deriving DecidableEq, Repr

/-- A box placed by the packer: original box index, position, dimensions
as placed, and whether it was rotated. -/
structure PlacedBox where
  idx : Nat
  x : ℚ
  y : ℚ
  w : ℚ
  h : ℚ
  rotated : Bool
  deriving DecidableEq, Repr

/-- Does a `bw × bh` box fit inside free region `r`? -/
def fitsIn (bw bh : ℚ) (r : Rect) : Bool := decide (bw ≤ r.w) && decide (bh ≤ r.h)

/-- Modelled from the spec: guillotine split of a free region after placing a
`bw × bh` box at its origin — the region to the right of the box and the
region below the box. -/
def splitFree (r : Rect) (bw bh : ℚ) : List Rect :=
  [⟨r.x + bw, r.y, r.w - bw, bh⟩, ⟨r.x, r.y + bh, r.w, r.h - bh⟩]

/-- Modelled from the spec: place one box into the first free region it fits
(trying the unrotated orientation first, then the rotated one when allowed);
returns the placed rectangle with its rotation flag, and the updated free list. -/
def placeInFree (allowRotation : Bool) (bw bh : ℚ) :
    List Rect → Option ((Rect × Bool) × List Rect)
  | [] => none
  | r :: rest =>
    if fitsIn bw bh r then
      some ((⟨r.x, r.y, bw, bh⟩, false), splitFree r bw bh ++ rest)
    else if allowRotation && fitsIn bh bw r then
      some ((⟨r.x, r.y, bh, bw⟩, true), splitFree r bh bw ++ rest)
    else
      (placeInFree allowRotation bw bh rest).map (fun p => (p.1, r :: p.2))

/-- Modelled from the spec: first-fit packing of the listed boxes (given as
width × height pairs, indexed from `i`) into the free regions. -/
def packBoxesAux (allowRotation : Bool) : List (ℚ × ℚ) → Nat → List Rect → List PlacedBox
  | [], _, _ => []
  | (bw, bh) :: rest, i, free =>
    match placeInFree allowRotation bw bh free with
    | none => packBoxesAux allowRotation rest (i + 1) free
    | some (pl, free2) =>
      ⟨i, pl.1.x, pl.1.y, pl.1.w, pl.1.h, pl.2⟩ ::
        packBoxesAux allowRotation rest (i + 1) free2

/-- Modelled from the spec: the `binpackingjs` BP2D packing heuristic on one
`W × H` sheet — first-fit placement into free regions, in input order,
starting from the whole sheet as the single free region. -/
def packBoxes (allowRotation : Bool) (W H : ℚ) (boxes : List (ℚ × ℚ)) : List PlacedBox :=
  packBoxesAux allowRotation boxes 0 [⟨0, 0, W, H⟩]

/-! ### Geometry of the packing primitive -/

/-- Rectangle containment (`inner` lies inside `outer`). -/
def containsRect (outer inner : Rect) : Prop :=
  outer.x ≤ inner.x ∧ inner.x + inner.w ≤ outer.x + outer.w ∧
    outer.y ≤ inner.y ∧ inner.y + inner.h ≤ outer.y + outer.h

/-- Rectangle interior-disjointness: separated along some axis. -/
def rectDisj (a b : Rect) : Prop :=
  a.x + a.w ≤ b.x ∨ b.x + b.w ≤ a.x ∨ a.y + a.h ≤ b.y ∨ b.y + b.h ≤ a.y

instance (outer inner : Rect) : Decidable (containsRect outer inner) := by
  unfold containsRect; infer_instance

instance (a b : Rect) : Decidable (rectDisj a b) := by
  unfold rectDisj; infer_instance

/-- The rectangle covered by a placed box. -/
def rectOfPlacedBox (b : PlacedBox) : Rect := ⟨b.x, b.y, b.w, b.h⟩

/-- Sum of areas of a list of rectangles. -/
def areaSum (rs : List Rect) : ℚ := (rs.map (fun r => r.w * r.h)).sum

theorem containsRect_trans {a b c : Rect} (h1 : containsRect a b) (h2 : containsRect b c) :
    containsRect a c := by
  obtain ⟨u1, u2, u3, u4⟩ := h1
  obtain ⟨v1, v2, v3, v4⟩ := h2
  exact ⟨le_trans u1 v1, le_trans v2 u2, le_trans u3 v3, le_trans v4 u4⟩

theorem rectDisj_symm {a b : Rect} (h : rectDisj a b) : rectDisj b a := by
  rcases h with h | h | h | h
  · exact Or.inr (Or.inl h)
  · exact Or.inl h
  · exact Or.inr (Or.inr (Or.inr h))
  · exact Or.inr (Or.inr (Or.inl h))

theorem rectDisj_of_contains {r a q : Rect} (hc : containsRect r a) (hd : rectDisj q r) :
    rectDisj q a := by
  obtain ⟨c1, c2, c3, c4⟩ := hc
  rcases hd with h | h | h | h
  · exact Or.inl (le_trans h c1)
  · exact Or.inr (Or.inl (le_trans c2 h))
  · exact Or.inr (Or.inr (Or.inl (le_trans h c3)))
  · exact Or.inr (Or.inr (Or.inr (le_trans c4 h)))

theorem fitsIn_le {bw bh : ℚ} {r : Rect} (h : fitsIn bw bh r = true) :
    bw ≤ r.w ∧ bh ≤ r.h := by
  simpa [fitsIn] using h

theorem placeInFree_fit_case {bw bh pw ph : ℚ} {allowRotation rotFlag : Bool}
    {r : Rect} {rest : List Rect} (hpw : 0 ≤ pw) (hph : 0 ≤ ph)
    (hfit : pw ≤ r.w ∧ ph ≤ r.h)
    (hdims : (pw = bw ∧ ph = bh ∧ rotFlag = false) ∨
      (allowRotation = true ∧ pw = bh ∧ ph = bw ∧ rotFlag = true)) :
    (((⟨r.x, r.y, pw, ph⟩ : Rect).w = bw ∧ (⟨r.x, r.y, pw, ph⟩ : Rect).h = bh ∧
        rotFlag = false) ∨
      (allowRotation = true ∧ (⟨r.x, r.y, pw, ph⟩ : Rect).w = bh ∧
        (⟨r.x, r.y, pw, ph⟩ : Rect).h = bw ∧ rotFlag = true)) ∧
    (∀ q : Rect, (∀ f ∈ r :: rest, rectDisj q f) →
      rectDisj q ⟨r.x, r.y, pw, ph⟩ ∧ ∀ f ∈ splitFree r pw ph ++ rest, rectDisj q f) ∧
    (∀ bin : Rect, (∀ f ∈ r :: rest, containsRect bin f) →
      containsRect bin ⟨r.x, r.y, pw, ph⟩ ∧
        ∀ f ∈ splitFree r pw ph ++ rest, containsRect bin f) ∧
    ((r :: rest).Pairwise rectDisj →
      (∀ f ∈ splitFree r pw ph ++ rest, rectDisj (⟨r.x, r.y, pw, ph⟩ : Rect) f) ∧
        (splitFree r pw ph ++ rest).Pairwise rectDisj) ∧
    ((∀ f ∈ r :: rest, 0 ≤ f.w ∧ 0 ≤ f.h) →
      ∀ f ∈ splitFree r pw ph ++ rest, 0 ≤ f.w ∧ 0 ≤ f.h) ∧
    areaSum (splitFree r pw ph ++ rest) =
      areaSum (r :: rest) - (⟨r.x, r.y, pw, ph⟩ : Rect).w * (⟨r.x, r.y, pw, ph⟩ : Rect).h := by
  have hcpr : containsRect r ⟨r.x, r.y, pw, ph⟩ := by
    refine ⟨?_, ?_, ?_, ?_⟩ <;> dsimp only <;> linarith [hfit.1, hfit.2]
  have hcright : containsRect r ⟨r.x + pw, r.y, r.w - pw, ph⟩ := by
    refine ⟨?_, ?_, ?_, ?_⟩ <;> dsimp only <;> linarith [hfit.1, hfit.2]
  have hcbottom : containsRect r ⟨r.x, r.y + ph, r.w, r.h - ph⟩ := by
    refine ⟨?_, ?_, ?_, ?_⟩ <;> dsimp only <;> linarith [hfit.1, hfit.2]
  have hsplit : ∀ f ∈ splitFree r pw ph, containsRect r f := by
    intro f hf
    simp only [splitFree, List.mem_cons, List.mem_singleton, List.not_mem_nil, or_false] at hf
    rcases hf with hf | hf
    · exact hf ▸ hcright
    · exact hf ▸ hcbottom
  have hdright : rectDisj (⟨r.x, r.y, pw, ph⟩ : Rect) ⟨r.x + pw, r.y, r.w - pw, ph⟩ :=
    Or.inl (le_refl _)
  have hdbottom : rectDisj (⟨r.x, r.y, pw, ph⟩ : Rect) ⟨r.x, r.y + ph, r.w, r.h - ph⟩ :=
    Or.inr (Or.inr (Or.inl (le_refl _)))
  have hdsplit : ∀ f ∈ splitFree r pw ph, rectDisj (⟨r.x, r.y, pw, ph⟩ : Rect) f := by
    intro f hf
    simp only [splitFree, List.mem_cons, List.mem_singleton, List.not_mem_nil, or_false] at hf
    rcases hf with hf | hf
    · exact hf ▸ hdright
    · exact hf ▸ hdbottom
  have hrb : rectDisj (⟨r.x + pw, r.y, r.w - pw, ph⟩ : Rect) ⟨r.x, r.y + ph, r.w, r.h - ph⟩ :=
    Or.inr (Or.inr (Or.inl (le_refl _)))
  refine ⟨hdims, ?_, ?_, ?_, ?_, ?_⟩
  · intro q hq
    have hqr : rectDisj q r := hq r (by simp)
    refine ⟨rectDisj_of_contains hcpr hqr, ?_⟩
    intro f hf
    rcases List.mem_append.mp hf with hf | hf
    · exact rectDisj_of_contains (hsplit f hf) hqr
    · exact hq f (by simp [hf])
  · intro bin hb
    have hbr : containsRect bin r := hb r (by simp)
    refine ⟨containsRect_trans hbr hcpr, ?_⟩
    intro f hf
    rcases List.mem_append.mp hf with hf | hf
    · exact containsRect_trans hbr (hsplit f hf)
    · exact hb f (by simp [hf])
  · intro hpair
    have hrdisj : ∀ f ∈ rest, rectDisj r f := (List.pairwise_cons.mp hpair).1
    have hprest : rest.Pairwise rectDisj := (List.pairwise_cons.mp hpair).2
    have hsplitrest : ∀ a ∈ splitFree r pw ph, ∀ b ∈ rest, rectDisj a b := by
      intro a ha b hb
      exact rectDisj_symm (rectDisj_of_contains (hsplit a ha) (rectDisj_symm (hrdisj b hb)))
    have hpairsplit : (splitFree r pw ph).Pairwise rectDisj := by
      simp only [splitFree]
      refine List.pairwise_cons.mpr ⟨?_, by simp⟩
      intro b hb
      simp only [List.mem_singleton, List.not_mem_nil, List.mem_cons, or_false] at hb
      exact hb ▸ hrb
    constructor
    · intro f hf
      rcases List.mem_append.mp hf with hf | hf
      · exact hdsplit f hf
      · exact rectDisj_symm (rectDisj_of_contains hcpr (rectDisj_symm (hrdisj f hf)))
    · exact List.pairwise_append.mpr ⟨hpairsplit, hprest, hsplitrest⟩
  · intro hall f hf
    have hr := hall r (by simp)
    rcases List.mem_append.mp hf with hf | hf
    · simp only [splitFree, List.mem_cons, List.mem_singleton, List.not_mem_nil, or_false] at hf
      rcases hf with hf | hf
      · subst hf
        exact ⟨by dsimp only; linarith [hfit.1], by dsimp only; linarith⟩
      · subst hf
        exact ⟨by dsimp only; linarith [hr.1], by dsimp only; linarith [hfit.2]⟩
    · exact hall f (by simp [hf])
  · simp only [splitFree, areaSum, List.map_append, List.map_cons, List.sum_append,
      List.sum_cons, List.map_nil, List.sum_nil]
    ring

theorem placeInFree_spec {allowRotation : Bool} {bw bh : ℚ} (hbw : 0 ≤ bw) (hbh : 0 ≤ bh) :
    ∀ {free : List Rect} {pr : Rect} {rotFlag : Bool} {free2 : List Rect},
      placeInFree allowRotation bw bh free = some ((pr, rotFlag), free2) →
      ((pr.w = bw ∧ pr.h = bh ∧ rotFlag = false) ∨
        (allowRotation = true ∧ pr.w = bh ∧ pr.h = bw ∧ rotFlag = true)) ∧
      (∀ q : Rect, (∀ f ∈ free, rectDisj q f) → rectDisj q pr ∧ ∀ f ∈ free2, rectDisj q f) ∧
      (∀ bin : Rect, (∀ f ∈ free, containsRect bin f) →
        containsRect bin pr ∧ ∀ f ∈ free2, containsRect bin f) ∧
      (free.Pairwise rectDisj →
        (∀ f ∈ free2, rectDisj pr f) ∧ free2.Pairwise rectDisj) ∧
      ((∀ f ∈ free, 0 ≤ f.w ∧ 0 ≤ f.h) → ∀ f ∈ free2, 0 ≤ f.w ∧ 0 ≤ f.h) ∧
      areaSum free2 = areaSum free - pr.w * pr.h := by
  intro free
  induction free with
  | nil => intro pr rotFlag free2 h; simp [placeInFree] at h
  | cons r rest ih =>
    intro pr rotFlag free2 h
    by_cases hfit : fitsIn bw bh r = true
    case pos =>
      rw [placeInFree, if_pos hfit] at h
      simp only [Option.some.injEq, Prod.mk.injEq] at h
      obtain ⟨⟨hpr, hflag⟩, hfree2⟩ := h
      subst hpr hflag hfree2
      exact placeInFree_fit_case hbw hbh (fitsIn_le hfit) (Or.inl ⟨rfl, rfl, rfl⟩)
    case neg =>
      by_cases hrot : (allowRotation && fitsIn bh bw r) = true
      case pos =>
        rw [placeInFree, if_neg hfit, if_pos hrot] at h
        simp only [Option.some.injEq, Prod.mk.injEq] at h
        obtain ⟨⟨hpr, hflag⟩, hfree2⟩ := h
        subst hpr hflag hfree2
        have hrot2 := (Bool.and_eq_true _ _).mp hrot
        exact placeInFree_fit_case hbh hbw (fitsIn_le hrot2.2)
          (Or.inr ⟨hrot2.1, rfl, rfl, rfl⟩)
      case neg =>
        rw [placeInFree, if_neg hfit, if_neg hrot] at h
        cases hpl : placeInFree allowRotation bw bh rest with
        | none => rw [hpl] at h; simp at h
        | some p =>
          obtain ⟨⟨pra, prb⟩, psnd⟩ := p
          rw [hpl] at h
          simp only [Option.map_some', Option.some.injEq, Prod.mk.injEq] at h
          obtain ⟨⟨hpa, hpb⟩, hfree2⟩ := h
          subst hpa hpb
          subst hfree2
          obtain ⟨hdims, hq, hcont, hpw, hnn, harea⟩ := ih hpl
          refine ⟨hdims, ?_, ?_, ?_, ?_, ?_⟩
          · intro q hqall
            have hrest : ∀ f ∈ rest, rectDisj q f := fun f hf => hqall f (by simp [hf])
            obtain ⟨h1, h2⟩ := hq q hrest
            refine ⟨h1, ?_⟩
            intro f hf
            rcases List.mem_cons.mp hf with hf | hf
            · subst hf; exact hqall f (by simp)
            · exact h2 f hf
          · intro bin hball
            have hrest : ∀ f ∈ rest, containsRect bin f := fun f hf => hball f (by simp [hf])
            obtain ⟨h1, h2⟩ := hcont bin hrest
            refine ⟨h1, ?_⟩
            intro f hf
            rcases List.mem_cons.mp hf with hf | hf
            · subst hf; exact hball f (by simp)
            · exact h2 f hf
          · intro hpair
            have hrdisj : ∀ f ∈ rest, rectDisj r f := (List.pairwise_cons.mp hpair).1
            have hprest : rest.Pairwise rectDisj := (List.pairwise_cons.mp hpair).2
            obtain ⟨h1, h2⟩ := hpw hprest
            obtain ⟨h3, h4⟩ := hq r hrdisj
            constructor
            · intro f hf
              rcases List.mem_cons.mp hf with hf | hf
              · subst hf; exact rectDisj_symm h3
              · exact h1 f hf
            · exact List.pairwise_cons.mpr ⟨h4, h2⟩
          · intro hall f hf
            rcases List.mem_cons.mp hf with hf | hf
            · subst hf; exact hall f (by simp)
            · exact hnn (fun g hg => hall g (by simp [hg])) f hf
          · simp only [areaSum, List.map_cons, List.sum_cons]
            have h5 : areaSum psnd = areaSum rest - pra.w * pra.h := harea
            simp only [areaSum] at h5
            linarith

theorem placeInFree_dims {allowRotation : Bool} {bw bh : ℚ} :
    ∀ {free : List Rect} {pr : Rect} {rotFlag : Bool} {free2 : List Rect},
      placeInFree allowRotation bw bh free = some ((pr, rotFlag), free2) →
      ((pr.w = bw ∧ pr.h = bh ∧ rotFlag = false) ∨
        (allowRotation = true ∧ pr.w = bh ∧ pr.h = bw ∧ rotFlag = true)) := by
  intro free
  induction free with
  | nil => intro pr rotFlag free2 h; simp [placeInFree] at h
  | cons r rest ih =>
    intro pr rotFlag free2 h
    by_cases hfit : fitsIn bw bh r = true
    case pos =>
      rw [placeInFree, if_pos hfit] at h
      simp only [Option.some.injEq, Prod.mk.injEq] at h
      obtain ⟨⟨hpr, hflag⟩, _⟩ := h
      subst hpr hflag
      exact Or.inl ⟨rfl, rfl, rfl⟩
    case neg =>
      by_cases hrot : (allowRotation && fitsIn bh bw r) = true
      case pos =>
        rw [placeInFree, if_neg hfit, if_pos hrot] at h
        simp only [Option.some.injEq, Prod.mk.injEq] at h
        obtain ⟨⟨hpr, hflag⟩, _⟩ := h
        subst hpr hflag
        exact Or.inr ⟨((Bool.and_eq_true _ _).mp hrot).1, rfl, rfl, rfl⟩
      case neg =>
        rw [placeInFree, if_neg hfit, if_neg hrot] at h
        cases hpl : placeInFree allowRotation bw bh rest with
        | none => rw [hpl] at h; simp at h
        | some p =>
          obtain ⟨⟨pra, prb⟩, psnd⟩ := p
          rw [hpl] at h
          simp only [Option.map_some', Option.some.injEq, Prod.mk.injEq] at h
          obtain ⟨⟨hpa, hpb⟩, _⟩ := h
          subst hpa hpb
          exact ih hpl

/-- Areas of the boxes placed by the packer. -/
def placedAreaSum (bs : List PlacedBox) : ℚ := (bs.map (fun b => b.w * b.h)).sum

theorem areaSum_nonneg {rs : List Rect} (h : ∀ f ∈ rs, 0 ≤ f.w ∧ 0 ≤ f.h) :
    0 ≤ areaSum rs := by
  unfold areaSum
  induction rs with
  | nil => simp
  | cons r rest ih =>
    simp only [List.map_cons, List.sum_cons]
    have hr := h r (by simp)
    have := ih (fun f hf => h f (by simp [hf]))
    nlinarith [hr.1, hr.2]

theorem packBoxesAux_geom {allowRotation : Bool} (bin : Rect) :
    ∀ (boxes : List (ℚ × ℚ)) (i : Nat) (free : List Rect),
      (∀ d ∈ boxes, 0 ≤ d.1 ∧ 0 ≤ d.2) →
      (∀ f ∈ free, containsRect bin f) →
      free.Pairwise rectDisj →
      (∀ f ∈ free, 0 ≤ f.w ∧ 0 ≤ f.h) →
      (∀ b ∈ packBoxesAux allowRotation boxes i free, containsRect bin (rectOfPlacedBox b)) ∧
      (packBoxesAux allowRotation boxes i free).Pairwise
        (fun a b => rectDisj (rectOfPlacedBox a) (rectOfPlacedBox b)) ∧
      (∀ q : Rect, (∀ f ∈ free, rectDisj q f) →
        ∀ b ∈ packBoxesAux allowRotation boxes i free, rectDisj q (rectOfPlacedBox b)) ∧
      placedAreaSum (packBoxesAux allowRotation boxes i free) ≤ areaSum free := by
  intro boxes
  induction boxes with
  | nil =>
    intro i free _ _ _ hn
    refine ⟨by simp [packBoxesAux], by simp [packBoxesAux], by simp [packBoxesAux], ?_⟩
    simpa [packBoxesAux, placedAreaSum] using areaSum_nonneg hn
  | cons d rest ih =>
    intro i free hb hc hp hn
    obtain ⟨bw, bh⟩ := d
    have hbwh := hb (bw, bh) (by simp)
    have hbrest : ∀ x ∈ rest, 0 ≤ x.1 ∧ 0 ≤ x.2 := fun x hx => hb x (by simp [hx])
    cases hpl : placeInFree allowRotation bw bh free with
    | none =>
      have heq : packBoxesAux allowRotation ((bw, bh) :: rest) i free =
          packBoxesAux allowRotation rest (i + 1) free := by
        rw [packBoxesAux, hpl]
      rw [heq]
      exact ih (i + 1) free hbrest hc hp hn
    | some p =>
      obtain ⟨⟨pr, rotFlag⟩, free2⟩ := p
      obtain ⟨hdims, hq, hcont, hpw, hnn, harea⟩ := placeInFree_spec hbwh.1 hbwh.2 hpl
      have heq : packBoxesAux allowRotation ((bw, bh) :: rest) i free =
          ⟨i, pr.x, pr.y, pr.w, pr.h, rotFlag⟩ ::
            packBoxesAux allowRotation rest (i + 1) free2 := by
        rw [packBoxesAux, hpl]
      have hcont2 := hcont bin hc
      have hpw2 := hpw hp
      have hnn2 := hnn hn
      obtain ⟨ihc, ihp, ihq, iha⟩ := ih (i + 1) free2 hbrest hcont2.2 hpw2.2 hnn2
      have hrpr : rectOfPlacedBox ⟨i, pr.x, pr.y, pr.w, pr.h, rotFlag⟩ = pr := rfl
      rw [heq]
      refine ⟨?_, ?_, ?_, ?_⟩
      · intro b hbm
        rcases List.mem_cons.mp hbm with hbm | hbm
        · subst hbm; rw [hrpr]; exact hcont2.1
        · exact ihc b hbm
      · refine List.pairwise_cons.mpr ⟨?_, ihp⟩
        intro b hbm
        rw [hrpr]
        exact ihq pr hpw2.1 b hbm
      · intro q hqf
        obtain ⟨h1, h2⟩ := hq q hqf
        intro b hbm
        rcases List.mem_cons.mp hbm with hbm | hbm
        · subst hbm; rw [hrpr]; exact h1
        · exact ihq q h2 b hbm
      · simp only [placedAreaSum, List.map_cons, List.sum_cons]
        have hub : placedAreaSum (packBoxesAux allowRotation rest (i + 1) free2) ≤
            areaSum free2 := iha
        simp only [placedAreaSum] at hub
        linarith

theorem packBoxesAux_shape {allowRotation : Bool} :
    ∀ (boxes : List (ℚ × ℚ)) (i : Nat) (free : List Rect) (b : PlacedBox),
      b ∈ packBoxesAux allowRotation boxes i free →
      i ≤ b.idx ∧ b.idx - i < boxes.length ∧
        ∃ d, boxes[b.idx - i]? = some d ∧
          ((b.w = d.1 ∧ b.h = d.2 ∧ b.rotated = false) ∨
            (allowRotation = true ∧ b.w = d.2 ∧ b.h = d.1 ∧ b.rotated = true)) := by
  intro boxes
  induction boxes with
  | nil => intro i free b hb; simp [packBoxesAux] at hb
  | cons d rest ih =>
    intro i free b hb
    obtain ⟨bw, bh⟩ := d
    cases hpl : placeInFree allowRotation bw bh free with
    | none =>
      rw [packBoxesAux, hpl] at hb
      obtain ⟨h1, h2, dd, h3, h4⟩ := ih (i + 1) free b hb
      refine ⟨by omega, by simp; omega, dd, ?_, h4⟩
      have hsub : b.idx - i = (b.idx - (i + 1)) + 1 := by omega
      rw [hsub]
      simpa using h3
    | some p =>
      obtain ⟨⟨pr, rotFlag⟩, free2⟩ := p
      rw [packBoxesAux, hpl] at hb
      rcases List.mem_cons.mp hb with hbm | hbm
      · subst hbm
        have hdims := placeInFree_dims hpl
        refine ⟨le_refl _, by simp, (bw, bh), by simp, ?_⟩
        simpa using hdims
      · obtain ⟨h1, h2, dd, h3, h4⟩ := ih (i + 1) free2 b hbm
        refine ⟨by omega, by simp; omega, dd, ?_, h4⟩
        have hsub : b.idx - i = (b.idx - (i + 1)) + 1 := by omega
        rw [hsub]
        simpa using h3

theorem packBoxesAux_idx_mono {allowRotation : Bool} :
    ∀ (boxes : List (ℚ × ℚ)) (i : Nat) (free : List Rect),
      (packBoxesAux allowRotation boxes i free).Pairwise (fun a b => a.idx < b.idx) := by
  intro boxes
  induction boxes with
  | nil => intro i free; simp [packBoxesAux]
  | cons d rest ih =>
    intro i free
    obtain ⟨bw, bh⟩ := d
    cases hpl : placeInFree allowRotation bw bh free with
    | none => rw [packBoxesAux, hpl]; exact ih (i + 1) free
    | some p =>
      obtain ⟨⟨pr, rotFlag⟩, free2⟩ := p
      rw [packBoxesAux, hpl]
      refine List.pairwise_cons.mpr ⟨?_, ih (i + 1) free2⟩
      intro b hbm
      have := (packBoxesAux_shape rest (i + 1) free2 b hbm).1
      simpa using lt_of_lt_of_le (Nat.lt_succ_self i) this
end Woodie

namespace Woodie

/-! ### The bin-packing wrapper (`packPiecesIntoStock`, src/lib/bin-packer.ts) -/

/-- Result shape of the wrapper, modelling interface `PackingResult`. -/
structure PackingResult where
  packedPieces : List PlacedPiece
  unpackedPieces : List CutPiece
  wastePercentage : ℚ
  totalArea : ℚ
  usedArea : ℚ
  deriving DecidableEq, Repr

/-- Placeholder piece used only as the default of a guarded list lookup. -/
def dummyPiece : CutPiece := ⟨"", "", 0, 0, 0, "", 0⟩

/-- Quantity expansion: one `(boxId, piece)` metadata entry per instance of
each piece, in input order (`boxMetadata` in the source). -/
def boxMeta (cutPieces : List CutPiece) : List (String × CutPiece) :=
  cutPieces.flatMap (fun p => (List.range p.quantity).map (fun i => (boxIdOf p.id i, p)))

/-- Width/height pairs of the expanded boxes (`boxes` in the source). -/
def boxDims (cutPieces : List CutPiece) : List (ℚ × ℚ) :=
  (boxMeta cutPieces).map (fun m => (m.2.width, m.2.height))

/-- State of a mutated `Box` object after a `pack` run: current dimensions
and position.  A placed box carries its placement; a box never placed keeps
its constructed dimensions at position `(0, 0)`. -/
structure MutBox where
  width : ℚ
  height : ℚ
  x : ℚ
  y : ℚ
  deriving DecidableEq, Repr

/-- The `boxes` array as mutated by the library run `placed`. -/
def mutBoxes (dims : List (ℚ × ℚ)) (placed : List PlacedBox) : List MutBox :=
  dims.enum.map (fun p =>
    match placed.find? (fun b => b.idx == p.1) with
    | some b => ⟨b.w, b.h, b.x, b.y⟩
    | none => ⟨p.2.1, p.2.2, 0, 0⟩)

/-- `Math.abs`, written out by cases so that it evaluates. -/
def ratAbs (q : ℚ) : ℚ := if q < 0 then -q else q

theorem ratAbs_eq_abs (q : ℚ) : ratAbs q = |q| := by
  rw [ratAbs]
  split_ifs with h
  · exact (abs_of_neg h).symm
  · exact (abs_of_nonneg (le_of_not_lt h)).symm

/-- The wrapper's re-identification predicate: equal dimensions and position
within `0.1` (`b.width === box.width && … && Math.abs(b.x - box.x) < 0.1 && …`). -/
def matchesBox (m : MutBox) (b : PlacedBox) : Bool :=
  m.width == b.w && m.height == b.h &&
    decide (ratAbs (m.x - b.x) < 1 / 10) && decide (ratAbs (m.y - b.y) < 1 / 10)

/-- The wrapper's `boxes.findIndex(...)` over not-yet-consumed indices. -/
def findBoxIndex (mbs : List MutBox) (consumed : List Nat) (b : PlacedBox) : Option Nat :=
  (mbs.enum.find? (fun im => !(consumed.contains im.1) && matchesBox im.2 b)).map (fun im => im.1)

/-- The wrapper's `packedBin.boxes.forEach` loop: walk the bin's placed boxes
in order, re-identify each against the original `boxes` array, emit a
`PlacedPiece` on success, and record the consumed index. -/
def collectPlaced (mbs : List MutBox) (meta : List (String × CutPiece)) :
    List PlacedBox → List Nat → Nat → List PlacedPiece × List Nat
  | [], consumed, _ => ([], consumed)
  | b :: rest, consumed, seq =>
    match findBoxIndex mbs consumed b with
    | none => collectPlaced mbs meta rest consumed (seq + 1)
    | some j =>
      let m := meta.getD j ("", dummyPiece)
      let pl : PlacedPiece := ⟨m.1, b.x, b.y, b.w, b.h, !(b.w == m.2.width), seq + 1⟩
      let res := collectPlaced mbs meta rest (j :: consumed) (seq + 1)
      (pl :: res.1, res.2)

/-- The wrapper's `Set<string>` of unpacked box ids, in insertion order. -/
def insertAbsent (l : List String) (s : String) : List String :=
  if l.contains s then l else l ++ [s]

/-- Box ids of the metadata entries whose index was not consumed, collected
into the insertion-ordered set `unpackedBoxIds`. -/
def unpackedIds (meta : List (String × CutPiece)) (consumed : List Nat) : List String :=
  ((meta.enum.filter (fun im => !(consumed.contains im.1))).map (fun im => im.2.1)).foldl
    insertAbsent []

/-- One step of the wrapper's `unpackedPieceCounts` map: bump the count of a
key, inserting it at the end when absent. -/
def bumpCount : List (String × Nat) → String → List (String × Nat)
  | [], s => [(s, 1)]
  | (k, n) :: rest, s =>
    if k = s then (k, n + 1) :: rest else (k, n) :: bumpCount rest s

/-- The wrapper's per-origin-id counts of unpacked instances. -/
def unpackedCounts (ids : List String) : List (String × Nat) :=
  ids.foldl (fun acc boxId => bumpCount acc (originId boxId)) []

/-- The wrapper's regrouping of unpacked instances into `CutPiece`-shaped
entries: look each counted id up among the call's input pieces and re-issue
that piece with the unpacked count as its quantity (entries whose id lookup
fails are silently dropped, as in the source). -/
def rebuildUnpacked (cutPieces : List CutPiece) (counts : List (String × Nat)) : List CutPiece :=
  counts.filterMap (fun kn =>
    (cutPieces.find? (fun p => p.id == kn.1)).map (fun p =>
      { p with quantity := kn.2 }))

/-- The wrapper body shared by the success and failure paths: `attempt`
models the `try` block's call into the library, `none` modelling a thrown
exception, which the `catch` turns into the all-unpacked result. -/
def packPiecesIntoStockWith (attempt : List (ℚ × ℚ) → Option (List PlacedBox))
    (cutPieces : List CutPiece) (stock : StockPiece) : PackingResult :=
  let totalArea := stock.width * stock.height
  match attempt (boxDims cutPieces) with
  | none => ⟨[], cutPieces, 100, totalArea, 0⟩
  | some binBoxes =>
    let meta := boxMeta cutPieces
    let mbs := mutBoxes (boxDims cutPieces) binBoxes
    let pc := collectPlaced mbs meta binBoxes [] 0
    let counts := unpackedCounts (unpackedIds meta pc.2)
    let unpacked := rebuildUnpacked cutPieces counts
    let usedArea := (pc.1.map (fun p => p.width * p.height)).sum
    ⟨pc.1, unpacked, (totalArea - usedArea) / totalArea * 100, totalArea, usedArea⟩

/-- Model of `packPiecesIntoStock` (src/lib/bin-packer.ts): pack the expanded
piece instances into one stock sheet via the packing primitive. -/
def packPiecesIntoStock (cutPieces : List CutPiece) (stock : StockPiece)
    (allowRotation : Bool) : PackingResult :=
  packPiecesIntoStockWith
    (fun bs => some (packBoxes allowRotation stock.width stock.height bs)) cutPieces stock

/-! ### Sorting (JavaScript `Array.prototype.sort` with a numeric comparator)

Modelled as a stable insertion sort on the relation `cmp a b ≤ 0`; for the
consistent comparators used by the source this is the unique stable order. -/

/-- Stable sort by a JavaScript-style numeric comparator. -/
def jsSorted {α : Type} (cmp : α → α → ℚ) (l : List α) : List α :=
  List.insertionSort (fun a b => cmp a b ≤ 0) l

/-- Comparator of `calculateCutSequence`: same row (y within 10) orders by x,
otherwise by y. -/
def cutCmp (a b : PlacedPiece) : ℚ :=
  if ratAbs (a.y - b.y) < 10 then a.x - b.x else a.y - b.y

/-- Model of `calculateCutSequence` (src/lib/bin-packer.ts): sort placements
top-to-bottom (10 mm row tolerance) then left-to-right, and assign 1-based
`cutSequence` ranks in that order. -/
def calculateCutSequence (pieces : List PlacedPiece) : List PlacedPiece :=
  (jsSorted cutCmp pieces).enum.map (fun ip =>
    ⟨ip.2.cutPieceId, ip.2.x, ip.2.y, ip.2.width, ip.2.height, ip.2.rotated, ip.1 + 1⟩)

/-! ### The matching orchestrator (src/lib/stock-matcher.ts) -/

/-- Stock comparator: area descending. -/
def stockAreaDesc (a b : StockPiece) : ℚ := b.width * b.height - a.width * a.height

/-- Piece comparator: area descending. -/
def pieceAreaDesc (a b : CutPiece) : ℚ := b.width * b.height - a.width * a.height

/-- Piece comparator: category ascending (model of `localeCompare`). -/
def categoryAsc (a b : CutPiece) : ℚ :=
  if a.category < b.category then -1 else if b.category < a.category then 1 else 0

/-- Piece comparator: perimeter descending. -/
def perimeterDesc (a b : CutPiece) : ℚ :=
  2 * (b.width + b.height) - 2 * (a.width + a.height)

/-- Sum of placed areas over a layout's cuts. -/
def usedAreaOf (cuts : List PlacedPiece) : ℚ := (cuts.map (fun c => c.width * c.height)).sum

/-- Waste area charged to one layout in the aggregate-waste reduce: found by
id lookup in the full supply list, `0` when the lookup fails. -/
def layoutWasteArea (stockPieces : List StockPiece) (l : CutLayout) : ℚ :=
  match stockPieces.find? (fun s => s.id == l.stockPieceId) with
  | none => 0
  | some s => s.width * s.height - usedAreaOf l.cuts

/-- Stock area charged to one layout in the aggregate-waste reduce. -/
def layoutStockArea (stockPieces : List StockPiece) (l : CutLayout) : ℚ :=
  match stockPieces.find? (fun s => s.id == l.stockPieceId) with
  | none => 0
  | some s => s.width * s.height

/-- Aggregate waste percentage over the produced layouts, `0` when no stock
area was used. -/
def totalWastePct (stockPieces : List StockPiece) (layouts : List CutLayout) : ℚ :=
  let totalWaste := (layouts.map (layoutWasteArea stockPieces)).sum
  let totalStockArea := (layouts.map (layoutStockArea stockPieces)).sum
  if 0 < totalStockArea then totalWaste / totalStockArea * 100 else 0

/-- The per-thickness sheet loop shared by `matchPiecesToStock` and
`matchPiecesMinimizeSheets`, generic in the single-sheet packing call: walk
the sorted stock, pack the remaining pieces into each sheet, keep a layout
when something was packed, stop when nothing remains. -/
def packLoopWith (packFn : List CutPiece → StockPiece → PackingResult) :
    List StockPiece → List CutPiece → List CutLayout × List CutPiece
  | [], remaining => ([], remaining)
  | stock :: rest, remaining =>
    if remaining.isEmpty then ([], remaining)
    else
      if (packFn remaining stock).packedPieces.isEmpty then packLoopWith packFn rest remaining
      else
        (⟨stock.id, calculateCutSequence (packFn remaining stock).packedPieces,
            (packFn remaining stock).wastePercentage⟩ ::
          (packLoopWith packFn rest (packFn remaining stock).unpackedPieces).1,
          (packLoopWith packFn rest (packFn remaining stock).unpackedPieces).2)

/-- The sheet loop instantiated with the real single-sheet packing call. -/
def packLoop (allowRotation : Bool) : List StockPiece → List CutPiece →
    List CutLayout × List CutPiece :=
  packLoopWith (fun remaining stock => packPiecesIntoStock remaining stock allowRotation)

/-- Distinct thickness keys of the demand, ascending — the `for…in`
iteration order over the integer-keyed `piecesByThickness` record. -/
def thicknessKeys (pieces : List CutPiece) : List Nat :=
  List.insertionSort (fun a b => a ≤ b) (pieces.map (fun p => p.thickness)).dedup

/-- One thickness group of `matchPiecesToStock`: pieces of that thickness
against the available stock of that thickness (area-descending), whole group
unmatched when no such stock exists. -/
def groupStep (allowRotation : Bool) (cutPieces : List CutPiece)
    (availableStock : List StockPiece) (acc : List CutLayout × List CutPiece) (t : Nat) :
    List CutLayout × List CutPiece :=
  if (availableStock.filter (fun s => s.thickness == t)).isEmpty then
    (acc.1, acc.2 ++ cutPieces.filter (fun p => p.thickness == t))
  else
    (acc.1 ++ (packLoop allowRotation
        (jsSorted stockAreaDesc (availableStock.filter (fun s => s.thickness == t)))
        (cutPieces.filter (fun p => p.thickness == t))).1,
      acc.2 ++ (packLoop allowRotation
        (jsSorted stockAreaDesc (availableStock.filter (fun s => s.thickness == t)))
        (cutPieces.filter (fun p => p.thickness == t))).2)

/-- Model of `matchPiecesToStock` (src/lib/stock-matcher.ts). -/
def matchPiecesToStock (cutPieces : List CutPiece) (stockPieces : List StockPiece)
    (allowRotation : Bool) : MatchingResult :=
  if stockPieces.isEmpty then ⟨[], cutPieces, 0, 0⟩
  else
    let availableStock := stockPieces.filter (fun s => s.available)
    let lr := (thicknessKeys cutPieces).foldl
      (groupStep allowRotation cutPieces availableStock) ([], [])
    ⟨lr.1, lr.2, totalWastePct stockPieces lr.1, lr.1.length⟩

/-- Model of `matchPiecesSimpleCuts`: area-descending demand, no rotation. -/
def matchPiecesSimpleCuts (cutPieces : List CutPiece) (stockPieces : List StockPiece) :
    MatchingResult :=
  matchPiecesToStock (jsSorted pieceAreaDesc cutPieces) stockPieces false

/-- Model of `matchPiecesGrainDirection`: category-ascending demand, no rotation. -/
def matchPiecesGrainDirection (cutPieces : List CutPiece) (stockPieces : List StockPiece) :
    MatchingResult :=
  matchPiecesToStock (jsSorted categoryAsc cutPieces) stockPieces false

/-- Model of `matchPiecesLargestFirst`: area-descending demand, rotation allowed. -/
def matchPiecesLargestFirst (cutPieces : List CutPiece) (stockPieces : List StockPiece) :
    MatchingResult :=
  matchPiecesToStock (jsSorted pieceAreaDesc cutPieces) stockPieces true

/-- Model of `matchPiecesEdgeAlignment`: perimeter-descending demand, no rotation. -/
def matchPiecesEdgeAlignment (cutPieces : List CutPiece) (stockPieces : List StockPiece) :
    MatchingResult :=
  matchPiecesToStock (jsSorted perimeterDesc cutPieces) stockPieces false

/-- Model of `matchPiecesMinimizeSheets` (src/lib/stock-matcher.ts): its own
sheet loop over all available stock, area-descending stock and demand,
rotation forced on — with no partition by thickness. -/
def matchPiecesMinimizeSheets (cutPieces : List CutPiece) (stockPieces : List StockPiece) :
    MatchingResult :=
  if stockPieces.isEmpty then ⟨[], cutPieces, 0, 0⟩
  else
    let availableStock := stockPieces.filter (fun s => s.available)
    let sortedStock := jsSorted stockAreaDesc availableStock
    let sortedPieces := jsSorted pieceAreaDesc cutPieces
    let lr := packLoop true sortedStock sortedPieces
    ⟨lr.1, lr.2, totalWastePct stockPieces lr.1, lr.1.length⟩

/-- Model of `calculateWasteStats` (src/lib/stock-matcher.ts). -/
structure WasteStats where
  stockArea : ℚ
  usedArea : ℚ
  wasteArea : ℚ
  wastePercentage : ℚ
  efficiency : ℚ
  deriving DecidableEq, Repr

/-- Detailed waste statistics for one layout on one stock sheet. -/
def calculateWasteStats (layout : CutLayout) (stock : StockPiece) : WasteStats :=
  let stockArea := stock.width * stock.height
  let usedArea := usedAreaOf layout.cuts
  let wasteArea := stockArea - usedArea
  ⟨stockArea, usedArea, wasteArea, wasteArea / stockArea * 100, usedArea / stockArea * 100⟩

/-! ### The optimizer entry point (src/lib/optimizer.ts) -/

/-- The six optimization modes. -/
inductive OptimizationMode where
  | minimizeWaste
  | simplifyCuts
  | grainDirection
  | minimizeSheets
  | largestFirst
  | edgeAlignment
  deriving DecidableEq, Repr

/-- Model of `OptimizationOptions`; `allowRotation` is optional. -/
structure OptimizationOptions where
  mode : OptimizationMode
  allowRotation : Option Bool
  deriving DecidableEq, Repr

/-- Model of `optimizeCuts` (src/lib/optimizer.ts). -/
def optimizeCuts (cutPieces : List CutPiece) (stockPieces : List StockPiece)
    (options : OptimizationOptions) : MatchingResult :=
  if cutPieces.isEmpty then ⟨[], [], 0, 0⟩
  else if stockPieces.isEmpty then ⟨[], cutPieces, 0, 0⟩
  else
    match options.mode with
    | .minimizeWaste => matchPiecesToStock cutPieces stockPieces (options.allowRotation.getD true)
    | .simplifyCuts => matchPiecesSimpleCuts cutPieces stockPieces
    | .grainDirection => matchPiecesGrainDirection cutPieces stockPieces
    | .minimizeSheets => matchPiecesMinimizeSheets cutPieces stockPieces
    | .largestFirst => matchPiecesLargestFirst cutPieces stockPieces
    | .edgeAlignment => matchPiecesEdgeAlignment cutPieces stockPieces

/-- Model of the result of `estimateMaterialNeeded` (src/lib/optimizer.ts). -/
structure MaterialEstimate where
  totalArea : ℚ
  pieceCount : Nat
  largestPiece : ℚ × ℚ
  deriving DecidableEq, Repr

/-- Model of `estimateMaterialNeeded` (src/lib/optimizer.ts). -/
def estimateMaterialNeeded (cutPieces : List CutPiece) : MaterialEstimate :=
  cutPieces.foldl (fun acc p =>
    let withTotals : MaterialEstimate :=
      ⟨acc.totalArea + p.width * p.height * (p.quantity : ℚ),
        acc.pieceCount + p.quantity, acc.largestPiece⟩
    if acc.largestPiece.1 * acc.largestPiece.2 < p.width * p.height then
      ⟨withTotals.totalArea, withTotals.pieceCount, (p.width, p.height)⟩
    else withTotals) ⟨0, 0, (0, 0)⟩

/-- Model of the result of `checkStockSufficiency` (src/lib/optimizer.ts). -/
structure SufficiencyResult where
  isSufficient : Bool
  availableArea : ℚ
  requiredArea : ℚ
  shortfall : ℚ
  deriving DecidableEq, Repr

/-- Model of `checkStockSufficiency` (src/lib/optimizer.ts). -/
def checkStockSufficiency (cutPieces : List CutPiece) (stockPieces : List StockPiece) :
    SufficiencyResult :=
  let requiredArea := (estimateMaterialNeeded cutPieces).totalArea
  let availableArea :=
    ((stockPieces.filter (fun s => s.available)).map (fun s => s.width * s.height)).sum
  let shortfall := max 0 (requiredArea - availableArea)
  ⟨shortfall == 0, availableArea, requiredArea, shortfall⟩

/-! ### Derived notions used by the stated properties -/

/-- Each piece id repeated once per demanded instance — the instance
multiset of a demand list. -/
def expandQty (l : List CutPiece) : List String :=
  l.flatMap (fun p => List.replicate p.quantity p.id)

/-- Origin ids of all placements of a matching result. -/
def placedOriginIds (r : MatchingResult) : List String :=
  r.layouts.flatMap (fun l => l.cuts.map (fun c => originId c.cutPieceId))

/-- Number of placed instances of the piece with id `pid` in a result. -/
def placedCountFor (r : MatchingResult) (pid : String) : Nat :=
  (placedOriginIds r).count pid

/-- Unmatched instance count for the piece with id `pid` in a result. -/
def unmatchedQtyFor (r : MatchingResult) (pid : String) : Nat :=
  ((r.unmatchedPieces.filter (fun u => u.id == pid)).map (fun u => u.quantity)).sum

/-- Hygienic demand identifiers: pairwise distinct and underscore-free. -/
def goodIds (l : List CutPiece) : Prop :=
  (l.map (fun p => p.id)).Nodup ∧ ∀ p ∈ l, noUnderscore p.id = true

instance (l : List CutPiece) : Decidable (goodIds l) := by
  unfold goodIds; infer_instance

/-- Area of the demanded piece carrying a given id (0 when the id is unknown). -/
def areaOfIdIn (pieces : List CutPiece) (s : String) : ℚ :=
  match pieces.find? (fun p => p.id == s) with
  | some p => p.width * p.height
  | none => 0

/-- Total demanded area of a piece list (width × height × quantity summed). -/
def demandArea (l : List CutPiece) : ℚ :=
  (l.map (fun p => p.width * p.height * (p.quantity : ℚ))).sum

/-- Default `MutBox` used for guarded lookups in proofs. -/
def mbDefault : MutBox := ⟨0, 0, 0, 0⟩

/-- Default metadata entry used for guarded lookups. -/
def metaDefault : String × CutPiece := ("", dummyPiece)

end Woodie

namespace Woodie

/-! ### Structure of the wrapper's re-identification loop -/

theorem findBoxIndex_some {mbs : List MutBox} {consumed : List Nat} {b : PlacedBox} {j : Nat}
    (h : findBoxIndex mbs consumed b = some j) :
    j < mbs.length ∧ j ∉ consumed ∧ matchesBox (mbs.getD j mbDefault) b = true := by
  unfold findBoxIndex at h
  cases hf : mbs.enum.find? (fun im => !(consumed.contains im.1) && matchesBox im.2 b) with
  | none => rw [hf] at h; simp at h
  | some im =>
    rw [hf] at h
    simp only [Option.map_some', Option.some.injEq] at h
    subst h
    have hmem := List.mem_of_find?_eq_some hf
    have hp := List.find?_some hf
    obtain ⟨him1, him2⟩ := (Bool.and_eq_true _ _).mp hp
    have hget : mbs[im.1]? = some im.2 := List.mem_enum_iff_getElem?.mp hmem
    have hlt : im.1 < mbs.length := by
      by_contra hcon
      rw [List.getElem?_eq_none (by omega)] at hget
      simp at hget
    refine ⟨hlt, ?_, ?_⟩
    · intro hmemc
      simp [hmemc] at him1
    · have hgd : mbs.getD im.1 mbDefault = im.2 := by
        unfold List.getD
        rw [List.get?_eq_getElem?, hget]
        rfl
      rw [hgd]
      exact him2

theorem forall₂_map_eq {α β γ : Type} {R : α → β → Prop} {f : α → γ} {g : β → γ}
    (hfg : ∀ a b, R a b → f a = g b) :
    ∀ {l1 : List α} {l2 : List β}, List.Forall₂ R l1 l2 → l1.map f = l2.map g := by
  intro l1
  induction l1 with
  | nil =>
    intro l2 h
    cases h
    simp
  | cons a l ih =>
    intro l2 h
    cases h with
    | cons hab htail =>
      simp only [List.map_cons]
      rw [hfg _ _ hab, ih htail]

theorem collectPlaced_spec (mbs : List MutBox) (meta : List (String × CutPiece)) :
    ∀ (bbs : List PlacedBox) (consumed : List Nat) (seq : Nat),
      ∃ js : List Nat,
        (collectPlaced mbs meta bbs consumed seq).2 = js.reverse ++ consumed ∧
        js.Nodup ∧
        (∀ j ∈ js, j < mbs.length ∧ j ∉ consumed) ∧
        List.Forall₂ (fun (c : PlacedPiece) (j : Nat) =>
            c.cutPieceId = (meta.getD j metaDefault).1 ∧
            c.width = (mbs.getD j mbDefault).width ∧
            c.height = (mbs.getD j mbDefault).height)
          (collectPlaced mbs meta bbs consumed seq).1 js ∧
        ((collectPlaced mbs meta bbs consumed seq).1.map
            (fun c => (⟨c.x, c.y, c.width, c.height⟩ : Rect))).Sublist
          (bbs.map rectOfPlacedBox) := by
  intro bbs
  induction bbs with
  | nil =>
    intro consumed seq
    exact ⟨[], by simp [collectPlaced], by simp, by simp, by simp [collectPlaced], by
      simp [collectPlaced]⟩
  | cons b rest ih =>
    intro consumed seq
    cases hfi : findBoxIndex mbs consumed b with
    | none =>
      have heq : collectPlaced mbs meta (b :: rest) consumed seq =
          collectPlaced mbs meta rest consumed (seq + 1) := by
        rw [collectPlaced, hfi]
      obtain ⟨js, h1, h2, h3, h4, h5⟩ := ih consumed (seq + 1)
      refine ⟨js, ?_, h2, h3, ?_, ?_⟩
      · rw [heq]; exact h1
      · rw [heq]; exact h4
      · rw [heq]
        simp only [List.map_cons]
        exact h5.cons _
    | some j =>
      obtain ⟨hjlt, hjnc, hjm⟩ := findBoxIndex_some hfi
      obtain ⟨js, h1, h2, h3, h4, h5⟩ := ih (j :: consumed) (seq + 1)
      have heq : collectPlaced mbs meta (b :: rest) consumed seq =
          (⟨(meta.getD j metaDefault).1, b.x, b.y, b.w, b.h,
              !(b.w == (meta.getD j metaDefault).2.width), seq + 1⟩ ::
            (collectPlaced mbs meta rest (j :: consumed) (seq + 1)).1,
            (collectPlaced mbs meta rest (j :: consumed) (seq + 1)).2) := by
        simp only [collectPlaced, hfi]
        rfl
      refine ⟨j :: js, ?_, ?_, ?_, ?_, ?_⟩
      · rw [heq]
        simp only [List.reverse_cons]
        rw [h1]
        simp [List.append_assoc]
      · refine List.nodup_cons.mpr ⟨?_, h2⟩
        intro hjin
        exact (h3 j hjin).2 (by simp)
      · intro k hk
        rcases List.mem_cons.mp hk with hk | hk
        · subst hk; exact ⟨hjlt, hjnc⟩
        · have := h3 k hk
          exact ⟨this.1, fun hc => this.2 (by simp [hc])⟩
      · rw [heq]
        have hm : (mbs.getD j mbDefault).width = b.w ∧
            (mbs.getD j mbDefault).height = b.h := by
          have hmm := hjm
          unfold matchesBox at hmm
          simp only [Bool.and_eq_true, beq_iff_eq, decide_eq_true_eq] at hmm
          exact ⟨hmm.1.1.1, hmm.1.1.2⟩
        exact List.Forall₂.cons ⟨rfl, hm.1.symm, hm.2.symm⟩ h4
      · rw [heq]
        simp only [List.map_cons]
        have hr : (⟨b.x, b.y, b.w, b.h⟩ : Rect) = rectOfPlacedBox b := rfl
        exact (h5.cons₂ _)

/-! ### The mutated boxes array -/

theorem mutBoxes_length (dims : List (ℚ × ℚ)) (placed : List PlacedBox) :
    (mutBoxes dims placed).length = dims.length := by
  simp [mutBoxes]

theorem mutBoxes_getD_of_find {dims : List (ℚ × ℚ)} {placed : List PlacedBox} {j : Nat}
    {b : PlacedBox} (hj : j < dims.length)
    (hf : placed.find? (fun bb => bb.idx == j) = some b) :
    (mutBoxes dims placed).getD j mbDefault = ⟨b.w, b.h, b.x, b.y⟩ := by
  have h1 : (mutBoxes dims placed)[j]? = dims.enum[j]?.map (fun p =>
      match placed.find? (fun bb => bb.idx == p.1) with
      | some bb => (⟨bb.w, bb.h, bb.x, bb.y⟩ : MutBox)
      | none => ⟨p.2.1, p.2.2, 0, 0⟩) := by
    simp [mutBoxes, List.getElem?_map]
  rw [List.getD_eq_getElem?_getD, h1, List.getElem?_enum,
    List.getElem?_eq_getElem hj]
  simp [hf]

theorem mutBoxes_getD_of_none {dims : List (ℚ × ℚ)} {placed : List PlacedBox} {j : Nat}
    (hj : j < dims.length)
    (hf : placed.find? (fun bb => bb.idx == j) = none) :
    (mutBoxes dims placed).getD j mbDefault =
      ⟨(dims.getD j (0, 0)).1, (dims.getD j (0, 0)).2, 0, 0⟩ := by
  have h1 : (mutBoxes dims placed)[j]? = dims.enum[j]?.map (fun p =>
      match placed.find? (fun bb => bb.idx == p.1) with
      | some bb => (⟨bb.w, bb.h, bb.x, bb.y⟩ : MutBox)
      | none => ⟨p.2.1, p.2.2, 0, 0⟩) := by
    simp [mutBoxes, List.getElem?_map]
  rw [List.getD_eq_getElem?_getD, h1, List.getElem?_enum,
    List.getElem?_eq_getElem hj]
  simp [hf, List.getElem?_eq_getElem hj]

theorem mutBoxes_packBoxes_dims {rot : Bool} {W H : ℚ} {dims : List (ℚ × ℚ)} {j : Nat}
    (hj : j < dims.length) :
    (((mutBoxes dims (packBoxes rot W H dims)).getD j mbDefault).width *
        ((mutBoxes dims (packBoxes rot W H dims)).getD j mbDefault).height =
      (dims.getD j (0, 0)).1 * (dims.getD j (0, 0)).2) ∧
    ((((mutBoxes dims (packBoxes rot W H dims)).getD j mbDefault).width =
        (dims.getD j (0, 0)).1 ∧
      ((mutBoxes dims (packBoxes rot W H dims)).getD j mbDefault).height =
        (dims.getD j (0, 0)).2) ∨
      (rot = true ∧
        ((mutBoxes dims (packBoxes rot W H dims)).getD j mbDefault).width =
          (dims.getD j (0, 0)).2 ∧
        ((mutBoxes dims (packBoxes rot W H dims)).getD j mbDefault).height =
          (dims.getD j (0, 0)).1)) := by
  cases hf : (packBoxes rot W H dims).find? (fun bb => bb.idx == j) with
  | none =>
    rw [mutBoxes_getD_of_none hj hf]
    exact ⟨rfl, Or.inl ⟨rfl, rfl⟩⟩
  | some b =>
    rw [mutBoxes_getD_of_find hj hf]
    have hmem : b ∈ packBoxesAux rot dims 0 [⟨0, 0, W, H⟩] := List.mem_of_find?_eq_some hf
    have hidx : b.idx = j := by
      have := List.find?_some hf
      simpa using this
    obtain ⟨_, hlt, d, hget, hrel⟩ := packBoxesAux_shape dims 0 [⟨0, 0, W, H⟩] b hmem
    rw [hidx, Nat.sub_zero] at hget
    have hd : dims.getD j (0, 0) = d := by
      rw [List.getD_eq_getElem?_getD, hget]
      rfl
    rw [hd]
    rcases hrel with ⟨h1, h2, _⟩ | ⟨hr, h1, h2, _⟩
    · exact ⟨by dsimp only; rw [h1, h2], Or.inl ⟨h1, h2⟩⟩
    · exact ⟨by dsimp only; rw [h1, h2]; ring, Or.inr ⟨hr, h1, h2⟩⟩

/-! ### Metadata of the expanded boxes -/

theorem boxMeta_mem {pieces : List CutPiece} {e : String × CutPiece} :
    e ∈ boxMeta pieces ↔ ∃ p ∈ pieces, ∃ i, i < p.quantity ∧ e = (boxIdOf p.id i, p) := by
  simp only [boxMeta, List.mem_flatMap, List.mem_map, List.mem_range]
  constructor
  · rintro ⟨p, hp, i, hi, he⟩
    exact ⟨p, hp, i, hi, he.symm⟩
  · rintro ⟨p, hp, i, hi, he⟩
    exact ⟨p, hp, i, hi, he.symm⟩

theorem boxDims_length (pieces : List CutPiece) :
    (boxDims pieces).length = (boxMeta pieces).length := by
  simp [boxDims]

theorem boxDims_getD {pieces : List CutPiece} {j : Nat} (hj : j < (boxMeta pieces).length) :
    (boxDims pieces).getD j (0, 0) =
      (((boxMeta pieces).getD j metaDefault).2.width,
        ((boxMeta pieces).getD j metaDefault).2.height) := by
  unfold boxDims
  rw [List.getD_eq_getElem?_getD, List.getElem?_map, List.getD_eq_getElem?_getD,
    List.getElem?_eq_getElem hj]
  rfl

theorem boxMeta_getD_mem {pieces : List CutPiece} {j : Nat}
    (hj : j < (boxMeta pieces).length) :
    (boxMeta pieces).getD j metaDefault ∈ boxMeta pieces := by
  rw [List.getD_eq_getElem?_getD, List.getElem?_eq_getElem hj]
  exact List.getElem_mem hj

theorem boxMeta_originIds {pieces : List CutPiece}
    (hu : ∀ p ∈ pieces, noUnderscore p.id = true) :
    (boxMeta pieces).map (fun e => originId e.1) = expandQty pieces := by
  induction pieces with
  | nil => simp [boxMeta, expandQty]
  | cons p rest ih =>
    have hp := hu p (by simp)
    have hrest : ∀ q ∈ rest, noUnderscore q.id = true := fun q hq => hu q (by simp [hq])
    simp only [boxMeta, expandQty, List.flatMap_cons, List.map_append] at *
    rw [ih hrest]
    congr 1
    rw [List.map_map]
    have : ((fun e : String × CutPiece => originId e.1) ∘
        fun i => (boxIdOf p.id i, p)) = fun i => originId (boxIdOf p.id i) := rfl
    rw [this]
    have h2 : (fun i => originId (boxIdOf p.id i)) = fun _ : Nat => p.id := by
      funext i
      exact originId_boxIdOf hp i
    rw [h2, List.map_const', List.length_range]

theorem boxMeta_ids_nodup {pieces : List CutPiece}
    (hn : (pieces.map (fun p => p.id)).Nodup)
    (hu : ∀ p ∈ pieces, noUnderscore p.id = true) :
    ((boxMeta pieces).map (fun e => e.1)).Nodup := by
  induction pieces with
  | nil => simp [boxMeta]
  | cons p rest ih =>
    have hp := hu p (by simp)
    have hrest : ∀ q ∈ rest, noUnderscore q.id = true := fun q hq => hu q (by simp [hq])
    have hn2 : (rest.map (fun p => p.id)).Nodup := (List.nodup_cons.mp hn).2
    have hpid : p.id ∉ rest.map (fun q => q.id) := (List.nodup_cons.mp hn).1
    simp only [boxMeta, List.flatMap_cons, List.map_append]
    rw [List.nodup_append]
    refine ⟨?_, ih hn2 hrest, ?_⟩
    · rw [List.map_map]
      have : ((fun e : String × CutPiece => e.1) ∘ fun i => (boxIdOf p.id i, p)) =
          fun i => boxIdOf p.id i := rfl
      rw [this]
      refine List.Nodup.map_on ?_ (List.nodup_range _)
      intro i _ i' _ he
      exact (boxIdOf_inj hp hp he).2
    · intro a ha hb
      simp only [List.map_map, List.mem_map, List.mem_range] at ha
      obtain ⟨i, _, hai⟩ := ha
      have ha2 : a = boxIdOf p.id i := hai.symm
      have hbmem : a ∈ (boxMeta rest).map (fun e => e.1) := hb
      simp only [List.mem_map] at hbmem
      obtain ⟨e, hemem, hea⟩ := hbmem
      obtain ⟨q, hq, i', _, heq⟩ := boxMeta_mem.mp hemem
      have : boxIdOf p.id i = boxIdOf q.id i' := by
        rw [← ha2, ← hea, heq]
      have hids := (boxIdOf_inj hp (hrest q hq) this).1
      exact hpid (by
        rw [hids]
        exact List.mem_map.mpr ⟨q, hq, rfl⟩)

/-! ### The unpacked-piece bookkeeping -/

theorem foldl_insertAbsent_of_nodup :
    ∀ (l acc : List String), (acc ++ l).Nodup → l.foldl insertAbsent acc = acc ++ l := by
  intro l
  induction l with
  | nil => intro acc _; simp
  | cons s t ih =>
    intro acc hnd
    have hs : s ∉ acc := by
      intro hc
      have := List.disjoint_of_nodup_append hnd
      exact this hc (by simp)
    have h1 : insertAbsent acc s = acc ++ [s] := by
      unfold insertAbsent
      rw [if_neg (by simpa using hs)]
    have h2 : ((acc ++ [s]) ++ t).Nodup := by
      rw [List.append_assoc]
      simpa using hnd
    simp only [List.foldl_cons, h1]
    rw [ih (acc ++ [s]) h2, List.append_assoc]
    simp

theorem unpackedIds_eq {meta : List (String × CutPiece)} {consumed : List Nat}
    (hnd : (meta.map (fun e => e.1)).Nodup) :
    unpackedIds meta consumed =
      (meta.enum.filter (fun im => !(consumed.contains im.1))).map (fun im => im.2.1) := by
  unfold unpackedIds
  have hsub : ((meta.enum.filter (fun im => !(consumed.contains im.1))).map
      (fun im => im.2.1)).Sublist (meta.map (fun e => e.1)) := by
    have h1 : (meta.enum.filter (fun im => !(consumed.contains im.1))).Sublist meta.enum :=
      List.filter_sublist _
    have h2 := h1.map (fun im : Nat × (String × CutPiece) => im.2.1)
    have h3 : meta.enum.map (fun im => im.2.1) = meta.map (fun e => e.1) := by
      have h4 : meta.enum.map (fun im : Nat × (String × CutPiece) => im.2.1) =
          (meta.enum.map Prod.snd).map (fun e => e.1) := by
        rw [List.map_map]
        rfl
      rw [h4, List.enum_map_snd]
    rwa [h3] at h2
  exact foldl_insertAbsent_of_nodup _ [] (by simpa using hsub.nodup hnd)

/-- Total count recorded for a key in the wrapper's count map. -/
def countVal (cnts : List (String × Nat)) (k : String) : Nat :=
  ((cnts.filter (fun kn => kn.1 == k)).map (fun kn => kn.2)).sum

theorem countVal_bumpCount (cnts : List (String × Nat)) (s k : String) :
    countVal (bumpCount cnts s) k = countVal cnts k + (if s = k then 1 else 0) := by
  induction cnts with
  | nil =>
    by_cases h : s = k
    · simp [bumpCount, countVal, h]
    · simp only [bumpCount, countVal, List.filter_cons]
      have hbeq : (s == k) = false := by simpa using h
      simp [hbeq, h]
  | cons kn rest ih =>
    obtain ⟨k', n⟩ := kn
    by_cases hks : k' = s
    · subst hks
      by_cases hkk : k' = k
      · subst hkk
        simp [bumpCount, countVal]
        omega
      · simp only [bumpCount, if_pos rfl]
        simp only [countVal, List.filter_cons]
        have hbeq : (k' == k) = false := by simpa using hkk
        have hsk : ¬ (k' = k) := hkk
        simp [hbeq, hsk]
    · by_cases hkk : k' = k
      · subst hkk
        simp only [bumpCount, if_neg hks]
        simp only [countVal, List.filter_cons, beq_self_eq_true, if_pos rfl]
        simp only [countVal] at ih
        simp [ih]
        omega
      · simp only [bumpCount, if_neg hks]
        simp only [countVal, List.filter_cons]
        have : (k' == k) = false := by simpa using hkk
        simp only [this]
        simp only [countVal] at ih
        simp [ih]

theorem countVal_unpackedCounts_aux :
    ∀ (ids : List String) (acc : List (String × Nat)) (k : String),
      countVal (ids.foldl (fun a boxId => bumpCount a (originId boxId)) acc) k =
        countVal acc k + (ids.map originId).count k := by
  intro ids
  induction ids with
  | nil => intro acc k; simp
  | cons s t ih =>
    intro acc k
    simp only [List.foldl_cons, List.map_cons]
    rw [ih]
    rw [countVal_bumpCount]
    rw [List.count_cons]
    by_cases h : originId s = k
    · simp [h]
      omega
    · have hbeq : (originId s == k) = false := by simpa using h
      simp [h, hbeq]

theorem countVal_unpackedCounts (ids : List String) (k : String) :
    countVal (unpackedCounts ids) k = (ids.map originId).count k := by
  have := countVal_unpackedCounts_aux ids [] k
  simpa [unpackedCounts, countVal] using this

/-- Instance multiset denoted by a count map. -/
def expandCounts (cnts : List (String × Nat)) : List String :=
  cnts.flatMap (fun kn => List.replicate kn.2 kn.1)

theorem count_expandCounts (cnts : List (String × Nat)) (k : String) :
    (expandCounts cnts).count k = countVal cnts k := by
  induction cnts with
  | nil => simp [expandCounts, countVal]
  | cons kn rest ih =>
    obtain ⟨k', n⟩ := kn
    simp only [expandCounts, List.flatMap_cons, List.count_append] at *
    rw [ih]
    simp only [countVal, List.filter_cons]
    by_cases h : k' = k
    · subst h
      simp [List.count_replicate]
    · have hbeq : (k' == k) = false := by simpa using h
      simp [hbeq, List.count_replicate]

theorem expandCounts_unpackedCounts (ids : List String) :
    (expandCounts (unpackedCounts ids)).Perm (ids.map originId) := by
  rw [List.perm_iff_count]
  intro k
  rw [count_expandCounts, countVal_unpackedCounts]

theorem unpackedCounts_keys_mem {ids : List String} {k : String}
    (h : k ∈ (unpackedCounts ids).map (fun kn => kn.1)) : k ∈ ids.map originId := by
  have haux : ∀ (l : List String) (acc : List (String × Nat)),
      k ∈ (l.foldl (fun a boxId => bumpCount a (originId boxId)) acc).map
          (fun kn => kn.1) →
        k ∈ acc.map (fun kn => kn.1) ∨ k ∈ l.map originId := by
    intro l
    induction l with
    | nil => intro acc h2; exact Or.inl h2
    | cons s t ih =>
      intro acc h2
      simp only [List.foldl_cons] at h2
      rcases ih (bumpCount acc (originId s)) h2 with h3 | h3
      · have hkeys : ∀ (a : List (String × Nat)) (x : String),
            k ∈ (bumpCount a x).map (fun kn => kn.1) →
              k ∈ a.map (fun kn => kn.1) ∨ k = x := by
          intro a
          induction a with
          | nil =>
            intro x hx
            simp only [bumpCount, List.map_cons, List.map_nil, List.mem_singleton] at hx
            exact Or.inr hx
          | cons kn rest ih2 =>
            intro x hx
            obtain ⟨k', n⟩ := kn
            by_cases hk : k' = x
            · subst hk
              simp only [bumpCount, if_pos rfl] at hx
              simp only [List.map_cons] at hx ⊢
              exact Or.inl hx
            · simp only [bumpCount, if_neg hk] at hx
              simp only [List.map_cons, List.mem_cons] at hx ⊢
              rcases hx with hx | hx
              · exact Or.inl (Or.inl hx)
              · rcases ih2 x hx with h4 | h4
                · exact Or.inl (Or.inr h4)
                · exact Or.inr h4
        rcases hkeys acc (originId s) h3 with h4 | h4
        · exact Or.inl h4
        · exact Or.inr (by simp [h4])
      · exact Or.inr (by simp [h3])
  have := haux ids [] h
  simpa using this

theorem find?_id_self {pieces : List CutPiece}
    (hnd : (pieces.map (fun p => p.id)).Nodup) {p : CutPiece} (hp : p ∈ pieces) :
    pieces.find? (fun q => q.id == p.id) = some p := by
  induction pieces with
  | nil => simp at hp
  | cons a rest ih =>
    by_cases ha : a.id = p.id
    · have hap : a = p := by
        rcases List.mem_cons.mp hp with h | h
        · exact h.symm
        · exfalso
          have : p.id ∈ rest.map (fun q => q.id) := List.mem_map.mpr ⟨p, h, rfl⟩
          rw [← ha] at this
          exact (List.nodup_cons.mp hnd).1 this
      rw [List.find?_cons_of_pos _ (by simpa using ha)]
      rw [hap]
    · have hpr : p ∈ rest := by
        rcases List.mem_cons.mp hp with h | h
        · exact absurd (congrArg (fun q => q.id) h.symm) ha
        · exact h
      rw [List.find?_cons_of_neg _ (by simpa using ha)]
      exact ih (List.nodup_cons.mp hnd).2 hpr

theorem rebuildUnpacked_forall₂ {pieces : List CutPiece} :
    ∀ {cnts : List (String × Nat)},
      (∀ k ∈ cnts.map (fun kn => kn.1), ∃ p ∈ pieces, p.id = k) →
      List.Forall₂ (fun (u : CutPiece) (kn : String × Nat) =>
          u.id = kn.1 ∧ u.quantity = kn.2 ∧
            ∃ p ∈ pieces, u = { p with quantity := kn.2 })
        (rebuildUnpacked pieces cnts) cnts := by
  intro cnts
  induction cnts with
  | nil => intro _; simp [rebuildUnpacked]
  | cons kn rest ih =>
    intro hex
    obtain ⟨k, c⟩ := kn
    obtain ⟨p, hp, hpid⟩ := hex k (by simp)
    have hfind : ∃ q, pieces.find? (fun q => q.id == k) = some q := by
      have : (pieces.find? (fun q => q.id == k)).isSome := by
        rw [List.find?_isSome]
        exact ⟨p, hp, by simpa using hpid⟩
      exact Option.isSome_iff_exists.mp this
    obtain ⟨q, hq⟩ := hfind
    have hqmem := List.mem_of_find?_eq_some hq
    have hqid : q.id = k := by simpa using List.find?_some hq
    have heq : rebuildUnpacked pieces ((k, c) :: rest) =
        { q with quantity := c } :: rebuildUnpacked pieces rest := by
      unfold rebuildUnpacked
      simp only [List.filterMap_cons, hq, Option.map_some']
    rw [heq]
    refine List.Forall₂.cons ⟨by simpa using hqid, rfl, q, hqmem, rfl⟩
      (ih (fun k2 hk2 => hex k2 (by simp [hk2])))

theorem bumpCount_keys_sub :
    ∀ (a : List (String × Nat)) (x k : String),
      k ∈ (bumpCount a x).map (fun kn => kn.1) → k ∈ a.map (fun kn => kn.1) ∨ k = x := by
  intro a
  induction a with
  | nil =>
    intro x k hx
    simp only [bumpCount, List.map_cons, List.map_nil, List.mem_singleton] at hx
    exact Or.inr hx
  | cons kn rest ih =>
    intro x k hx
    obtain ⟨k', n⟩ := kn
    by_cases hk : k' = x
    · subst hk
      simp only [bumpCount, if_pos rfl] at hx
      simp only [List.map_cons] at hx ⊢
      exact Or.inl hx
    · simp only [bumpCount, if_neg hk] at hx
      simp only [List.map_cons, List.mem_cons] at hx ⊢
      rcases hx with hx | hx
      · exact Or.inl (Or.inl hx)
      · rcases ih x k hx with h4 | h4
        · exact Or.inl (Or.inr h4)
        · exact Or.inr h4

theorem bumpCount_keys_nodup :
    ∀ (a : List (String × Nat)) (s : String),
      (a.map (fun kn => kn.1)).Nodup → ((bumpCount a s).map (fun kn => kn.1)).Nodup := by
  intro a
  induction a with
  | nil => intro s _; simp [bumpCount]
  | cons kn rest ih =>
    intro s hnd
    obtain ⟨k', n⟩ := kn
    by_cases hk : k' = s
    · subst hk
      simp only [bumpCount, if_pos rfl]
      simpa using hnd
    · simp only [bumpCount, if_neg hk, List.map_cons]
      simp only [List.map_cons] at hnd
      refine List.nodup_cons.mpr ⟨?_, ih s (List.nodup_cons.mp hnd).2⟩
      intro hc
      rcases bumpCount_keys_sub rest s k' hc with h | h
      · exact (List.nodup_cons.mp hnd).1 h
      · exact hk h

theorem unpackedCounts_keys_nodup (ids : List String) :
    ((unpackedCounts ids).map (fun kn => kn.1)).Nodup := by
  have haux : ∀ (l : List String) (acc : List (String × Nat)),
      (acc.map (fun kn => kn.1)).Nodup →
      ((l.foldl (fun a boxId => bumpCount a (originId boxId)) acc).map
        (fun kn => kn.1)).Nodup := by
    intro l
    induction l with
    | nil => intro acc h; exact h
    | cons s t ih =>
      intro acc h
      simp only [List.foldl_cons]
      exact ih _ (bumpCount_keys_nodup acc (originId s) h)
  exact haux ids [] (by simp)

theorem forall₂_mem_left {α β : Type} {R : α → β → Prop} :
    ∀ {l1 : List α} {l2 : List β}, List.Forall₂ R l1 l2 → ∀ a ∈ l1, ∃ b ∈ l2, R a b := by
  intro l1
  induction l1 with
  | nil => intro l2 _ a ha; simp at ha
  | cons x t ih =>
    intro l2 h a ha
    cases h with
    | cons hx htail =>
      rcases List.mem_cons.mp ha with ha | ha
      · subst ha
        exact ⟨_, by simp, hx⟩
      · obtain ⟨b, hb, hr⟩ := ih htail a ha
        exact ⟨b, by simp [hb], hr⟩

theorem boxDims_mem {pieces : List CutPiece} {d : ℚ × ℚ} (hd : d ∈ boxDims pieces) :
    ∃ p ∈ pieces, d = (p.width, p.height) := by
  unfold boxDims at hd
  obtain ⟨e, he, hde⟩ := List.mem_map.mp hd
  obtain ⟨p, hp, _, _, hep⟩ := boxMeta_mem.mp he
  exact ⟨p, hp, by rw [← hde, hep]⟩

theorem sublist_map_sum_le {α : Type} {f : α → ℚ} :
    ∀ {l1 l2 : List α}, l1.Sublist l2 → (∀ x ∈ l2, 0 ≤ f x) →
      (l1.map f).sum ≤ (l2.map f).sum := by
  intro l1 l2 hsub
  induction hsub with
  | slnil => intro _; simp
  | cons a hs ih =>
    intro hnn
    have h1 := ih (fun x hx => hnn x (by simp [hx]))
    have h2 := hnn a (by simp)
    simp only [List.map_cons, List.sum_cons]
    linarith
  | cons₂ a hs ih =>
    intro hnn
    have h1 := ih (fun x hx => hnn x (by simp [hx]))
    simp only [List.map_cons, List.sum_cons]
    linarith

theorem expandQty_map_sum (g : String → ℚ) (l : List CutPiece) :
    ((expandQty l).map g).sum = (l.map (fun u => (u.quantity : ℚ) * g u.id)).sum := by
  induction l with
  | nil => simp [expandQty]
  | cons u t ih =>
    simp only [expandQty, List.flatMap_cons, List.map_append, List.sum_append,
      List.map_cons, List.sum_cons] at *
    rw [ih]
    congr 1
    rw [List.map_replicate, List.sum_replicate]
    simp [nsmul_eq_mul]

theorem enum_map_snd_comp {α β : Type} (l : List α) (f : α → β) :
    l.enum.map (fun im => f im.2) = l.map f := by
  have h : l.enum.map (fun im => f im.2) = (l.enum.map Prod.snd).map f := by
    rw [List.map_map]
    rfl
  rw [h, List.enum_map_snd]

theorem enum_nodup {α : Type} (l : List α) : l.enum.Nodup :=
  List.Nodup.of_map Prod.fst (by rw [List.enum_map_fst]; exact List.nodup_range _)

theorem js_filter_perm {meta : List (String × CutPiece)} {js : List Nat}
    (hnd : js.Nodup) (hlt : ∀ j ∈ js, j < meta.length) :
    (js.map (fun j => (j, meta.getD j metaDefault))).Perm
      (meta.enum.filter (fun im => js.contains im.1)) := by
  apply List.perm_of_nodup_nodup_toFinset_eq
  · exact hnd.map (fun j j' h => by simpa using congrArg Prod.fst h)
  · exact (enum_nodup meta).filter _
  · ext im
    obtain ⟨j, m⟩ := im
    simp only [List.mem_toFinset, List.mem_map, List.mem_filter,
      List.mk_mem_enum_iff_getElem?, Prod.mk.injEq]
    constructor
    · rintro ⟨j', hj', hjj, hmm⟩
      subst hjj
      have hjlt := hlt j' hj'
      refine ⟨?_, by simpa using hj'⟩
      rw [← hmm, List.getD_eq_getElem?_getD, List.getElem?_eq_getElem hjlt]
      rfl
    · rintro ⟨hget, hcon⟩
      have hjs : j ∈ js := by simpa using hcon
      refine ⟨j, hjs, rfl, ?_⟩
      rw [List.getD_eq_getElem?_getD, hget]
      rfl

theorem packPiecesIntoStock_conservation (pieces : List CutPiece) (stock : StockPiece)
    (rot : Bool) (hg : goodIds pieces) :
    (((packPiecesIntoStock pieces stock rot).packedPieces.map
        (fun c => originId c.cutPieceId)) ++
      expandQty (packPiecesIntoStock pieces stock rot).unpackedPieces).Perm
      (expandQty pieces) := by
  obtain ⟨hnd, hu⟩ := hg
  obtain ⟨js, hjs1, hjs2, hjs3, hjs4, hjs5⟩ :=
    collectPlaced_spec (mutBoxes (boxDims pieces)
      (packBoxes rot stock.width stock.height (boxDims pieces)))
      (boxMeta pieces)
      (packBoxes rot stock.width stock.height (boxDims pieces)) [] 0
  have hlenm : (mutBoxes (boxDims pieces)
      (packBoxes rot stock.width stock.height (boxDims pieces))).length =
      (boxMeta pieces).length := by
    rw [mutBoxes_length, boxDims_length]
  have hpacked : (packPiecesIntoStock pieces stock rot).packedPieces =
      (collectPlaced (mutBoxes (boxDims pieces)
          (packBoxes rot stock.width stock.height (boxDims pieces)))
        (boxMeta pieces)
        (packBoxes rot stock.width stock.height (boxDims pieces)) [] 0).1 := rfl
  have hunp : (packPiecesIntoStock pieces stock rot).unpackedPieces =
      rebuildUnpacked pieces (unpackedCounts (unpackedIds (boxMeta pieces)
        (collectPlaced (mutBoxes (boxDims pieces)
            (packBoxes rot stock.width stock.height (boxDims pieces)))
          (boxMeta pieces)
          (packBoxes rot stock.width stock.height (boxDims pieces)) [] 0).2)) := rfl
  have hmapids : (packPiecesIntoStock pieces stock rot).packedPieces.map
      (fun c => originId c.cutPieceId) =
      js.map (fun j => originId ((boxMeta pieces).getD j metaDefault).1) := by
    rw [hpacked]
    exact forall₂_map_eq (fun c j hcj => by rw [hcj.1]) hjs4
  have hids : unpackedIds (boxMeta pieces)
      (collectPlaced (mutBoxes (boxDims pieces)
          (packBoxes rot stock.width stock.height (boxDims pieces)))
        (boxMeta pieces)
        (packBoxes rot stock.width stock.height (boxDims pieces)) [] 0).2 =
      ((boxMeta pieces).enum.filter (fun im => !(js.contains im.1))).map
        (fun im => im.2.1) := by
    rw [unpackedIds_eq (boxMeta_ids_nodup hnd hu)]
    congr 1
    apply List.filter_congr
    intro im _
    rw [hjs1]
    simp [List.contains, List.elem_eq_mem]
  have hkeyex : ∀ k ∈ (unpackedCounts (unpackedIds (boxMeta pieces)
      (collectPlaced (mutBoxes (boxDims pieces)
          (packBoxes rot stock.width stock.height (boxDims pieces)))
        (boxMeta pieces)
        (packBoxes rot stock.width stock.height (boxDims pieces)) [] 0).2)).map
      (fun kn => kn.1), ∃ p ∈ pieces, p.id = k := by
    intro k hk
    have hk2 := unpackedCounts_keys_mem hk
    rw [hids] at hk2
    rw [List.map_map] at hk2
    obtain ⟨im, him, hkim⟩ := List.mem_map.mp hk2
    have himm : im ∈ (boxMeta pieces).enum := (List.filter_sublist _).subset him
    have hsnd : im.2 ∈ boxMeta pieces := by
      have := List.mem_enum_iff_getElem?.mp himm
      exact List.getElem?_mem this
    obtain ⟨p, hp, i, _, hpe⟩ := boxMeta_mem.mp hsnd
    refine ⟨p, hp, ?_⟩
    rw [← hkim]
    have : im.2.1 = boxIdOf p.id i := by rw [hpe]
    simp only [Function.comp_apply, this]
    exact (originId_boxIdOf (hu p hp) i).symm
  have hf2 := rebuildUnpacked_forall₂ hkeyex
  have hexp : expandQty ((packPiecesIntoStock pieces stock rot).unpackedPieces) =
      expandCounts (unpackedCounts (unpackedIds (boxMeta pieces)
        (collectPlaced (mutBoxes (boxDims pieces)
            (packBoxes rot stock.width stock.height (boxDims pieces)))
          (boxMeta pieces)
          (packBoxes rot stock.width stock.height (boxDims pieces)) [] 0).2)) := by
    rw [hunp]
    unfold expandQty expandCounts
    rw [List.flatMap_def, List.flatMap_def]
    congr 1
    exact forall₂_map_eq (fun u kn hukn => by rw [hukn.1, hukn.2.1]) hf2
  rw [hmapids, hexp, hids]
  have hperm1 := expandCounts_unpackedCounts (unpackedIds (boxMeta pieces)
    (collectPlaced (mutBoxes (boxDims pieces)
        (packBoxes rot stock.width stock.height (boxDims pieces)))
      (boxMeta pieces)
      (packBoxes rot stock.width stock.height (boxDims pieces)) [] 0).2)
  rw [hids] at hperm1
  have hjlt : ∀ j ∈ js, j < (boxMeta pieces).length := fun j hj => hlenm ▸ (hjs3 j hj).1
  have hperm2 := (js_filter_perm hjs2 hjlt).map (fun im => originId im.2.1)
  have hcomp : (js.map (fun j => (j, (boxMeta pieces).getD j metaDefault))).map
      (fun im => originId im.2.1) =
      js.map (fun j => originId ((boxMeta pieces).getD j metaDefault).1) := by
    rw [List.map_map]
    rfl
  rw [hcomp] at hperm2
  have hmapm : ((((boxMeta pieces).enum.filter (fun im => !(js.contains im.1))).map
      (fun im => im.2.1)).map originId) =
      ((boxMeta pieces).enum.filter (fun im => !(js.contains im.1))).map
        (fun im => originId im.2.1) := by
    rw [List.map_map]
    rfl
  rw [hmapm] at hperm1
  refine ((hperm2.append hperm1).trans ?_)
  have happ : (((boxMeta pieces).enum.filter (fun im => js.contains im.1)).map
        (fun im => originId im.2.1)) ++
      (((boxMeta pieces).enum.filter (fun im => !(js.contains im.1))).map
        (fun im => originId im.2.1)) =
      ((((boxMeta pieces).enum.filter (fun im => js.contains im.1)) ++
        ((boxMeta pieces).enum.filter (fun im => !(js.contains im.1)))).map
        (fun im => originId im.2.1)) := by
    rw [List.map_append]
  rw [happ]
  have hfap := (List.filter_append_perm (fun im => js.contains im.1)
    ((boxMeta pieces).enum)).map (fun im => originId im.2.1)
  refine hfap.trans ?_
  rw [enum_map_snd_comp (boxMeta pieces) (fun e => originId e.1)]
  rw [boxMeta_originIds hu]

theorem mem_foldl_insertAbsent :
    ∀ (l acc : List String) (x : String), x ∈ l.foldl insertAbsent acc → x ∈ acc ∨ x ∈ l := by
  intro l
  induction l with
  | nil => intro acc x h; exact Or.inl h
  | cons s t ih =>
    intro acc x h
    simp only [List.foldl_cons] at h
    rcases ih (insertAbsent acc s) x h with h2 | h2
    · unfold insertAbsent at h2
      by_cases hc : acc.contains s
      · rw [if_pos hc] at h2
        exact Or.inl h2
      · rw [if_neg hc] at h2
        rcases List.mem_append.mp h2 with h3 | h3
        · exact Or.inl h3
        · exact Or.inr (by simp [List.mem_singleton.mp h3])
    · exact Or.inr (by simp [h2])

theorem unpackedIds_mem_sub {meta : List (String × CutPiece)} {consumed : List Nat}
    {x : String} (hx : x ∈ unpackedIds meta consumed) : x ∈ meta.map (fun e => e.1) := by
  unfold unpackedIds at hx
  rcases mem_foldl_insertAbsent _ [] x hx with h | h
  · simp at h
  · obtain ⟨im, him, hxim⟩ := List.mem_map.mp h
    have : im ∈ meta.enum := (List.filter_sublist _).subset him
    have hmm : im.2 ∈ meta := List.getElem?_mem (List.mem_enum_iff_getElem?.mp this)
    exact List.mem_map.mpr ⟨im.2, hmm, hxim⟩

theorem unpackedIds_keyex (pieces : List CutPiece)
    (hu : ∀ p ∈ pieces, noUnderscore p.id = true) (consumed : List Nat) :
    ∀ k ∈ (unpackedCounts (unpackedIds (boxMeta pieces) consumed)).map (fun kn => kn.1),
      ∃ p ∈ pieces, p.id = k := by
  intro k hk
  have hk2 := unpackedCounts_keys_mem hk
  obtain ⟨bid, hbid, hbk⟩ := List.mem_map.mp hk2
  have hmm := unpackedIds_mem_sub hbid
  obtain ⟨e, he, hbe⟩ := List.mem_map.mp hmm
  obtain ⟨p, hp, i, _, hpe⟩ := boxMeta_mem.mp he
  refine ⟨p, hp, ?_⟩
  rw [← hbk, ← hbe, hpe]
  exact (originId_boxIdOf (hu p hp) i).symm

theorem packPiecesIntoStock_unpacked_mem {pieces : List CutPiece} {stock : StockPiece}
    {rot : Bool} {u : CutPiece}
    (hu : u ∈ (packPiecesIntoStock pieces stock rot).unpackedPieces) :
    ∃ p ∈ pieces, u = { p with quantity := u.quantity } := by
  have hu2 : u ∈ rebuildUnpacked pieces (unpackedCounts (unpackedIds (boxMeta pieces)
      (collectPlaced (mutBoxes (boxDims pieces)
          (packBoxes rot stock.width stock.height (boxDims pieces)))
        (boxMeta pieces)
        (packBoxes rot stock.width stock.height (boxDims pieces)) [] 0).2)) := hu
  unfold rebuildUnpacked at hu2
  obtain ⟨kn, _, hknu⟩ := List.mem_filterMap.mp hu2
  cases hf : pieces.find? (fun p => p.id == kn.1) with
  | none => rw [hf] at hknu; simp at hknu
  | some q =>
    rw [hf] at hknu
    simp only [Option.map_some', Option.some.injEq] at hknu
    refine ⟨q, List.mem_of_find?_eq_some hf, ?_⟩
    rw [← hknu]

theorem packPiecesIntoStock_unpacked_goodIds (pieces : List CutPiece) (stock : StockPiece)
    (rot : Bool) (hu : ∀ p ∈ pieces, noUnderscore p.id = true) :
    goodIds (packPiecesIntoStock pieces stock rot).unpackedPieces := by
  constructor
  · have hkeyex := unpackedIds_keyex pieces hu
      (collectPlaced (mutBoxes (boxDims pieces)
          (packBoxes rot stock.width stock.height (boxDims pieces)))
        (boxMeta pieces)
        (packBoxes rot stock.width stock.height (boxDims pieces)) [] 0).2
    have hf2 := rebuildUnpacked_forall₂ hkeyex
    have hmap : ((packPiecesIntoStock pieces stock rot).unpackedPieces.map
        (fun uu => uu.id)) = (unpackedCounts (unpackedIds (boxMeta pieces)
        (collectPlaced (mutBoxes (boxDims pieces)
            (packBoxes rot stock.width stock.height (boxDims pieces)))
          (boxMeta pieces)
          (packBoxes rot stock.width stock.height (boxDims pieces)) [] 0).2)).map
        (fun kn => kn.1) :=
      forall₂_map_eq (fun uu kn h => h.1) hf2
    rw [hmap]
    exact unpackedCounts_keys_nodup _
  · intro uu huu
    obtain ⟨p, hp, hup⟩ := packPiecesIntoStock_unpacked_mem huu
    have : uu.id = p.id := by rw [hup]
    rw [this]
    exact hu p hp

theorem packPiecesIntoStock_provenance (pieces : List CutPiece) (stock : StockPiece)
    (rot : Bool) {c : PlacedPiece}
    (hc : c ∈ (packPiecesIntoStock pieces stock rot).packedPieces) :
    ∃ p ∈ pieces, ∃ i, i < p.quantity ∧ c.cutPieceId = boxIdOf p.id i ∧
      (c.width * c.height = p.width * p.height) ∧
      ((c.width = p.width ∧ c.height = p.height) ∨
        (rot = true ∧ c.width = p.height ∧ c.height = p.width)) := by
  obtain ⟨js, hjs1, hjs2, hjs3, hjs4, hjs5⟩ :=
    collectPlaced_spec (mutBoxes (boxDims pieces)
      (packBoxes rot stock.width stock.height (boxDims pieces)))
      (boxMeta pieces)
      (packBoxes rot stock.width stock.height (boxDims pieces)) [] 0
  have hc2 : c ∈ (collectPlaced (mutBoxes (boxDims pieces)
      (packBoxes rot stock.width stock.height (boxDims pieces)))
      (boxMeta pieces)
      (packBoxes rot stock.width stock.height (boxDims pieces)) [] 0).1 := hc
  obtain ⟨j, hjmem, hR⟩ := forall₂_mem_left hjs4 c hc2
  have hjd : j < (boxDims pieces).length := by
    have := (hjs3 j hjmem).1
    rwa [mutBoxes_length] at this
  have hjm : j < (boxMeta pieces).length := by rwa [boxDims_length] at hjd
  obtain ⟨p, hp, i, hi, hpe⟩ := boxMeta_mem.mp (boxMeta_getD_mem hjm)
  have hdg := boxDims_getD hjm
  obtain ⟨hprod, hdisj⟩ :=
    @mutBoxes_packBoxes_dims rot stock.width stock.height (boxDims pieces) j hjd
  have hw : ((boxMeta pieces).getD j metaDefault).2.width = p.width := by rw [hpe]
  have hh : ((boxMeta pieces).getD j metaDefault).2.height = p.height := by rw [hpe]
  have hid : ((boxMeta pieces).getD j metaDefault).1 = boxIdOf p.id i := by rw [hpe]
  refine ⟨p, hp, i, hi, by rw [hR.1, hid], ?_, ?_⟩
  · rw [hR.2.1, hR.2.2, hprod, hdg]
    dsimp only
    rw [hw, hh]
  · rcases hdisj with ⟨h1, h2⟩ | ⟨hr, h1, h2⟩
    · refine Or.inl ⟨?_, ?_⟩
      · rw [hR.2.1, h1, hdg]; dsimp only; rw [hw]
      · rw [hR.2.2, h2, hdg]; dsimp only; rw [hh]
    · refine Or.inr ⟨hr, ?_, ?_⟩
      · rw [hR.2.1, h1, hdg]; dsimp only; rw [hh]
      · rw [hR.2.2, h2, hdg]; dsimp only; rw [hw]

theorem packPiecesIntoStock_geometry (pieces : List CutPiece) (stock : StockPiece)
    (rot : Bool) (hpos : ∀ p ∈ pieces, 0 ≤ p.width ∧ 0 ≤ p.height)
    (hsw : 0 ≤ stock.width) (hsh : 0 ≤ stock.height) :
    (∀ c ∈ (packPiecesIntoStock pieces stock rot).packedPieces,
      0 ≤ c.x ∧ 0 ≤ c.y ∧ c.x + c.width ≤ stock.width ∧ c.y + c.height ≤ stock.height) ∧
    ((packPiecesIntoStock pieces stock rot).packedPieces.map
      (fun c => (⟨c.x, c.y, c.width, c.height⟩ : Rect))).Pairwise rectDisj := by
  obtain ⟨js, hjs1, hjs2, hjs3, hjs4, hjs5⟩ :=
    collectPlaced_spec (mutBoxes (boxDims pieces)
      (packBoxes rot stock.width stock.height (boxDims pieces)))
      (boxMeta pieces)
      (packBoxes rot stock.width stock.height (boxDims pieces)) [] 0
  have hdnn : ∀ d ∈ boxDims pieces, 0 ≤ d.1 ∧ 0 ≤ d.2 := by
    intro d hd
    obtain ⟨p, hp, hdp⟩ := boxDims_mem hd
    rw [hdp]
    exact hpos p hp
  have hbin : containsRect ⟨0, 0, stock.width, stock.height⟩ ⟨0, 0, stock.width, stock.height⟩ :=
    ⟨le_refl _, le_refl _, le_refl _, le_refl _⟩
  obtain ⟨hgc, hgp, _, _⟩ := packBoxesAux_geom ⟨0, 0, stock.width, stock.height⟩
    (boxDims pieces) 0 [⟨0, 0, stock.width, stock.height⟩] hdnn
    (by intro f hf; rw [List.mem_singleton.mp hf]; exact hbin)
    (by simp)
    (by intro f hf; rw [List.mem_singleton.mp hf]; exact ⟨hsw, hsh⟩)
  have hsubm : ((packPiecesIntoStock pieces stock rot).packedPieces.map
      (fun c => (⟨c.x, c.y, c.width, c.height⟩ : Rect))).Sublist
      ((packBoxes rot stock.width stock.height (boxDims pieces)).map rectOfPlacedBox) := hjs5
  constructor
  · intro c hcm
    have hrm : (⟨c.x, c.y, c.width, c.height⟩ : Rect) ∈
        (packBoxes rot stock.width stock.height (boxDims pieces)).map rectOfPlacedBox :=
      hsubm.subset (List.mem_map.mpr ⟨c, hcm, rfl⟩)
    obtain ⟨b, hb, hbr⟩ := List.mem_map.mp hrm
    have hcont := hgc b hb
    rw [hbr] at hcont
    obtain ⟨h1, h2, h3, h4⟩ := hcont
    exact ⟨by simpa using h1, by simpa using h3, by simpa using h2, by simpa using h4⟩
  · have hpair : ((packBoxes rot stock.width stock.height
        (boxDims pieces)).map rectOfPlacedBox).Pairwise rectDisj := by
      rw [List.pairwise_map]
      exact hgp
    exact hpair.sublist hsubm

theorem packPiecesIntoStock_usedArea_le (pieces : List CutPiece) (stock : StockPiece)
    (rot : Bool) (hpos : ∀ p ∈ pieces, 0 ≤ p.width ∧ 0 ≤ p.height)
    (hsw : 0 ≤ stock.width) (hsh : 0 ≤ stock.height) :
    ((packPiecesIntoStock pieces stock rot).packedPieces.map
      (fun c => c.width * c.height)).sum ≤ stock.width * stock.height := by
  obtain ⟨js, hjs1, hjs2, hjs3, hjs4, hjs5⟩ :=
    collectPlaced_spec (mutBoxes (boxDims pieces)
      (packBoxes rot stock.width stock.height (boxDims pieces)))
      (boxMeta pieces)
      (packBoxes rot stock.width stock.height (boxDims pieces)) [] 0
  have hdnn : ∀ d ∈ boxDims pieces, 0 ≤ d.1 ∧ 0 ≤ d.2 := by
    intro d hd
    obtain ⟨p, hp, hdp⟩ := boxDims_mem hd
    rw [hdp]
    exact hpos p hp
  have hbin : containsRect ⟨0, 0, stock.width, stock.height⟩ ⟨0, 0, stock.width, stock.height⟩ :=
    ⟨le_refl _, le_refl _, le_refl _, le_refl _⟩
  obtain ⟨_, _, _, hga⟩ := packBoxesAux_geom ⟨0, 0, stock.width, stock.height⟩
    (boxDims pieces) 0 [⟨0, 0, stock.width, stock.height⟩] hdnn
    (by intro f hf; rw [List.mem_singleton.mp hf]; exact hbin)
    (by simp)
    (by intro f hf; rw [List.mem_singleton.mp hf]; exact ⟨hsw, hsh⟩)
  have hbnn : ∀ r ∈ (packBoxes rot stock.width stock.height
      (boxDims pieces)).map rectOfPlacedBox, 0 ≤ r.w * r.h := by
    intro r hr
    obtain ⟨b, hb, hbr⟩ := List.mem_map.mp hr
    obtain ⟨_, _, d, hget, hrel⟩ :=
      packBoxesAux_shape (boxDims pieces) 0 [⟨0, 0, stock.width, stock.height⟩] b hb
    have hd := hdnn d (List.getElem?_mem hget)
    rcases hrel with ⟨h1, h2, _⟩ | ⟨_, h1, h2, _⟩ <;>
      · rw [← hbr]
        unfold rectOfPlacedBox
        dsimp only
        rw [h1, h2]
        first
          | exact mul_nonneg hd.1 hd.2
          | exact mul_nonneg hd.2 hd.1
  have hmm : (packPiecesIntoStock pieces stock rot).packedPieces.map
      (fun c => c.width * c.height) =
      (((packPiecesIntoStock pieces stock rot).packedPieces.map
        (fun c => (⟨c.x, c.y, c.width, c.height⟩ : Rect))).map (fun r => r.w * r.h)) := by
    rw [List.map_map]
    rfl
  rw [hmm]
  have hle := sublist_map_sum_le hjs5 hbnn
  refine le_trans hle ?_
  have hmm2 : ((packBoxes rot stock.width stock.height
      (boxDims pieces)).map rectOfPlacedBox).map (fun r => r.w * r.h) =
      (packBoxes rot stock.width stock.height (boxDims pieces)).map (fun b => b.w * b.h) := by
    rw [List.map_map]
    rfl
  rw [hmm2]
  have : placedAreaSum (packBoxes rot stock.width stock.height (boxDims pieces)) ≤
      areaSum [⟨0, 0, stock.width, stock.height⟩] := hga
  simpa [placedAreaSum, areaSum] using this

theorem packPiecesIntoStock_area_conservation (pieces : List CutPiece) (stock : StockPiece)
    (rot : Bool) (hg : goodIds pieces) :
    ((packPiecesIntoStock pieces stock rot).packedPieces.map
      (fun c => c.width * c.height)).sum +
      demandArea (packPiecesIntoStock pieces stock rot).unpackedPieces =
      demandArea pieces := by
  obtain ⟨hnd, hu⟩ := hg
  have hperm := packPiecesIntoStock_conservation pieces stock rot ⟨hnd, hu⟩
  have hsum := (hperm.map (areaOfIdIn pieces)).sum_eq
  rw [List.map_append, List.sum_append] at hsum
  have h1 : ((packPiecesIntoStock pieces stock rot).packedPieces.map
      (fun c => originId c.cutPieceId)).map (areaOfIdIn pieces) =
      (packPiecesIntoStock pieces stock rot).packedPieces.map
        (fun c => c.width * c.height) := by
    rw [List.map_map]
    apply List.map_congr_left
    intro c hc
    obtain ⟨p, hp, i, _, hcid, hprod, _⟩ :=
      packPiecesIntoStock_provenance pieces stock rot hc
    simp only [Function.comp_apply]
    rw [hcid, originId_boxIdOf (hu p hp) i]
    unfold areaOfIdIn
    rw [find?_id_self hnd hp]
    rw [hprod]
  have h2 : ((expandQty (packPiecesIntoStock pieces stock rot).unpackedPieces).map
      (areaOfIdIn pieces)).sum =
      demandArea (packPiecesIntoStock pieces stock rot).unpackedPieces := by
    rw [expandQty_map_sum]
    unfold demandArea
    apply congrArg
    apply List.map_congr_left
    intro uu huu
    obtain ⟨p, hp, hup⟩ := packPiecesIntoStock_unpacked_mem huu
    have hid : uu.id = p.id := by rw [hup]
    have hwh : uu.width = p.width ∧ uu.height = p.height := by rw [hup]; exact ⟨rfl, rfl⟩
    rw [hid]
    unfold areaOfIdIn
    rw [find?_id_self hnd hp, hwh.1, hwh.2]
    ring
  have h3 : ((expandQty pieces).map (areaOfIdIn pieces)).sum = demandArea pieces := by
    rw [expandQty_map_sum]
    unfold demandArea
    apply congrArg
    apply List.map_congr_left
    intro p hp
    unfold areaOfIdIn
    rw [find?_id_self hnd hp]
    ring
  rw [h1, h2, h3] at hsum
  exact hsum

end Woodie

namespace Woodie

/-! ### The cut-sequence generator -/

/-- A placement with its cut-sequence rank forgotten. -/
def eraseSeq (c : PlacedPiece) : PlacedPiece :=
  ⟨c.cutPieceId, c.x, c.y, c.width, c.height, c.rotated, 0⟩

/-- The cut order relation: same row (y within 10) compares x, otherwise y. -/
def cutLe (a b : PlacedPiece) : Prop := cutCmp a b ≤ 0

instance (a b : PlacedPiece) : Decidable (cutLe a b) := by
  unfold cutLe; infer_instance

theorem calculateCutSequence_eraseSeq (ps : List PlacedPiece) :
    ((calculateCutSequence ps).map eraseSeq).Perm (ps.map eraseSeq) := by
  have h1 : (calculateCutSequence ps).map eraseSeq = (jsSorted cutCmp ps).map eraseSeq := by
    unfold calculateCutSequence
    rw [List.map_map]
    exact enum_map_snd_comp (jsSorted cutCmp ps) eraseSeq
  rw [h1]
  exact (List.perm_insertionSort _ ps).map eraseSeq

theorem calculateCutSequence_originIds (ps : List PlacedPiece) :
    ((calculateCutSequence ps).map (fun c => originId c.cutPieceId)).Perm
      (ps.map (fun c => originId c.cutPieceId)) := by
  have h1 : (calculateCutSequence ps).map (fun c => originId c.cutPieceId) =
      (jsSorted cutCmp ps).map (fun c => originId c.cutPieceId) := by
    unfold calculateCutSequence
    rw [List.map_map]
    exact enum_map_snd_comp (jsSorted cutCmp ps) (fun c => originId c.cutPieceId)
  rw [h1]
  exact (List.perm_insertionSort _ ps).map _

theorem calculateCutSequence_areas (ps : List PlacedPiece) :
    ((calculateCutSequence ps).map (fun c => c.width * c.height)).Perm
      (ps.map (fun c => c.width * c.height)) := by
  have h1 : (calculateCutSequence ps).map (fun c => c.width * c.height) =
      (jsSorted cutCmp ps).map (fun c => c.width * c.height) := by
    unfold calculateCutSequence
    rw [List.map_map]
    exact enum_map_snd_comp (jsSorted cutCmp ps) (fun c => c.width * c.height)
  rw [h1]
  exact (List.perm_insertionSort _ ps).map _

theorem calculateCutSequence_length (ps : List PlacedPiece) :
    (calculateCutSequence ps).length = ps.length := by
  unfold calculateCutSequence
  rw [List.length_map, List.enum_length]
  exact (List.perm_insertionSort _ ps).length_eq

theorem calculateCutSequence_mem {ps : List PlacedPiece} {c : PlacedPiece}
    (hc : c ∈ calculateCutSequence ps) :
    ∃ c' ∈ ps, c.cutPieceId = c'.cutPieceId ∧ c.x = c'.x ∧ c.y = c'.y ∧
      c.width = c'.width ∧ c.height = c'.height ∧ c.rotated = c'.rotated := by
  unfold calculateCutSequence at hc
  obtain ⟨ip, hip, hipc⟩ := List.mem_map.mp hc
  have h2 : ip.2 ∈ jsSorted cutCmp ps := by
    have := List.mem_enum_iff_getElem?.mp hip
    exact List.getElem?_mem this
  have h3 : ip.2 ∈ ps := ((List.perm_insertionSort _ ps).mem_iff).mp h2
  exact ⟨ip.2, h3, by rw [← hipc], by rw [← hipc], by rw [← hipc], by rw [← hipc],
    by rw [← hipc], by rw [← hipc]⟩

theorem calculateCutSequence_ranks (ps : List PlacedPiece) :
    (calculateCutSequence ps).map (fun c => c.cutSequence) =
      (List.range ps.length).map (fun i => i + 1) := by
  unfold calculateCutSequence
  rw [List.map_map]
  have h1 : ((fun c : PlacedPiece => c.cutSequence) ∘
      fun ip : Nat × PlacedPiece =>
        (⟨ip.2.cutPieceId, ip.2.x, ip.2.y, ip.2.width, ip.2.height, ip.2.rotated,
          ip.1 + 1⟩ : PlacedPiece)) = fun ip : Nat × PlacedPiece => ip.1 + 1 := rfl
  rw [h1]
  have h2 : ((jsSorted cutCmp ps).enum.map (fun ip : Nat × PlacedPiece => ip.1 + 1)) =
      ((jsSorted cutCmp ps).enum.map Prod.fst).map (fun i => i + 1) := by
    rw [List.map_map]
    rfl
  rw [h2, List.enum_map_fst]
  have h3 : (jsSorted cutCmp ps).length = ps.length :=
    (List.perm_insertionSort _ ps).length_eq
  rw [h3]

/-! ### The sheet loop -/

/-- Same piece as one in `pieces`, allowing a different remaining quantity. -/
def derivedFrom (pieces : List CutPiece) (p : CutPiece) : Prop :=
  ∃ q ∈ pieces, p = { q with quantity := p.quantity }

theorem derivedFrom_of_mem {pieces : List CutPiece} {p : CutPiece} (hp : p ∈ pieces) :
    derivedFrom pieces p := ⟨p, hp, rfl⟩

theorem derivedFrom_trans {l1 l2 : List CutPiece} {p : CutPiece}
    (h1 : ∀ q ∈ l2, derivedFrom l1 q) (h2 : derivedFrom l2 p) : derivedFrom l1 p := by
  obtain ⟨q, hq, hpq⟩ := h2
  obtain ⟨q', hq', hqq'⟩ := h1 q hq
  refine ⟨q', hq', ?_⟩
  rw [hpq, hqq']

theorem packLoop_nil (rot : Bool) (remaining : List CutPiece) :
    packLoop rot [] remaining = ([], remaining) := rfl

theorem packLoop_cons_empty {remaining : List CutPiece} (rot : Bool) (stock : StockPiece)
    (rest : List StockPiece) (h : remaining.isEmpty = true) :
    packLoop rot (stock :: rest) remaining = ([], remaining) := by
  simp only [packLoop, packLoopWith, h, if_true]

theorem packLoop_cons_nopack {remaining : List CutPiece} {rot : Bool} {stock : StockPiece}
    (rest : List StockPiece) (h : remaining.isEmpty = false)
    (h2 : (packPiecesIntoStock remaining stock rot).packedPieces.isEmpty = true) :
    packLoop rot (stock :: rest) remaining = packLoop rot rest remaining := by
  simp only [packLoop, packLoopWith, h, h2, Bool.false_eq_true, if_false, if_true]

theorem packLoop_cons_pack {remaining : List CutPiece} {rot : Bool} {stock : StockPiece}
    (rest : List StockPiece) (h : remaining.isEmpty = false)
    (h2 : (packPiecesIntoStock remaining stock rot).packedPieces.isEmpty = false) :
    packLoop rot (stock :: rest) remaining =
      (⟨stock.id, calculateCutSequence (packPiecesIntoStock remaining stock rot).packedPieces,
          (packPiecesIntoStock remaining stock rot).wastePercentage⟩ ::
        (packLoop rot rest (packPiecesIntoStock remaining stock rot).unpackedPieces).1,
        (packLoop rot rest (packPiecesIntoStock remaining stock rot).unpackedPieces).2) := by
  simp only [packLoop, packLoopWith, h, h2, Bool.false_eq_true, if_false]

theorem packLoop_rem_goodIds (rot : Bool) :
    ∀ (stocks : List StockPiece) (remaining : List CutPiece), goodIds remaining →
      goodIds (packLoop rot stocks remaining).2 := by
  intro stocks
  induction stocks with
  | nil => intro remaining hg; exact hg
  | cons stock rest ih =>
    intro remaining hg
    cases hemp : remaining.isEmpty with
    | true => rw [packLoop_cons_empty rot stock rest hemp]; exact hg
    | false =>
      cases hpk : (packPiecesIntoStock remaining stock rot).packedPieces.isEmpty with
      | true => rw [packLoop_cons_nopack rest hemp hpk]; exact ih remaining hg
      | false =>
        rw [packLoop_cons_pack rest hemp hpk]
        exact ih _ (packPiecesIntoStock_unpacked_goodIds remaining stock rot hg.2)

theorem packLoop_rem_derived (rot : Bool) :
    ∀ (stocks : List StockPiece) (remaining : List CutPiece),
      ∀ u ∈ (packLoop rot stocks remaining).2, derivedFrom remaining u := by
  intro stocks
  induction stocks with
  | nil => intro remaining u hu; exact derivedFrom_of_mem hu
  | cons stock rest ih =>
    intro remaining u hu
    cases hemp : remaining.isEmpty with
    | true =>
      rw [packLoop_cons_empty rot stock rest hemp] at hu
      exact derivedFrom_of_mem hu
    | false =>
      cases hpk : (packPiecesIntoStock remaining stock rot).packedPieces.isEmpty with
      | true =>
        rw [packLoop_cons_nopack rest hemp hpk] at hu
        exact ih remaining u hu
      | false =>
        rw [packLoop_cons_pack rest hemp hpk] at hu
        have h2 := ih _ u hu
        exact derivedFrom_trans
          (fun q hq => (packPiecesIntoStock_unpacked_mem hq).imp
            (fun p hp => ⟨hp.1, hp.2⟩)) h2

theorem packLoop_conservation (rot : Bool) :
    ∀ (stocks : List StockPiece) (remaining : List CutPiece), goodIds remaining →
      (((packLoop rot stocks remaining).1.flatMap
          (fun l => l.cuts.map (fun c => originId c.cutPieceId))) ++
        expandQty (packLoop rot stocks remaining).2).Perm (expandQty remaining) := by
  intro stocks
  induction stocks with
  | nil => intro remaining _; simp [packLoop_nil]
  | cons stock rest ih =>
    intro remaining hg
    cases hemp : remaining.isEmpty with
    | true => rw [packLoop_cons_empty rot stock rest hemp]; simp
    | false =>
      cases hpk : (packPiecesIntoStock remaining stock rot).packedPieces.isEmpty with
      | true => rw [packLoop_cons_nopack rest hemp hpk]; exact ih remaining hg
      | false =>
        rw [packLoop_cons_pack rest hemp hpk]
        simp only [List.flatMap_cons]
        have hW1 := packPiecesIntoStock_conservation remaining stock rot hg
        have hIH := ih (packPiecesIntoStock remaining stock rot).unpackedPieces
          (packPiecesIntoStock_unpacked_goodIds remaining stock rot hg.2)
        have hcalc := calculateCutSequence_originIds
          (packPiecesIntoStock remaining stock rot).packedPieces
        rw [List.append_assoc]
        exact (hcalc.append hIH).trans hW1

theorem usedAreaOf_calculateCutSequence (ps : List PlacedPiece) :
    usedAreaOf (calculateCutSequence ps) = (ps.map (fun c => c.width * c.height)).sum := by
  unfold usedAreaOf
  exact (calculateCutSequence_areas ps).sum_eq

theorem packLoop_area (rot : Bool) :
    ∀ (stocks : List StockPiece) (remaining : List CutPiece),
      goodIds remaining →
      (∀ p ∈ remaining, 0 ≤ p.width ∧ 0 ≤ p.height) →
      (∀ s ∈ stocks, 0 ≤ s.width ∧ 0 ≤ s.height) →
      ((packLoop rot stocks remaining).1.map (fun l => usedAreaOf l.cuts)).sum +
          demandArea (packLoop rot stocks remaining).2 = demandArea remaining ∧
      ((packLoop rot stocks remaining).1.map (fun l => usedAreaOf l.cuts)).sum ≤
        (stocks.map (fun s => s.width * s.height)).sum := by
  intro stocks
  induction stocks with
  | nil =>
    intro remaining _ _ _
    constructor
    · simp [packLoop_nil]
    · simp [packLoop_nil]
  | cons stock rest ih =>
    intro remaining hg hpos hstk
    have hstock := hstk stock (by simp)
    have hrest : ∀ s ∈ rest, 0 ≤ s.width ∧ 0 ≤ s.height := fun s hs => hstk s (by simp [hs])
    cases hemp : remaining.isEmpty with
    | true =>
      rw [packLoop_cons_empty rot stock rest hemp]
      constructor
      · simp
      · simp only [List.map_nil, List.sum_nil, List.map_cons, List.sum_cons]
        have h1 : (0 : ℚ) ≤ stock.width * stock.height := mul_nonneg hstock.1 hstock.2
        have h2 : (0 : ℚ) ≤ (rest.map (fun s => s.width * s.height)).sum := by
          apply List.sum_nonneg
          intro x hx
          obtain ⟨s, hs, hsx⟩ := List.mem_map.mp hx
          rw [← hsx]
          exact mul_nonneg (hrest s hs).1 (hrest s hs).2
        linarith
    | false =>
      cases hpk : (packPiecesIntoStock remaining stock rot).packedPieces.isEmpty with
      | true =>
        rw [packLoop_cons_nopack rest hemp hpk]
        obtain ⟨ha, hb⟩ := ih remaining hg hpos hrest
        refine ⟨ha, ?_⟩
        simp only [List.map_cons, List.sum_cons]
        have h1 : (0 : ℚ) ≤ stock.width * stock.height := mul_nonneg hstock.1 hstock.2
        linarith
      | false =>
        rw [packLoop_cons_pack rest hemp hpk]
        have hup : ∀ p ∈ (packPiecesIntoStock remaining stock rot).unpackedPieces,
            0 ≤ p.width ∧ 0 ≤ p.height := by
          intro p hp
          obtain ⟨q, hq, hpq⟩ := packPiecesIntoStock_unpacked_mem hp
          have : p.width = q.width ∧ p.height = q.height := by rw [hpq]; exact ⟨rfl, rfl⟩
          rw [this.1, this.2]
          exact hpos q hq
        obtain ⟨ha, hb⟩ := ih (packPiecesIntoStock remaining stock rot).unpackedPieces
          (packPiecesIntoStock_unpacked_goodIds remaining stock rot hg.2) hup hrest
        have harea := packPiecesIntoStock_area_conservation remaining stock rot hg
        have hle := packPiecesIntoStock_usedArea_le remaining stock rot hpos
          hstock.1 hstock.2
        have hused := usedAreaOf_calculateCutSequence
          (packPiecesIntoStock remaining stock rot).packedPieces
        constructor
        · simp only [List.map_cons, List.sum_cons]
          rw [hused]
          linarith
        · simp only [List.map_cons, List.sum_cons]
          rw [hused]
          linarith

theorem packLoop_layouts (rot : Bool) :
    ∀ (stocks : List StockPiece) (remaining : List CutPiece),
      ∀ l ∈ (packLoop rot stocks remaining).1,
        l.cuts ≠ [] ∧
        (∃ s ∈ stocks, s.id = l.stockPieceId) ∧
        ∀ c ∈ l.cuts, ∃ p, derivedFrom remaining p ∧ ∃ i, c.cutPieceId = boxIdOf p.id i ∧
          ((c.width = p.width ∧ c.height = p.height) ∨
            (rot = true ∧ c.width = p.height ∧ c.height = p.width)) := by
  intro stocks
  induction stocks with
  | nil => intro remaining l hl; simp [packLoop_nil] at hl
  | cons stock rest ih =>
    intro remaining l hl
    cases hemp : remaining.isEmpty with
    | true =>
      rw [packLoop_cons_empty rot stock rest hemp] at hl
      simp at hl
    | false =>
      cases hpk : (packPiecesIntoStock remaining stock rot).packedPieces.isEmpty with
      | true =>
        rw [packLoop_cons_nopack rest hemp hpk] at hl
        obtain ⟨h1, ⟨s, hs, hsl⟩, h3⟩ := ih remaining l hl
        exact ⟨h1, ⟨s, by simp [hs], hsl⟩, h3⟩
      | false =>
        rw [packLoop_cons_pack rest hemp hpk] at hl
        rcases List.mem_cons.mp hl with hl | hl
        · subst hl
          refine ⟨?_, ⟨stock, by simp, rfl⟩, ?_⟩
          · intro hc
            have hc2 : calculateCutSequence
                (packPiecesIntoStock remaining stock rot).packedPieces = [] := hc
            have hlen := calculateCutSequence_length
              (packPiecesIntoStock remaining stock rot).packedPieces
            rw [hc2] at hlen
            simp only [List.length_nil] at hlen
            have hne : (packPiecesIntoStock remaining stock rot).packedPieces ≠ [] := by
              simpa [List.isEmpty_iff] using hpk
            exact hne (List.length_eq_zero.mp hlen.symm)
          · intro c hc
            obtain ⟨c', hc', hcc⟩ := calculateCutSequence_mem hc
            obtain ⟨p, hp, i, _, hcid, _, hrel⟩ :=
              packPiecesIntoStock_provenance remaining stock rot hc'
            refine ⟨p, derivedFrom_of_mem hp, i, ?_, ?_⟩
            · rw [hcc.1, hcid]
            · obtain ⟨_, _, _, hw, hh, _⟩ := hcc
              rcases hrel with ⟨h1, h2⟩ | ⟨hr, h1, h2⟩
              · exact Or.inl ⟨by rw [hw, h1], by rw [hh, h2]⟩
              · exact Or.inr ⟨hr, by rw [hw, h1], by rw [hh, h2]⟩
        · obtain ⟨h1, ⟨s, hs, hsl⟩, h3⟩ := ih _ l hl
          refine ⟨h1, ⟨s, by simp [hs], hsl⟩, ?_⟩
          intro c hc
          obtain ⟨p, hder, hrest⟩ := h3 c hc
          refine ⟨p, ?_, hrest⟩
          exact derivedFrom_trans
            (fun q hq => (packPiecesIntoStock_unpacked_mem hq).imp (fun pp hpp => ⟨hpp.1, hpp.2⟩))
            hder

/-! ### Instance counting and thickness partitioning -/

theorem count_expandQty (l : List CutPiece) (pid : String) :
    (expandQty l).count pid =
      ((l.filter (fun u => u.id == pid)).map (fun u => u.quantity)).sum := by
  induction l with
  | nil => simp [expandQty]
  | cons u t ih =>
    simp only [expandQty, List.flatMap_cons, List.count_append, List.filter_cons] at *
    by_cases h : u.id = pid
    · have hbeq : (u.id == pid) = true := by simpa using h
      simp only [hbeq, if_true, List.map_cons, List.sum_cons]
      rw [ih, List.count_replicate]
      simp only [hbeq, if_true]
    · have hbeq : (u.id == pid) = false := by simpa using h
      simp only [hbeq, Bool.false_eq_true, if_false]
      rw [ih, List.count_replicate]
      simp [hbeq]

theorem count_expandQty_self {l : List CutPiece} (hnd : (l.map (fun p => p.id)).Nodup)
    {p : CutPiece} (hp : p ∈ l) : (expandQty l).count p.id = p.quantity := by
  rw [count_expandQty]
  have hfil : l.filter (fun u => u.id == p.id) = [p] := by
    induction l with
    | nil => simp at hp
    | cons a t ih =>
      simp only [List.map_cons] at hnd
      by_cases ha : a.id = p.id
      · have hap : a = p := by
          rcases List.mem_cons.mp hp with h | h
          · exact h.symm
          · exfalso
            have : p.id ∈ t.map (fun q => q.id) := List.mem_map.mpr ⟨p, h, rfl⟩
            rw [← ha] at this
            exact (List.nodup_cons.mp hnd).1 this
        subst hap
        rw [List.filter_cons_of_pos (by simp)]
        have : t.filter (fun u => u.id == a.id) = [] := by
          rw [List.filter_eq_nil_iff]
          intro b hb
          intro hbeq
          have hbid : b.id = a.id := by simpa using hbeq
          exact (List.nodup_cons.mp hnd).1 (by
            rw [← hbid]
            exact List.mem_map.mpr ⟨b, hb, rfl⟩)
        rw [this]
      · have hpt : p ∈ t := by
          rcases List.mem_cons.mp hp with h | h
          · exact absurd (congrArg (fun q => q.id) h.symm) ha
          · exact h
        rw [List.filter_cons_of_neg (by simpa using ha)]
        exact ih (List.nodup_cons.mp hnd).2 hpt
  rw [hfil]
  simp

theorem expandQty_append (l1 l2 : List CutPiece) :
    expandQty (l1 ++ l2) = expandQty l1 ++ expandQty l2 := by
  simp [expandQty]

theorem perm_expandQty {l1 l2 : List CutPiece} (h : l1.Perm l2) :
    (expandQty l1).Perm (expandQty l2) := by
  unfold expandQty
  exact h.flatMap_right _

theorem goodIds_filter {l : List CutPiece} (hg : goodIds l) (q : CutPiece → Bool) :
    goodIds (l.filter q) := by
  refine ⟨?_, ?_⟩
  · exact ((List.filter_sublist l).map (fun p => p.id)).nodup hg.1
  · intro p hp
    exact hg.2 p ((List.filter_sublist l).subset hp)

theorem goodIds_perm {l1 l2 : List CutPiece} (h : l1.Perm l2) (hg : goodIds l1) :
    goodIds l2 := by
  refine ⟨(h.map (fun p => p.id)).nodup_iff.mp hg.1, ?_⟩
  intro p hp
  exact hg.2 p (h.mem_iff.mpr hp)

theorem thicknessKeys_nodup (pieces : List CutPiece) : (thicknessKeys pieces).Nodup := by
  unfold thicknessKeys
  exact (List.perm_insertionSort _ _).nodup_iff.mpr (List.nodup_dedup _)

theorem thicknessKeys_covers {pieces : List CutPiece} {p : CutPiece} (hp : p ∈ pieces) :
    p.thickness ∈ thicknessKeys pieces := by
  unfold thicknessKeys
  rw [(List.perm_insertionSort _ _).mem_iff]
  rw [List.mem_dedup]
  exact List.mem_map.mpr ⟨p, hp, rfl⟩

theorem perm_shuffle {α : Type} (A B C D : List α) :
    ((A ++ B) ++ (C ++ D)).Perm ((A ++ C) ++ (B ++ D)) := by
  have h1 : (A ++ B) ++ (C ++ D) = A ++ ((B ++ C) ++ D) := by
    simp [List.append_assoc]
  have h2 : (A ++ C) ++ (B ++ D) = A ++ ((C ++ B) ++ D) := by
    simp [List.append_assoc]
  rw [h1, h2]
  exact (((List.perm_append_comm).append_right D).append_left A)

theorem filter_keys_partition {α : Type} (th : α → Nat) :
    ∀ (ts : List Nat) (l : List α), ts.Nodup → (∀ x ∈ l, th x ∈ ts) →
      (ts.flatMap (fun t => l.filter (fun x => th x == t))).Perm l := by
  intro ts
  induction ts with
  | nil =>
    intro l _ hall
    cases l with
    | nil => simp
    | cons x t => exact absurd (hall x (by simp)) (by simp)
  | cons t ts' ih =>
    intro l hnd hall
    simp only [List.flatMap_cons]
    have hsplit := List.filter_append_perm (fun x => th x == t) l
    have hrest : ∀ t' ∈ ts', (l.filter (fun x => th x == t')) =
        ((l.filter (fun x => !(th x == t))).filter (fun x => th x == t')) := by
      intro t' ht'
      rw [List.filter_filter]
      apply List.filter_congr
      intro x _
      by_cases hx : th x = t'
      · have ht'' : t' ≠ t := by
          intro hc
          rw [hc] at ht'
          exact (List.nodup_cons.mp hnd).1 ht'
        have h1 : (th x == t') = true := by simpa using hx
        have h2 : (th x == t) = false := by
          simp only [beq_eq_false_iff_ne, ne_eq]
          rw [hx]
          exact ht''
        rw [h1, h2]
        rfl
      · have h1 : (th x == t') = false := by simpa using hx
        rw [h1]
        simp
    have hflatrw : ts'.flatMap (fun t' => l.filter (fun x => th x == t')) =
        ts'.flatMap (fun t' =>
          (l.filter (fun x => !(th x == t))).filter (fun x => th x == t')) := by
      apply List.flatMap_congr
      intro t' ht'
      exact hrest t' ht'
    rw [hflatrw]
    have hih := ih (l.filter (fun x => !(th x == t))) (List.nodup_cons.mp hnd).2 (by
      intro x hx
      have hmem := (List.filter_sublist l).subset hx
      have hth := hall x hmem
      have hne : th x ≠ t := by
        have := List.of_mem_filter hx
        simpa using this
      rcases List.mem_cons.mp hth with h | h
      · exact absurd h hne
      · exact h)
    exact ((List.Perm.append_left _ hih).trans hsplit)

/-! ### The thickness-group fold of the orchestrator -/

theorem demandArea_append (l1 l2 : List CutPiece) :
    demandArea (l1 ++ l2) = demandArea l1 + demandArea l2 := by
  simp [demandArea]

theorem jsSorted_perm {α : Type} (cmp : α → α → ℚ) (l : List α) : (jsSorted cmp l).Perm l :=
  List.perm_insertionSort _ l

theorem groupStep_nostock {rot : Bool} {cutPieces : List CutPiece}
    {avail : List StockPiece} {acc : List CutLayout × List CutPiece} {t : Nat}
    (h : (avail.filter (fun s => s.thickness == t)).isEmpty = true) :
    groupStep rot cutPieces avail acc t =
      (acc.1, acc.2 ++ cutPieces.filter (fun p => p.thickness == t)) := by
  unfold groupStep
  rw [if_pos h]

theorem groupStep_stock {rot : Bool} {cutPieces : List CutPiece}
    {avail : List StockPiece} {acc : List CutLayout × List CutPiece} {t : Nat}
    (h : (avail.filter (fun s => s.thickness == t)).isEmpty = false) :
    groupStep rot cutPieces avail acc t =
      (acc.1 ++ (packLoop rot
          (jsSorted stockAreaDesc (avail.filter (fun s => s.thickness == t)))
          (cutPieces.filter (fun p => p.thickness == t))).1,
        acc.2 ++ (packLoop rot
          (jsSorted stockAreaDesc (avail.filter (fun s => s.thickness == t)))
          (cutPieces.filter (fun p => p.thickness == t))).2) := by
  unfold groupStep
  rw [if_neg (by simp [h])]

theorem foldl_groupStep_conservation (rot : Bool) (cutPieces : List CutPiece)
    (avail : List StockPiece) (hg : goodIds cutPieces) :
    ∀ (keys : List Nat) (acc : List CutLayout × List CutPiece),
      ((keys.foldl (groupStep rot cutPieces avail) acc).1.flatMap
          (fun l => l.cuts.map (fun c => originId c.cutPieceId)) ++
        expandQty (keys.foldl (groupStep rot cutPieces avail) acc).2).Perm
      ((acc.1.flatMap (fun l => l.cuts.map (fun c => originId c.cutPieceId)) ++
          expandQty acc.2) ++
        keys.flatMap (fun t => expandQty (cutPieces.filter (fun p => p.thickness == t)))) := by
  intro keys
  induction keys with
  | nil => intro acc; simp
  | cons t ts ih =>
    intro acc
    simp only [List.foldl_cons, List.flatMap_cons]
    have hstep := ih (groupStep rot cutPieces avail acc t)
    refine hstep.trans ?_
    have hblob : ((groupStep rot cutPieces avail acc t).1.flatMap
        (fun l => l.cuts.map (fun c => originId c.cutPieceId)) ++
        expandQty (groupStep rot cutPieces avail acc t).2).Perm
        ((acc.1.flatMap (fun l => l.cuts.map (fun c => originId c.cutPieceId)) ++
          expandQty acc.2) ++
          expandQty (cutPieces.filter (fun p => p.thickness == t))) := by
      cases hstk : (avail.filter (fun s => s.thickness == t)).isEmpty with
      | true =>
        rw [groupStep_nostock hstk]
        rw [expandQty_append]
        rw [← List.append_assoc]
      | false =>
        rw [groupStep_stock hstk]
        rw [List.flatMap_append, expandQty_append]
        refine (perm_shuffle _ _ _ _).trans ?_
        apply List.Perm.append_left
        exact packLoop_conservation rot _ _ (goodIds_filter hg _)
    refine (hblob.append_right _).trans ?_
    rw [List.append_assoc]

theorem foldl_groupStep_area (rot : Bool) (cutPieces : List CutPiece)
    (avail : List StockPiece) (hg : goodIds cutPieces)
    (hpos : ∀ p ∈ cutPieces, 0 ≤ p.width ∧ 0 ≤ p.height)
    (havail : ∀ s ∈ avail, 0 ≤ s.width ∧ 0 ≤ s.height) :
    ∀ (keys : List Nat) (acc : List CutLayout × List CutPiece),
      (((keys.foldl (groupStep rot cutPieces avail) acc).1.map
          (fun l => usedAreaOf l.cuts)).sum +
        demandArea (keys.foldl (groupStep rot cutPieces avail) acc).2 =
        ((acc.1.map (fun l => usedAreaOf l.cuts)).sum + demandArea acc.2) +
          (keys.map (fun t =>
            demandArea (cutPieces.filter (fun p => p.thickness == t)))).sum) ∧
      ((keys.foldl (groupStep rot cutPieces avail) acc).1.map
          (fun l => usedAreaOf l.cuts)).sum ≤
        (acc.1.map (fun l => usedAreaOf l.cuts)).sum +
          (keys.map (fun t => ((avail.filter (fun s => s.thickness == t)).map
            (fun s => s.width * s.height)).sum)).sum := by
  intro keys
  induction keys with
  | nil => intro acc; constructor <;> simp
  | cons t ts ih =>
    intro acc
    simp only [List.foldl_cons, List.map_cons, List.sum_cons]
    obtain ⟨iha, ihb⟩ := ih (groupStep rot cutPieces avail acc t)
    cases hstk : (avail.filter (fun s => s.thickness == t)).isEmpty with
    | true =>
      rw [groupStep_nostock hstk] at iha ihb ⊢
      simp only [demandArea_append] at iha
      have hfnn : (0 : ℚ) ≤ ((avail.filter (fun s => s.thickness == t)).map
          (fun s => s.width * s.height)).sum := by
        apply List.sum_nonneg
        intro x hx
        obtain ⟨s, hs, hsx⟩ := List.mem_map.mp hx
        have := havail s ((List.filter_sublist avail).subset hs)
        rw [← hsx]
        exact mul_nonneg this.1 this.2
      constructor
      · rw [iha]; ring
      · linarith
    | false =>
      rw [groupStep_stock hstk] at iha ihb ⊢
      simp only [demandArea_append, List.map_append, List.sum_append] at iha ihb
      have hsort : (jsSorted stockAreaDesc (avail.filter (fun s => s.thickness == t))).Perm
          (avail.filter (fun s => s.thickness == t)) := List.perm_insertionSort _ _
      have hstkpos : ∀ s ∈ jsSorted stockAreaDesc
          (avail.filter (fun s => s.thickness == t)), 0 ≤ s.width ∧ 0 ≤ s.height := by
        intro s hs
        exact havail s ((List.filter_sublist avail).subset (hsort.mem_iff.mp hs))
      have hppos : ∀ p ∈ cutPieces.filter (fun p => p.thickness == t),
          0 ≤ p.width ∧ 0 ≤ p.height := by
        intro p hp
        exact hpos p ((List.filter_sublist cutPieces).subset hp)
      obtain ⟨hpa, hpb⟩ := packLoop_area rot
        (jsSorted stockAreaDesc (avail.filter (fun s => s.thickness == t)))
        (cutPieces.filter (fun p => p.thickness == t))
        (goodIds_filter hg _) hppos hstkpos
      have hsorteq : ((jsSorted stockAreaDesc
          (avail.filter (fun s => s.thickness == t))).map
          (fun s => s.width * s.height)).sum =
          ((avail.filter (fun s => s.thickness == t)).map
            (fun s => s.width * s.height)).sum :=
        (hsort.map _).sum_eq
      rw [hsorteq] at hpb
      constructor
      · rw [iha]
        linarith
      · linarith

theorem derivedFrom_filter {l : List CutPiece} {q : CutPiece → Bool} {p : CutPiece}
    (h : derivedFrom (l.filter q) p) : derivedFrom l p := by
  obtain ⟨x, hx, hpx⟩ := h
  exact ⟨x, (List.filter_sublist l).subset hx, hpx⟩

theorem foldl_groupStep_layouts (rot : Bool) (cutPieces : List CutPiece)
    (avail : List StockPiece) :
    ∀ (keys : List Nat) (acc : List CutLayout × List CutPiece),
      ∀ l ∈ (keys.foldl (groupStep rot cutPieces avail) acc).1,
        l ∈ acc.1 ∨
          (l.cuts ≠ [] ∧ (∃ s ∈ avail, s.id = l.stockPieceId) ∧
            ∀ c ∈ l.cuts, ∃ p, derivedFrom cutPieces p ∧
              ∃ i, c.cutPieceId = boxIdOf p.id i ∧
                ((c.width = p.width ∧ c.height = p.height) ∨
                  (rot = true ∧ c.width = p.height ∧ c.height = p.width))) := by
  intro keys
  induction keys with
  | nil => intro acc l hl; exact Or.inl hl
  | cons t ts ih =>
    intro acc l hl
    simp only [List.foldl_cons] at hl
    rcases ih (groupStep rot cutPieces avail acc t) l hl with h | h
    · cases hstk : (avail.filter (fun s => s.thickness == t)).isEmpty with
      | true =>
        rw [groupStep_nostock hstk] at h
        exact Or.inl h
      | false =>
        rw [groupStep_stock hstk] at h
        rcases List.mem_append.mp h with h2 | h2
        · exact Or.inl h2
        · obtain ⟨h3, ⟨s, hs, hsl⟩, h5⟩ := packLoop_layouts rot _ _ l h2
          refine Or.inr ⟨h3, ⟨s, ?_, hsl⟩, ?_⟩
          · have := (jsSorted_perm stockAreaDesc _).mem_iff.mp hs
            exact (List.filter_sublist avail).subset this
          · intro c hc
            obtain ⟨p, hder, hrest⟩ := h5 c hc
            exact ⟨p, derivedFrom_filter hder, hrest⟩
    · exact Or.inr h

theorem foldl_groupStep_noavail (rot : Bool) (cutPieces : List CutPiece) :
    ∀ (keys : List Nat) (acc : List CutLayout × List CutPiece),
      keys.foldl (groupStep rot cutPieces []) acc =
        (acc.1, acc.2 ++ keys.flatMap
          (fun t => cutPieces.filter (fun p => p.thickness == t))) := by
  intro keys
  induction keys with
  | nil => intro acc; simp
  | cons t ts ih =>
    intro acc
    simp only [List.foldl_cons, List.flatMap_cons]
    rw [groupStep_nostock (by simp)]
    rw [ih]
    simp [List.append_assoc]

/-! ### Matcher-level facts -/

theorem expandQty_flatMap (keys : List Nat) (f : Nat → List CutPiece) :
    expandQty (keys.flatMap f) = keys.flatMap (fun t => expandQty (f t)) := by
  induction keys with
  | nil => simp [expandQty]
  | cons t ts ih =>
    simp only [List.flatMap_cons, expandQty_append, ih]

theorem demandArea_flatMap (keys : List Nat) (f : Nat → List CutPiece) :
    demandArea (keys.flatMap f) = (keys.map (fun t => demandArea (f t))).sum := by
  induction keys with
  | nil => simp [demandArea]
  | cons t ts ih =>
    simp only [List.flatMap_cons, demandArea_append, ih, List.map_cons, List.sum_cons]

theorem demandArea_perm {l1 l2 : List CutPiece} (h : l1.Perm l2) :
    demandArea l1 = demandArea l2 := (h.map _).sum_eq

theorem sum_filter_keys_le :
    ∀ (keys : List Nat) (avail : List StockPiece), keys.Nodup →
      (∀ s ∈ avail, 0 ≤ s.width ∧ 0 ≤ s.height) →
      (keys.map (fun t => ((avail.filter (fun s => s.thickness == t)).map
        (fun s => s.width * s.height)).sum)).sum ≤
        (avail.map (fun s => s.width * s.height)).sum := by
  intro keys
  induction keys with
  | nil =>
    intro avail _ hnn
    simp only [List.map_nil, List.sum_nil]
    apply List.sum_nonneg
    intro x hx
    obtain ⟨s, hs, hsx⟩ := List.mem_map.mp hx
    rw [← hsx]
    exact mul_nonneg (hnn s hs).1 (hnn s hs).2
  | cons t ts ih =>
    intro avail hnd hnn
    simp only [List.map_cons, List.sum_cons]
    have hfilsub : ∀ t' ∈ ts, avail.filter (fun s => s.thickness == t') =
        (avail.filter (fun s => !(s.thickness == t))).filter
          (fun s => s.thickness == t') := by
      intro t' ht'
      rw [List.filter_filter]
      apply List.filter_congr
      intro s _
      by_cases hx : s.thickness = t'
      · have ht'' : t' ≠ t := by
          intro hc
          rw [hc] at ht'
          exact (List.nodup_cons.mp hnd).1 ht'
        have h1 : (s.thickness == t') = true := by simpa using hx
        have h2 : (s.thickness == t) = false := by
          simp only [beq_eq_false_iff_ne, ne_eq]
          rw [hx]
          exact ht''
        rw [h1, h2]
        rfl
      · have h1 : (s.thickness == t') = false := by simpa using hx
        rw [h1]
        simp
    have hmapeq : ts.map (fun t' => ((avail.filter (fun s => s.thickness == t')).map
        (fun s => s.width * s.height)).sum) =
        ts.map (fun t' => (((avail.filter (fun s => !(s.thickness == t))).filter
          (fun s => s.thickness == t')).map (fun s => s.width * s.height)).sum) := by
      apply List.map_congr_left
      intro t' ht'
      rw [hfilsub t' ht']
    have hnn2 : ∀ s ∈ avail.filter (fun s => !(s.thickness == t)),
        0 ≤ s.width ∧ 0 ≤ s.height :=
      fun s hs => hnn s ((List.filter_sublist avail).subset hs)
    have hih3 := ih (avail.filter (fun s => !(s.thickness == t)))
      (List.nodup_cons.mp hnd).2 hnn2
    rw [hmapeq]
    have hsplit : ((avail.filter (fun s => s.thickness == t)).map
        (fun s => s.width * s.height)).sum +
        ((avail.filter (fun s => !(s.thickness == t))).map
          (fun s => s.width * s.height)).sum =
        (avail.map (fun s => s.width * s.height)).sum := by
      have hperm := List.filter_append_perm (fun s => s.thickness == t) avail
      have := (hperm.map (fun s : StockPiece => s.width * s.height)).sum_eq
      rw [List.map_append, List.sum_append] at this
      exact this
    linarith

theorem matchPiecesToStock_empty_stock (cutPieces : List CutPiece) (rot : Bool) :
    matchPiecesToStock cutPieces [] rot = ⟨[], cutPieces, 0, 0⟩ := rfl

theorem matchPiecesToStock_eq (cutPieces : List CutPiece) {stockPieces : List StockPiece}
    (rot : Bool) (h : stockPieces.isEmpty = false) :
    matchPiecesToStock cutPieces stockPieces rot =
      ⟨((thicknessKeys cutPieces).foldl
          (groupStep rot cutPieces (stockPieces.filter (fun s => s.available))) ([], [])).1,
        ((thicknessKeys cutPieces).foldl
          (groupStep rot cutPieces (stockPieces.filter (fun s => s.available))) ([], [])).2,
        totalWastePct stockPieces ((thicknessKeys cutPieces).foldl
          (groupStep rot cutPieces (stockPieces.filter (fun s => s.available))) ([], [])).1,
        ((thicknessKeys cutPieces).foldl
          (groupStep rot cutPieces (stockPieces.filter (fun s => s.available))) ([], [])).1.length⟩ := by
  unfold matchPiecesToStock
  rw [if_neg (by simp [h])]

theorem matchPiecesToStock_conservation (cutPieces : List CutPiece)
    (stockPieces : List StockPiece) (rot : Bool) (hg : goodIds cutPieces) :
    (placedOriginIds (matchPiecesToStock cutPieces stockPieces rot) ++
      expandQty (matchPiecesToStock cutPieces stockPieces rot).unmatchedPieces).Perm
      (expandQty cutPieces) := by
  cases hstk : stockPieces.isEmpty with
  | true =>
    have hnil : stockPieces = [] := by simpa [List.isEmpty_iff] using hstk
    subst hnil
    rw [matchPiecesToStock_empty_stock]
    simp [placedOriginIds]
  | false =>
    rw [matchPiecesToStock_eq cutPieces rot hstk]
    have hfold := foldl_groupStep_conservation rot cutPieces
      (stockPieces.filter (fun s => s.available)) hg (thicknessKeys cutPieces) ([], [])
    simp only [List.flatMap_nil, List.append_nil, List.nil_append] at hfold
    have hfold2 : (placedOriginIds
        ⟨((thicknessKeys cutPieces).foldl
            (groupStep rot cutPieces (stockPieces.filter (fun s => s.available))) ([], [])).1,
          ((thicknessKeys cutPieces).foldl
            (groupStep rot cutPieces (stockPieces.filter (fun s => s.available))) ([], [])).2,
          totalWastePct stockPieces ((thicknessKeys cutPieces).foldl
            (groupStep rot cutPieces (stockPieces.filter (fun s => s.available))) ([], [])).1,
          ((thicknessKeys cutPieces).foldl
            (groupStep rot cutPieces
              (stockPieces.filter (fun s => s.available))) ([], [])).1.length⟩ ++
        expandQty ((thicknessKeys cutPieces).foldl
          (groupStep rot cutPieces (stockPieces.filter (fun s => s.available))) ([], [])).2).Perm
        ((thicknessKeys cutPieces).flatMap
          (fun t => expandQty (cutPieces.filter (fun p => p.thickness == t)))) := by
      have hexp : expandQty ([] : List CutPiece) = [] := rfl
      refine List.Perm.trans ?_ hfold
      apply List.Perm.of_eq
      rfl
    refine hfold2.trans ?_
    rw [← expandQty_flatMap]
    apply perm_expandQty
    exact filter_keys_partition (fun p => p.thickness) (thicknessKeys cutPieces)
      cutPieces (thicknessKeys_nodup cutPieces)
      (fun p hp => thicknessKeys_covers hp)

theorem matchPiecesToStock_layouts (cutPieces : List CutPiece)
    (stockPieces : List StockPiece) (rot : Bool) :
    ∀ l ∈ (matchPiecesToStock cutPieces stockPieces rot).layouts,
      l.cuts ≠ [] ∧
      (∃ s ∈ stockPieces.filter (fun s => s.available), s.id = l.stockPieceId) ∧
      ∀ c ∈ l.cuts, ∃ p, derivedFrom cutPieces p ∧
        ∃ i, c.cutPieceId = boxIdOf p.id i ∧
          ((c.width = p.width ∧ c.height = p.height) ∨
            (rot = true ∧ c.width = p.height ∧ c.height = p.width)) := by
  intro l hl
  cases hstk : stockPieces.isEmpty with
  | true =>
    have hnil : stockPieces = [] := by simpa [List.isEmpty_iff] using hstk
    subst hnil
    rw [matchPiecesToStock_empty_stock] at hl
    simp at hl
  | false =>
    rw [matchPiecesToStock_eq cutPieces rot hstk] at hl
    have hl2 : l ∈ ((thicknessKeys cutPieces).foldl
        (groupStep rot cutPieces (stockPieces.filter (fun s => s.available))) ([], [])).1 := hl
    rcases foldl_groupStep_layouts rot cutPieces (stockPieces.filter (fun s => s.available))
      (thicknessKeys cutPieces) ([], []) l hl2 with h | h
    · simp at h
    · exact h

theorem matchPiecesToStock_stockUsed (cutPieces : List CutPiece)
    (stockPieces : List StockPiece) (rot : Bool) :
    (matchPiecesToStock cutPieces stockPieces rot).stockUsed =
      (matchPiecesToStock cutPieces stockPieces rot).layouts.length := by
  cases hstk : stockPieces.isEmpty with
  | true =>
    have hnil : stockPieces = [] := by simpa [List.isEmpty_iff] using hstk
    subst hnil
    rfl
  | false =>
    rw [matchPiecesToStock_eq cutPieces rot hstk]

theorem matchPiecesToStock_area (cutPieces : List CutPiece)
    (stockPieces : List StockPiece) (rot : Bool) (hg : goodIds cutPieces)
    (hpos : ∀ p ∈ cutPieces, 0 ≤ p.width ∧ 0 ≤ p.height)
    (hstk : ∀ s ∈ stockPieces, 0 ≤ s.width ∧ 0 ≤ s.height)
    (hempty : (matchPiecesToStock cutPieces stockPieces rot).unmatchedPieces = []) :
    demandArea cutPieces ≤
      ((stockPieces.filter (fun s => s.available)).map (fun s => s.width * s.height)).sum := by
  cases hstke : stockPieces.isEmpty with
  | true =>
    have hnil : stockPieces = [] := by simpa [List.isEmpty_iff] using hstke
    subst hnil
    rw [matchPiecesToStock_empty_stock] at hempty
    simp only at hempty
    subst hempty
    simp [demandArea]
  | false =>
    have havail : ∀ s ∈ stockPieces.filter (fun s => s.available),
        0 ≤ s.width ∧ 0 ≤ s.height :=
      fun s hs => hstk s ((List.filter_sublist stockPieces).subset hs)
    obtain ⟨ha, hb⟩ := foldl_groupStep_area rot cutPieces
      (stockPieces.filter (fun s => s.available)) hg hpos havail
      (thicknessKeys cutPieces) ([], [])
    have hune : ((thicknessKeys cutPieces).foldl
        (groupStep rot cutPieces (stockPieces.filter (fun s => s.available))) ([], [])).2 =
        [] := by
      have := hempty
      rw [matchPiecesToStock_eq cutPieces rot hstke] at this
      exact this
    rw [hune] at ha
    have hdem : (((thicknessKeys cutPieces)).map (fun t =>
        demandArea (cutPieces.filter (fun p => p.thickness == t)))).sum =
        demandArea cutPieces := by
      rw [← demandArea_flatMap]
      apply demandArea_perm
      exact filter_keys_partition (fun p => p.thickness) (thicknessKeys cutPieces)
        cutPieces (thicknessKeys_nodup cutPieces) (fun p hp => thicknessKeys_covers hp)
    have hkle := sum_filter_keys_le (thicknessKeys cutPieces)
      (stockPieces.filter (fun s => s.available)) (thicknessKeys_nodup cutPieces) havail
    have hdem0 : demandArea ([] : List CutPiece) = 0 := rfl
    rw [hdem0] at ha
    simp only [List.map_nil, List.sum_nil] at ha hb
    rw [hdem] at ha
    linarith

theorem matchPiecesMinimizeSheets_empty_stock (cutPieces : List CutPiece) :
    matchPiecesMinimizeSheets cutPieces [] = ⟨[], cutPieces, 0, 0⟩ := rfl

theorem matchPiecesMinimizeSheets_eq (cutPieces : List CutPiece)
    {stockPieces : List StockPiece} (h : stockPieces.isEmpty = false) :
    matchPiecesMinimizeSheets cutPieces stockPieces =
      ⟨(packLoop true (jsSorted stockAreaDesc (stockPieces.filter (fun s => s.available)))
          (jsSorted pieceAreaDesc cutPieces)).1,
        (packLoop true (jsSorted stockAreaDesc (stockPieces.filter (fun s => s.available)))
          (jsSorted pieceAreaDesc cutPieces)).2,
        totalWastePct stockPieces
          (packLoop true (jsSorted stockAreaDesc (stockPieces.filter (fun s => s.available)))
            (jsSorted pieceAreaDesc cutPieces)).1,
        (packLoop true (jsSorted stockAreaDesc (stockPieces.filter (fun s => s.available)))
          (jsSorted pieceAreaDesc cutPieces)).1.length⟩ := by
  unfold matchPiecesMinimizeSheets
  rw [if_neg (by simp [h])]

theorem matchPiecesMinimizeSheets_conservation (cutPieces : List CutPiece)
    (stockPieces : List StockPiece) (hg : goodIds cutPieces) :
    (placedOriginIds (matchPiecesMinimizeSheets cutPieces stockPieces) ++
      expandQty (matchPiecesMinimizeSheets cutPieces stockPieces).unmatchedPieces).Perm
      (expandQty cutPieces) := by
  cases hstk : stockPieces.isEmpty with
  | true =>
    have hnil : stockPieces = [] := by simpa [List.isEmpty_iff] using hstk
    subst hnil
    rw [matchPiecesMinimizeSheets_empty_stock]
    simp [placedOriginIds]
  | false =>
    rw [matchPiecesMinimizeSheets_eq cutPieces hstk]
    have hgs : goodIds (jsSorted pieceAreaDesc cutPieces) :=
      goodIds_perm (jsSorted_perm pieceAreaDesc cutPieces).symm hg
    have hpl := packLoop_conservation true
      (jsSorted stockAreaDesc (stockPieces.filter (fun s => s.available)))
      (jsSorted pieceAreaDesc cutPieces) hgs
    refine List.Perm.trans ?_ (hpl.trans (perm_expandQty (jsSorted_perm pieceAreaDesc cutPieces)))
    apply List.Perm.of_eq
    rfl

theorem matchPiecesMinimizeSheets_area (cutPieces : List CutPiece)
    (stockPieces : List StockPiece) (hg : goodIds cutPieces)
    (hpos : ∀ p ∈ cutPieces, 0 ≤ p.width ∧ 0 ≤ p.height)
    (hstk : ∀ s ∈ stockPieces, 0 ≤ s.width ∧ 0 ≤ s.height)
    (hempty : (matchPiecesMinimizeSheets cutPieces stockPieces).unmatchedPieces = []) :
    demandArea cutPieces ≤
      ((stockPieces.filter (fun s => s.available)).map (fun s => s.width * s.height)).sum := by
  cases hstke : stockPieces.isEmpty with
  | true =>
    have hnil : stockPieces = [] := by simpa [List.isEmpty_iff] using hstke
    subst hnil
    rw [matchPiecesMinimizeSheets_empty_stock] at hempty
    simp only at hempty
    subst hempty
    simp [demandArea]
  | false =>
    have hgs : goodIds (jsSorted pieceAreaDesc cutPieces) :=
      goodIds_perm (jsSorted_perm pieceAreaDesc cutPieces).symm hg
    have hpossort : ∀ p ∈ jsSorted pieceAreaDesc cutPieces, 0 ≤ p.width ∧ 0 ≤ p.height :=
      fun p hp => hpos p ((jsSorted_perm pieceAreaDesc cutPieces).mem_iff.mp hp)
    have hstksort : ∀ s ∈ jsSorted stockAreaDesc (stockPieces.filter (fun s => s.available)),
        0 ≤ s.width ∧ 0 ≤ s.height := by
      intro s hs
      exact hstk s ((List.filter_sublist stockPieces).subset
        ((jsSorted_perm stockAreaDesc _).mem_iff.mp hs))
    obtain ⟨ha, hb⟩ := packLoop_area true
      (jsSorted stockAreaDesc (stockPieces.filter (fun s => s.available)))
      (jsSorted pieceAreaDesc cutPieces) hgs hpossort hstksort
    have hune : (packLoop true
        (jsSorted stockAreaDesc (stockPieces.filter (fun s => s.available)))
        (jsSorted pieceAreaDesc cutPieces)).2 = [] := by
      have := hempty
      rw [matchPiecesMinimizeSheets_eq cutPieces hstke] at this
      exact this
    rw [hune] at ha
    have hdem0 : demandArea ([] : List CutPiece) = 0 := rfl
    rw [hdem0] at ha
    have hdemsort : demandArea (jsSorted pieceAreaDesc cutPieces) = demandArea cutPieces :=
      demandArea_perm (jsSorted_perm pieceAreaDesc cutPieces)
    have hstkeq : ((jsSorted stockAreaDesc
        (stockPieces.filter (fun s => s.available))).map (fun s => s.width * s.height)).sum =
        ((stockPieces.filter (fun s => s.available)).map (fun s => s.width * s.height)).sum :=
      ((jsSorted_perm stockAreaDesc _).map _).sum_eq
    rw [hstkeq] at hb
    rw [hdemsort] at ha
    linarith

theorem matchPiecesMinimizeSheets_layouts (cutPieces : List CutPiece)
    (stockPieces : List StockPiece) :
    ∀ l ∈ (matchPiecesMinimizeSheets cutPieces stockPieces).layouts,
      l.cuts ≠ [] ∧
      (∃ s ∈ stockPieces.filter (fun s => s.available), s.id = l.stockPieceId) ∧
      ∀ c ∈ l.cuts, ∃ p, derivedFrom cutPieces p ∧
        ∃ i, c.cutPieceId = boxIdOf p.id i ∧
          ((c.width = p.width ∧ c.height = p.height) ∨
            (c.width = p.height ∧ c.height = p.width)) := by
  intro l hl
  cases hstk : stockPieces.isEmpty with
  | true =>
    have hnil : stockPieces = [] := by simpa [List.isEmpty_iff] using hstk
    subst hnil
    rw [matchPiecesMinimizeSheets_empty_stock] at hl
    simp at hl
  | false =>
    rw [matchPiecesMinimizeSheets_eq cutPieces hstk] at hl
    have hl2 : l ∈ (packLoop true
        (jsSorted stockAreaDesc (stockPieces.filter (fun s => s.available)))
        (jsSorted pieceAreaDesc cutPieces)).1 := hl
    obtain ⟨h1, ⟨s, hs, hsl⟩, h3⟩ := packLoop_layouts true _ _ l hl2
    refine ⟨h1, ⟨s, (jsSorted_perm stockAreaDesc _).mem_iff.mp hs, hsl⟩, ?_⟩
    intro c hc
    obtain ⟨p, hder, i, hcid, hrel⟩ := h3 c hc
    obtain ⟨q, hq, hpq⟩ := hder
    refine ⟨p, ⟨q, (jsSorted_perm pieceAreaDesc cutPieces).mem_iff.mp hq, hpq⟩, i, hcid, ?_⟩
    rcases hrel with ⟨h4, h5⟩ | ⟨_, h4, h5⟩
    · exact Or.inl ⟨h4, h5⟩
    · exact Or.inr ⟨h4, h5⟩

theorem matchPiecesMinimizeSheets_stockUsed (cutPieces : List CutPiece)
    (stockPieces : List StockPiece) :
    (matchPiecesMinimizeSheets cutPieces stockPieces).stockUsed =
      (matchPiecesMinimizeSheets cutPieces stockPieces).layouts.length := by
  cases hstk : stockPieces.isEmpty with
  | true =>
    have hnil : stockPieces = [] := by simpa [List.isEmpty_iff] using hstk
    subst hnil
    rfl
  | false =>
    rw [matchPiecesMinimizeSheets_eq cutPieces hstk]

/-! ### The optimizer entry point -/

theorem optimizeCuts_empty_demand (stockPieces : List StockPiece) (opts : OptimizationOptions) :
    optimizeCuts [] stockPieces opts = ⟨[], [], 0, 0⟩ := rfl

theorem optimizeCuts_empty_stock {cutPieces : List CutPiece} (hc : cutPieces.isEmpty = false)
    (opts : OptimizationOptions) : optimizeCuts cutPieces [] opts = ⟨[], cutPieces, 0, 0⟩ := by
  unfold optimizeCuts
  rw [if_neg (by simp [hc]), if_pos (by simp)]

theorem optimizeCuts_dispatch {cutPieces : List CutPiece} {stockPieces : List StockPiece}
    (opts : OptimizationOptions) (hc : cutPieces.isEmpty = false)
    (hs : stockPieces.isEmpty = false) :
    optimizeCuts cutPieces stockPieces opts =
      (match opts.mode with
      | OptimizationMode.minimizeWaste =>
        matchPiecesToStock cutPieces stockPieces (opts.allowRotation.getD true)
      | OptimizationMode.simplifyCuts => matchPiecesSimpleCuts cutPieces stockPieces
      | OptimizationMode.grainDirection => matchPiecesGrainDirection cutPieces stockPieces
      | OptimizationMode.minimizeSheets => matchPiecesMinimizeSheets cutPieces stockPieces
      | OptimizationMode.largestFirst => matchPiecesLargestFirst cutPieces stockPieces
      | OptimizationMode.edgeAlignment => matchPiecesEdgeAlignment cutPieces stockPieces) := by
  unfold optimizeCuts
  rw [if_neg (by simp [hc]), if_neg (by simp [hs])]

theorem optimizeCuts_conservation (cutPieces : List CutPiece) (stockPieces : List StockPiece)
    (opts : OptimizationOptions) (hg : goodIds cutPieces) :
    (placedOriginIds (optimizeCuts cutPieces stockPieces opts) ++
      expandQty (optimizeCuts cutPieces stockPieces opts).unmatchedPieces).Perm
      (expandQty cutPieces) := by
  cases hc : cutPieces.isEmpty with
  | true =>
    have hnil : cutPieces = [] := by simpa [List.isEmpty_iff] using hc
    subst hnil
    rw [optimizeCuts_empty_demand]
    simp [placedOriginIds, expandQty]
  | false =>
    cases hs : stockPieces.isEmpty with
    | true =>
      have hnil : stockPieces = [] := by simpa [List.isEmpty_iff] using hs
      subst hnil
      rw [optimizeCuts_empty_stock hc opts]
      simp [placedOriginIds]
    | false =>
      rw [optimizeCuts_dispatch opts hc hs]
      cases opts.mode with
      | minimizeWaste => exact matchPiecesToStock_conservation cutPieces stockPieces _ hg
      | simplifyCuts =>
        have h := matchPiecesToStock_conservation (jsSorted pieceAreaDesc cutPieces)
          stockPieces false (goodIds_perm (jsSorted_perm pieceAreaDesc cutPieces).symm hg)
        exact h.trans (perm_expandQty (jsSorted_perm pieceAreaDesc cutPieces))
      | grainDirection =>
        have h := matchPiecesToStock_conservation (jsSorted categoryAsc cutPieces)
          stockPieces false (goodIds_perm (jsSorted_perm categoryAsc cutPieces).symm hg)
        exact h.trans (perm_expandQty (jsSorted_perm categoryAsc cutPieces))
      | minimizeSheets => exact matchPiecesMinimizeSheets_conservation cutPieces stockPieces hg
      | largestFirst =>
        have h := matchPiecesToStock_conservation (jsSorted pieceAreaDesc cutPieces)
          stockPieces true (goodIds_perm (jsSorted_perm pieceAreaDesc cutPieces).symm hg)
        exact h.trans (perm_expandQty (jsSorted_perm pieceAreaDesc cutPieces))
      | edgeAlignment =>
        have h := matchPiecesToStock_conservation (jsSorted perimeterDesc cutPieces)
          stockPieces false (goodIds_perm (jsSorted_perm perimeterDesc cutPieces).symm hg)
        exact h.trans (perm_expandQty (jsSorted_perm perimeterDesc cutPieces))

/-! ### Material estimation and sufficiency -/

/-- The fold step of `estimateMaterialNeeded`, named for reasoning. -/
def matStep (acc : MaterialEstimate) (p : CutPiece) : MaterialEstimate :=
  let withTotals : MaterialEstimate :=
    ⟨acc.totalArea + p.width * p.height * (p.quantity : ℚ),
      acc.pieceCount + p.quantity, acc.largestPiece⟩
  if acc.largestPiece.1 * acc.largestPiece.2 < p.width * p.height then
    ⟨withTotals.totalArea, withTotals.pieceCount, (p.width, p.height)⟩
  else withTotals

theorem estimateMaterialNeeded_eq_foldl (l : List CutPiece) :
    estimateMaterialNeeded l = l.foldl matStep ⟨0, 0, (0, 0)⟩ := rfl

theorem foldl_matStep_totalArea :
    ∀ (l : List CutPiece) (acc : MaterialEstimate),
      (l.foldl matStep acc).totalArea = acc.totalArea + demandArea l := by
  intro l
  induction l with
  | nil => intro acc; simp [demandArea]
  | cons p t ih =>
    intro acc
    simp only [List.foldl_cons]
    rw [ih]
    have hstep : (matStep acc p).totalArea =
        acc.totalArea + p.width * p.height * (p.quantity : ℚ) := by
      unfold matStep
      by_cases h : acc.largestPiece.1 * acc.largestPiece.2 < p.width * p.height
      · rw [if_pos h]
      · rw [if_neg h]
    rw [hstep]
    simp only [demandArea, List.map_cons, List.sum_cons]
    ring

theorem estimateMaterialNeeded_totalArea (l : List CutPiece) :
    (estimateMaterialNeeded l).totalArea = demandArea l := by
  rw [estimateMaterialNeeded_eq_foldl, foldl_matStep_totalArea]
  simp

theorem checkStockSufficiency_insufficient {cutPieces : List CutPiece}
    {stockPieces : List StockPiece}
    (h : (checkStockSufficiency cutPieces stockPieces).isSufficient = false) :
    ((stockPieces.filter (fun s => s.available)).map (fun s => s.width * s.height)).sum <
      demandArea cutPieces := by
  have heq : (checkStockSufficiency cutPieces stockPieces).isSufficient =
      (max 0 ((estimateMaterialNeeded cutPieces).totalArea -
        ((stockPieces.filter (fun s => s.available)).map
          (fun s => s.width * s.height)).sum) == 0) := rfl
  rw [heq, estimateMaterialNeeded_totalArea] at h
  have hne : max 0 (demandArea cutPieces -
      ((stockPieces.filter (fun s => s.available)).map
        (fun s => s.width * s.height)).sum) ≠ 0 := by
    simpa using h
  by_contra hle
  push_neg at hle
  exact hne (max_eq_left (sub_nonpos.mpr hle))

/-! ### All supply unavailable -/

theorem totalWastePct_nil (stockPieces : List StockPiece) :
    totalWastePct stockPieces [] = 0 := by
  simp [totalWastePct]

theorem matchPiecesToStock_noavail (cutPieces : List CutPiece) {stockPieces : List StockPiece}
    (rot : Bool) (hne : stockPieces.isEmpty = false)
    (hud : stockPieces.filter (fun s => s.available) = []) :
    (matchPiecesToStock cutPieces stockPieces rot).layouts = [] ∧
    (matchPiecesToStock cutPieces stockPieces rot).unmatchedPieces.Perm cutPieces ∧
    (matchPiecesToStock cutPieces stockPieces rot).totalWastePercentage = 0 ∧
    (matchPiecesToStock cutPieces stockPieces rot).stockUsed = 0 := by
  rw [matchPiecesToStock_eq cutPieces rot hne, hud]
  rw [foldl_groupStep_noavail]
  refine ⟨rfl, ?_, ?_, rfl⟩
  · simp only [List.nil_append]
    exact filter_keys_partition (fun p => p.thickness) (thicknessKeys cutPieces)
      cutPieces (thicknessKeys_nodup cutPieces) (fun p hp => thicknessKeys_covers hp)
  · exact totalWastePct_nil stockPieces

theorem matchPiecesMinimizeSheets_noavail (cutPieces : List CutPiece)
    {stockPieces : List StockPiece} (hne : stockPieces.isEmpty = false)
    (hud : stockPieces.filter (fun s => s.available) = []) :
    (matchPiecesMinimizeSheets cutPieces stockPieces).layouts = [] ∧
    (matchPiecesMinimizeSheets cutPieces stockPieces).unmatchedPieces.Perm cutPieces ∧
    (matchPiecesMinimizeSheets cutPieces stockPieces).totalWastePercentage = 0 ∧
    (matchPiecesMinimizeSheets cutPieces stockPieces).stockUsed = 0 := by
  rw [matchPiecesMinimizeSheets_eq cutPieces hne, hud]
  have hs : jsSorted stockAreaDesc ([] : List StockPiece) = [] := rfl
  rw [hs, packLoop_nil]
  exact ⟨rfl, jsSorted_perm pieceAreaDesc cutPieces, totalWastePct_nil stockPieces, rfl⟩

/-! ### Sortedness of the cut sequence under row separation -/

theorem cutCmp_total (a b : PlacedPiece) : cutCmp a b ≤ 0 ∨ cutCmp b a ≤ 0 := by
  unfold cutCmp
  have habs : ratAbs (b.y - a.y) = ratAbs (a.y - b.y) := by
    rw [ratAbs_eq_abs, ratAbs_eq_abs, abs_sub_comm]
  by_cases h : ratAbs (a.y - b.y) < 10
  · rw [if_pos h, if_pos (by rw [habs]; exact h)]
    rcases le_total a.x b.x with hx | hx
    · exact Or.inl (by linarith)
    · exact Or.inr (by linarith)
  · rw [if_neg h, if_neg (by rw [habs]; exact h)]
    rcases le_total a.y b.y with hy | hy
    · exact Or.inl (by linarith)
    · exact Or.inr (by linarith)

theorem cutLe_total (a b : PlacedPiece) : cutLe a b ∨ cutLe b a := cutCmp_total a b

theorem sep_le {x y : ℚ} (hle : x - y ≤ 0) (hsep : 10 ≤ ratAbs (x - y)) : x + 10 ≤ y := by
  unfold ratAbs at hsep
  split_ifs at hsep with hs
  · linarith
  · linarith

theorem notlt_of_gap {x y : ℚ} (h : x + 10 ≤ y) : ¬ ratAbs (x - y) < 10 := by
  rw [not_lt]
  unfold ratAbs
  split_ifs with hs
  · linarith
  · linarith

theorem cutLe_trans_sep {a b c : PlacedPiece}
    (hab : a.y = b.y ∨ 10 ≤ ratAbs (a.y - b.y))
    (hbc : b.y = c.y ∨ 10 ≤ ratAbs (b.y - c.y))
    (h1 : cutLe a b) (h2 : cutLe b c) : cutLe a c := by
  unfold cutLe cutCmp at h1 h2 ⊢
  rcases hab with hab | hab
  · have hc1 : ratAbs (a.y - b.y) < 10 := by
      have hz : a.y - b.y = 0 := by rw [hab]; ring
      rw [hz]
      norm_num [ratAbs]
    rw [if_pos hc1] at h1
    rcases hbc with hbc | hbc
    · have hc2 : ratAbs (b.y - c.y) < 10 := by
        have hz : b.y - c.y = 0 := by rw [hbc]; ring
        rw [hz]
        norm_num [ratAbs]
      rw [if_pos hc2] at h2
      have hc3 : ratAbs (a.y - c.y) < 10 := by
        have hz : a.y - c.y = 0 := by rw [hab, hbc]; ring
        rw [hz]
        norm_num [ratAbs]
      rw [if_pos hc3]
      linarith
    · have hc2 : ¬ ratAbs (b.y - c.y) < 10 := not_lt.mpr hbc
      rw [if_neg hc2] at h2
      have hgap : b.y + 10 ≤ c.y := sep_le h2 hbc
      have hc3 : ¬ ratAbs (a.y - c.y) < 10 := notlt_of_gap (by linarith)
      rw [if_neg hc3]
      linarith
  · have hc1 : ¬ ratAbs (a.y - b.y) < 10 := not_lt.mpr hab
    rw [if_neg hc1] at h1
    have hgap1 : a.y + 10 ≤ b.y := sep_le h1 hab
    rcases hbc with hbc | hbc
    · have hc3 : ¬ ratAbs (a.y - c.y) < 10 := notlt_of_gap (by linarith [hbc])
      rw [if_neg hc3]
      linarith [hbc]
    · have hc2 : ¬ ratAbs (b.y - c.y) < 10 := not_lt.mpr hbc
      rw [if_neg hc2] at h2
      have hgap2 : b.y + 10 ≤ c.y := sep_le h2 hbc
      have hc3 : ¬ ratAbs (a.y - c.y) < 10 := notlt_of_gap (by linarith)
      rw [if_neg hc3]
      linarith

theorem orderedInsert_pairwise_restricted {α : Type} {r : α → α → Prop} [DecidableRel r]
    (S : List α)
    (htot : ∀ a ∈ S, ∀ b ∈ S, r a b ∨ r b a)
    (htrans : ∀ a ∈ S, ∀ b ∈ S, ∀ c ∈ S, r a b → r b c → r a c) :
    ∀ (l : List α) (a : α), a ∈ S → (∀ x ∈ l, x ∈ S) → l.Pairwise r →
      (List.orderedInsert r a l).Pairwise r := by
  intro l
  induction l with
  | nil =>
    intro a _ _ _
    simp
  | cons b bs ih =>
    intro a haS hlS hp
    rw [List.orderedInsert]
    by_cases hab : r a b
    · rw [if_pos hab]
      refine List.pairwise_cons.mpr ⟨?_, hp⟩
      intro x hx
      rcases List.mem_cons.mp hx with hx | hx
      · exact hx ▸ hab
      · have hbx : r b x := (List.pairwise_cons.mp hp).1 x hx
        exact htrans a haS b (hlS b (by simp)) x (hlS x (by simp [hx])) hab hbx
    · rw [if_neg hab]
      have hba : r b a := (htot a haS b (hlS b (by simp))).resolve_left hab
      refine List.pairwise_cons.mpr ⟨?_, ?_⟩
      · intro x hx
        rcases (List.mem_orderedInsert r).mp hx with hx | hx
        · exact hx ▸ hba
        · exact (List.pairwise_cons.mp hp).1 x hx
      · exact ih a haS (fun x hx => hlS x (by simp [hx])) (List.pairwise_cons.mp hp).2

theorem insertionSort_pairwise_restricted {α : Type} {r : α → α → Prop} [DecidableRel r] :
    ∀ l : List α,
      (∀ a ∈ l, ∀ b ∈ l, r a b ∨ r b a) →
      (∀ a ∈ l, ∀ b ∈ l, ∀ c ∈ l, r a b → r b c → r a c) →
      (List.insertionSort r l).Pairwise r := by
  intro l
  induction l with
  | nil =>
    intro _ _
    simp
  | cons x t ih =>
    intro htot htrans
    rw [List.insertionSort]
    refine orderedInsert_pairwise_restricted (x :: t) htot htrans
      (List.insertionSort r t) x (by simp) ?_ ?_
    · intro y hy
      have : y ∈ t := (List.mem_insertionSort r).mp hy
      simp [this]
    · refine ih ?_ ?_
      · intro a ha b hb
        exact htot a (by simp [ha]) b (by simp [hb])
      · intro a ha b hb c hc
        exact htrans a (by simp [ha]) b (by simp [hb]) c (by simp [hc])

theorem calculateCutSequence_sorted (ps : List PlacedPiece)
    (hsep : ∀ a ∈ ps, ∀ b ∈ ps, a.y = b.y ∨ 10 ≤ ratAbs (a.y - b.y)) :
    (calculateCutSequence ps).Pairwise cutLe := by
  have hs : (jsSorted cutCmp ps).Pairwise cutLe := by
    refine insertionSort_pairwise_restricted ps ?_ ?_
    · intro a _ b _
      exact cutLe_total a b
    · intro a ha b hb c hc h1 h2
      exact cutLe_trans_sep (hsep a ha b hb) (hsep b hb c hc) h1 h2
  have hse : (jsSorted cutCmp ps).enum.map Prod.snd = jsSorted cutCmp ps :=
    List.enum_map_snd _
  have hpe : ((jsSorted cutCmp ps).enum).Pairwise
      (fun ip jq : Nat × PlacedPiece => cutLe ip.2 jq.2) := by
    rw [← hse] at hs
    exact List.pairwise_map.mp hs
  unfold calculateCutSequence
  rw [List.pairwise_map]
  exact hpe

/-! ### Mode-independent facts about the optimizer -/

theorem matchPiecesToStock_empty_demand {stockPieces : List StockPiece}
    (hne : stockPieces.isEmpty = false) (rot : Bool) :
    matchPiecesToStock [] stockPieces rot = ⟨[], [], 0, 0⟩ := by
  rw [matchPiecesToStock_eq [] rot hne]
  have hk : thicknessKeys ([] : List CutPiece) = [] := rfl
  rw [hk]
  simp only [List.foldl_nil]
  rw [totalWastePct_nil]
  rfl

theorem matchPiecesToStock_rotation (cutPieces : List CutPiece)
    (stockPieces : List StockPiece) (rot : Bool) :
    ∀ l ∈ (matchPiecesToStock cutPieces stockPieces rot).layouts, ∀ c ∈ l.cuts,
      ∃ p ∈ cutPieces, ∃ i, c.cutPieceId = boxIdOf p.id i ∧
        ((c.width = p.width ∧ c.height = p.height) ∨
          (rot = true ∧ c.width = p.height ∧ c.height = p.width)) := by
  intro l hl c hc
  obtain ⟨-, -, h3⟩ := matchPiecesToStock_layouts cutPieces stockPieces rot l hl
  obtain ⟨p, ⟨q, hq, hpq⟩, i, hcid, hrel⟩ := h3 c hc
  rw [hpq] at hcid hrel
  dsimp only at hcid hrel
  exact ⟨q, hq, i, hcid, hrel⟩

theorem matchPiecesMinimizeSheets_rotation (cutPieces : List CutPiece)
    (stockPieces : List StockPiece) :
    ∀ l ∈ (matchPiecesMinimizeSheets cutPieces stockPieces).layouts, ∀ c ∈ l.cuts,
      ∃ p ∈ cutPieces, ∃ i, c.cutPieceId = boxIdOf p.id i ∧
        ((c.width = p.width ∧ c.height = p.height) ∨
          (c.width = p.height ∧ c.height = p.width)) := by
  intro l hl c hc
  obtain ⟨-, -, h3⟩ := matchPiecesMinimizeSheets_layouts cutPieces stockPieces l hl
  obtain ⟨p, ⟨q, hq, hpq⟩, i, hcid, hrel⟩ := h3 c hc
  rw [hpq] at hcid hrel
  dsimp only at hcid hrel
  exact ⟨q, hq, i, hcid, hrel⟩

theorem optimizeCuts_rotation (cutPieces : List CutPiece) (stockPieces : List StockPiece)
    (opts : OptimizationOptions) :
    ∀ l ∈ (optimizeCuts cutPieces stockPieces opts).layouts, ∀ c ∈ l.cuts,
      ∃ p ∈ cutPieces, ∃ i, c.cutPieceId = boxIdOf p.id i ∧
        ((c.width = p.width ∧ c.height = p.height) ∨
          (c.width = p.height ∧ c.height = p.width)) := by
  intro l hl c hc
  cases hce : cutPieces.isEmpty with
  | true =>
    have hnil : cutPieces = [] := by simpa [List.isEmpty_iff] using hce
    subst hnil
    rw [optimizeCuts_empty_demand] at hl
    simp at hl
  | false =>
    cases hse : stockPieces.isEmpty with
    | true =>
      have hnil : stockPieces = [] := by simpa [List.isEmpty_iff] using hse
      subst hnil
      rw [optimizeCuts_empty_stock hce opts] at hl
      simp at hl
    | false =>
      obtain ⟨mode, ar⟩ := opts
      have hweaken : ∀ (src : List CutPiece) (rot : Bool),
          (∀ l2 ∈ (matchPiecesToStock src stockPieces rot).layouts, ∀ c2 ∈ l2.cuts,
            ∃ p ∈ src, ∃ i, c2.cutPieceId = boxIdOf p.id i ∧
              ((c2.width = p.width ∧ c2.height = p.height) ∨
                (rot = true ∧ c2.width = p.height ∧ c2.height = p.width))) →
          src.Perm cutPieces →
          l ∈ (matchPiecesToStock src stockPieces rot).layouts →
          ∃ p ∈ cutPieces, ∃ i, c.cutPieceId = boxIdOf p.id i ∧
            ((c.width = p.width ∧ c.height = p.height) ∨
              (c.width = p.height ∧ c.height = p.width)) := by
        intro src rot hsrc hperm hl2
        obtain ⟨p, hp, i, hcid, hrel⟩ := hsrc l hl2 c hc
        refine ⟨p, hperm.mem_iff.mp hp, i, hcid, ?_⟩
        rcases hrel with h | ⟨-, h1, h2⟩
        · exact Or.inl h
        · exact Or.inr ⟨h1, h2⟩
      cases mode with
      | minimizeWaste =>
        refine hweaken cutPieces ((Option.getD ar true)) (matchPiecesToStock_rotation _ _ _)
          (List.Perm.refl _) ?_
        rw [optimizeCuts_dispatch ⟨OptimizationMode.minimizeWaste, ar⟩ hce hse] at hl
        exact hl
      | simplifyCuts =>
        refine hweaken (jsSorted pieceAreaDesc cutPieces) false
          (matchPiecesToStock_rotation _ _ _) (jsSorted_perm _ _) ?_
        rw [optimizeCuts_dispatch ⟨OptimizationMode.simplifyCuts, ar⟩ hce hse] at hl
        exact hl
      | grainDirection =>
        refine hweaken (jsSorted categoryAsc cutPieces) false
          (matchPiecesToStock_rotation _ _ _) (jsSorted_perm _ _) ?_
        rw [optimizeCuts_dispatch ⟨OptimizationMode.grainDirection, ar⟩ hce hse] at hl
        exact hl
      | minimizeSheets =>
        have hl2 : l ∈ (matchPiecesMinimizeSheets cutPieces stockPieces).layouts := by
          rw [optimizeCuts_dispatch ⟨OptimizationMode.minimizeSheets, ar⟩ hce hse] at hl
          exact hl
        exact matchPiecesMinimizeSheets_rotation cutPieces stockPieces l hl2 c hc
      | largestFirst =>
        refine hweaken (jsSorted pieceAreaDesc cutPieces) true
          (matchPiecesToStock_rotation _ _ _) (jsSorted_perm _ _) ?_
        rw [optimizeCuts_dispatch ⟨OptimizationMode.largestFirst, ar⟩ hce hse] at hl
        exact hl
      | edgeAlignment =>
        refine hweaken (jsSorted perimeterDesc cutPieces) false
          (matchPiecesToStock_rotation _ _ _) (jsSorted_perm _ _) ?_
        rw [optimizeCuts_dispatch ⟨OptimizationMode.edgeAlignment, ar⟩ hce hse] at hl
        exact hl

theorem optimizeCuts_rotation_exact (cutPieces : List CutPiece)
    (stockPieces : List StockPiece) (opts : OptimizationOptions)
    (hm : opts.mode = OptimizationMode.simplifyCuts ∨
      opts.mode = OptimizationMode.grainDirection ∨
      opts.mode = OptimizationMode.edgeAlignment) :
    ∀ l ∈ (optimizeCuts cutPieces stockPieces opts).layouts, ∀ c ∈ l.cuts,
      ∃ p ∈ cutPieces, ∃ i, c.cutPieceId = boxIdOf p.id i ∧
        c.width = p.width ∧ c.height = p.height := by
  intro l hl c hc
  cases hce : cutPieces.isEmpty with
  | true =>
    have hnil : cutPieces = [] := by simpa [List.isEmpty_iff] using hce
    subst hnil
    rw [optimizeCuts_empty_demand] at hl
    simp at hl
  | false =>
    cases hse : stockPieces.isEmpty with
    | true =>
      have hnil : stockPieces = [] := by simpa [List.isEmpty_iff] using hse
      subst hnil
      rw [optimizeCuts_empty_stock hce opts] at hl
      simp at hl
    | false =>
      obtain ⟨mode, ar⟩ := opts
      have hmain : ∀ (src : List CutPiece),
          src.Perm cutPieces →
          l ∈ (matchPiecesToStock src stockPieces false).layouts →
          ∃ p ∈ cutPieces, ∃ i, c.cutPieceId = boxIdOf p.id i ∧
            c.width = p.width ∧ c.height = p.height := by
        intro src hperm hl2
        obtain ⟨p, hp, i, hcid, hrel⟩ :=
          matchPiecesToStock_rotation src stockPieces false l hl2 c hc
        refine ⟨p, hperm.mem_iff.mp hp, i, hcid, ?_⟩
        rcases hrel with h | ⟨hfalse, -⟩
        · exact h
        · exact absurd hfalse (by simp)
      cases mode with
      | minimizeWaste => simp at hm
      | simplifyCuts =>
        refine hmain (jsSorted pieceAreaDesc cutPieces) (jsSorted_perm _ _) ?_
        rw [optimizeCuts_dispatch ⟨OptimizationMode.simplifyCuts, ar⟩ hce hse] at hl
        exact hl
      | grainDirection =>
        refine hmain (jsSorted categoryAsc cutPieces) (jsSorted_perm _ _) ?_
        rw [optimizeCuts_dispatch ⟨OptimizationMode.grainDirection, ar⟩ hce hse] at hl
        exact hl
      | minimizeSheets => simp at hm
      | largestFirst => simp at hm
      | edgeAlignment =>
        refine hmain (jsSorted perimeterDesc cutPieces) (jsSorted_perm _ _) ?_
        rw [optimizeCuts_dispatch ⟨OptimizationMode.edgeAlignment, ar⟩ hce hse] at hl
        exact hl

theorem optimizeCuts_cuts_ne (cutPieces : List CutPiece) (stockPieces : List StockPiece)
    (opts : OptimizationOptions) :
    ∀ l ∈ (optimizeCuts cutPieces stockPieces opts).layouts, l.cuts ≠ [] := by
  intro l hl
  cases hce : cutPieces.isEmpty with
  | true =>
    have hnil : cutPieces = [] := by simpa [List.isEmpty_iff] using hce
    subst hnil
    rw [optimizeCuts_empty_demand] at hl
    simp at hl
  | false =>
    cases hse : stockPieces.isEmpty with
    | true =>
      have hnil : stockPieces = [] := by simpa [List.isEmpty_iff] using hse
      subst hnil
      rw [optimizeCuts_empty_stock hce opts] at hl
      simp at hl
    | false =>
      obtain ⟨mode, ar⟩ := opts
      cases mode with
      | minimizeWaste =>
        refine (matchPiecesToStock_layouts cutPieces stockPieces (Option.getD ar true) l ?_).1
        rw [optimizeCuts_dispatch ⟨OptimizationMode.minimizeWaste, ar⟩ hce hse] at hl
        exact hl
      | simplifyCuts =>
        refine (matchPiecesToStock_layouts (jsSorted pieceAreaDesc cutPieces)
          stockPieces false l ?_).1
        rw [optimizeCuts_dispatch ⟨OptimizationMode.simplifyCuts, ar⟩ hce hse] at hl
        exact hl
      | grainDirection =>
        refine (matchPiecesToStock_layouts (jsSorted categoryAsc cutPieces)
          stockPieces false l ?_).1
        rw [optimizeCuts_dispatch ⟨OptimizationMode.grainDirection, ar⟩ hce hse] at hl
        exact hl
      | minimizeSheets =>
        refine (matchPiecesMinimizeSheets_layouts cutPieces stockPieces l ?_).1
        rw [optimizeCuts_dispatch ⟨OptimizationMode.minimizeSheets, ar⟩ hce hse] at hl
        exact hl
      | largestFirst =>
        refine (matchPiecesToStock_layouts (jsSorted pieceAreaDesc cutPieces)
          stockPieces true l ?_).1
        rw [optimizeCuts_dispatch ⟨OptimizationMode.largestFirst, ar⟩ hce hse] at hl
        exact hl
      | edgeAlignment =>
        refine (matchPiecesToStock_layouts (jsSorted perimeterDesc cutPieces)
          stockPieces false l ?_).1
        rw [optimizeCuts_dispatch ⟨OptimizationMode.edgeAlignment, ar⟩ hce hse] at hl
        exact hl

theorem optimizeCuts_stockUsed (cutPieces : List CutPiece) (stockPieces : List StockPiece)
    (opts : OptimizationOptions) :
    (optimizeCuts cutPieces stockPieces opts).stockUsed =
      (optimizeCuts cutPieces stockPieces opts).layouts.length := by
  cases hce : cutPieces.isEmpty with
  | true =>
    have hnil : cutPieces = [] := by simpa [List.isEmpty_iff] using hce
    subst hnil
    rw [optimizeCuts_empty_demand]
    rfl
  | false =>
    cases hse : stockPieces.isEmpty with
    | true =>
      have hnil : stockPieces = [] := by simpa [List.isEmpty_iff] using hse
      subst hnil
      rw [optimizeCuts_empty_stock hce opts]
      rfl
    | false =>
      rw [optimizeCuts_dispatch opts hce hse]
      obtain ⟨mode, ar⟩ := opts
      cases mode with
      | minimizeWaste => exact matchPiecesToStock_stockUsed _ _ _
      | simplifyCuts => exact matchPiecesToStock_stockUsed _ _ _
      | grainDirection => exact matchPiecesToStock_stockUsed _ _ _
      | minimizeSheets => exact matchPiecesMinimizeSheets_stockUsed _ _
      | largestFirst => exact matchPiecesToStock_stockUsed _ _ _
      | edgeAlignment => exact matchPiecesToStock_stockUsed _ _ _

theorem optimizeCuts_area (cutPieces : List CutPiece) (stockPieces : List StockPiece)
    (opts : OptimizationOptions) (hg : goodIds cutPieces)
    (hpos : ∀ p ∈ cutPieces, 0 ≤ p.width ∧ 0 ≤ p.height)
    (hstk : ∀ s ∈ stockPieces, 0 ≤ s.width ∧ 0 ≤ s.height)
    (hce : cutPieces.isEmpty = false) (hse : stockPieces.isEmpty = false)
    (hempty : (optimizeCuts cutPieces stockPieces opts).unmatchedPieces = []) :
    demandArea cutPieces ≤
      ((stockPieces.filter (fun s => s.available)).map (fun s => s.width * s.height)).sum := by
  rw [optimizeCuts_dispatch opts hce hse] at hempty
  obtain ⟨mode, ar⟩ := opts
  have hmain : ∀ (src : List CutPiece) (rot : Bool), src.Perm cutPieces →
      (matchPiecesToStock src stockPieces rot).unmatchedPieces = [] →
      demandArea cutPieces ≤
        ((stockPieces.filter (fun s => s.available)).map
          (fun s => s.width * s.height)).sum := by
    intro src rot hperm hemp
    have := matchPiecesToStock_area src stockPieces rot (goodIds_perm hperm.symm hg)
      (fun p hp => hpos p (hperm.mem_iff.mp hp)) hstk hemp
    calc demandArea cutPieces = demandArea src := (demandArea_perm hperm).symm
    _ ≤ _ := this
  cases mode with
  | minimizeWaste =>
    exact hmain cutPieces (Option.getD ar true) (List.Perm.refl _) hempty
  | simplifyCuts =>
    exact hmain (jsSorted pieceAreaDesc cutPieces) false (jsSorted_perm _ _) hempty
  | grainDirection =>
    exact hmain (jsSorted categoryAsc cutPieces) false (jsSorted_perm _ _) hempty
  | minimizeSheets =>
    exact matchPiecesMinimizeSheets_area cutPieces stockPieces hg hpos hstk hempty
  | largestFirst =>
    exact hmain (jsSorted pieceAreaDesc cutPieces) true (jsSorted_perm _ _) hempty
  | edgeAlignment =>
    exact hmain (jsSorted perimeterDesc cutPieces) false (jsSorted_perm _ _) hempty

/-! ### Concrete inputs used by the witnesses and counterexamples -/

/-- A 10×10 top panel, one instance, underscore-free id. -/
def exTop : CutPiece := ⟨"x", "X", 10, 10, 1, "top", 18⟩

/-- A 100×100 piece whose id contains an underscore. -/
def exUnderscore : CutPiece := ⟨"a_b", "Y", 100, 100, 1, "top", 18⟩

/-- A 2000×2000 piece that fits on no small sheet. -/
def exBig : CutPiece := ⟨"big", "Big", 2000, 2000, 1, "top", 18⟩

/-- A 600×400 12 mm shelf piece. -/
def exShelf : CutPiece := ⟨"p3", "B", 600, 400, 1, "shelf", 12⟩

/-- A 1220×2440 18 mm sheet. -/
def exSheet : StockPiece := ⟨"s1", 1220, 2440, 18, true⟩

/-- A 50×50 18 mm sheet. -/
def exSmall : StockPiece := ⟨"s", 50, 50, 18, true⟩

/-- Placements in three overlapping tolerance bands (y = 18, 9, 0). -/
def exRow18 : PlacedPiece := ⟨"q", 0, 18, 5, 5, false, 0⟩

/-- Second band member, y = 9. -/
def exRow9 : PlacedPiece := ⟨"q", 5, 9, 5, 5, false, 0⟩

/-- Third band member, y = 0. -/
def exRow0 : PlacedPiece := ⟨"q", 10, 0, 5, 5, false, 0⟩

/-- Two placements in rows a full 20 units apart. -/
def exRowA : PlacedPiece := ⟨"q", 3, 20, 5, 5, false, 0⟩

/-- Partner of `exRowA` on the other row. -/
def exRowB : PlacedPiece := ⟨"q", 7, 0, 5, 5, false, 7⟩

/-- An empty layout on the small sheet. -/
def exLayout : CutLayout := ⟨"s", [], 0⟩

/-! ### The claims -/

/-- Claim C1 (corrected): conservation per demand piece holds for every mode
and every supply, under hygienic piece ids (pairwise distinct and
underscore-free): the number of placed instances of a piece plus its
unmatched quantity equals its required quantity.  The hygiene hypothesis is
necessary: `conservation_counterexample` shows an instance of a piece whose
id contains an underscore vanishing from the accounting. -/
theorem conservation_per_piece (cutPieces : List CutPiece) (stockPieces : List StockPiece)
    (opts : OptimizationOptions) (hg : goodIds cutPieces) :
    ∀ p ∈ cutPieces,
      placedCountFor (optimizeCuts cutPieces stockPieces opts) p.id +
        unmatchedQtyFor (optimizeCuts cutPieces stockPieces opts) p.id = p.quantity := by
  intro p hp
  have hperm := optimizeCuts_conservation cutPieces stockPieces opts hg
  have hcnt := hperm.count_eq p.id
  rw [List.count_append] at hcnt
  have h2 : (expandQty (optimizeCuts cutPieces stockPieces opts).unmatchedPieces).count p.id =
      unmatchedQtyFor (optimizeCuts cutPieces stockPieces opts) p.id :=
    count_expandQty _ _
  have h3 : (expandQty cutPieces).count p.id = p.quantity := count_expandQty_self hg.1 hp
  rw [h2, h3] at hcnt
  exact hcnt

/-- The conservation theorem at a concrete one-piece demand. -/
theorem conservation_per_piece_witness :
    placedCountFor (optimizeCuts [exTop] [exSmall] ⟨OptimizationMode.minimizeWaste, none⟩)
        exTop.id +
      unmatchedQtyFor (optimizeCuts [exTop] [exSmall] ⟨OptimizationMode.minimizeWaste, none⟩)
        exTop.id = exTop.quantity :=
  conservation_per_piece [exTop] [exSmall] ⟨OptimizationMode.minimizeWaste, none⟩
    (by with_unfolding_all decide) exTop (by simp)

set_option maxRecDepth 8000 in
/-- With an underscore inside a piece id, conservation fails: the instance of
`a_b` is split at the first underscore during re-identification, matches no
input piece, and is silently dropped from `unmatchedPieces`. -/
theorem conservation_counterexample :
    placedCountFor (optimizeCuts [exTop, exUnderscore] [exSmall]
        ⟨OptimizationMode.minimizeWaste, none⟩) exUnderscore.id +
      unmatchedQtyFor (optimizeCuts [exTop, exUnderscore] [exSmall]
        ⟨OptimizationMode.minimizeWaste, none⟩) exUnderscore.id ≠
      exUnderscore.quantity := by
  with_unfolding_all decide

/-- A result is thickness-compatible with its inputs when every placement
lies on a sheet whose thickness equals the placed piece's thickness. -/
def thicknessCompatible (cutPieces : List CutPiece) (stockPieces : List StockPiece)
    (r : MatchingResult) : Prop :=
  ∀ l ∈ r.layouts, ∀ s ∈ stockPieces, s.id = l.stockPieceId →
    ∀ c ∈ l.cuts, ∀ p ∈ cutPieces, p.id = originId c.cutPieceId →
      p.thickness = s.thickness

instance (cutPieces : List CutPiece) (stockPieces : List StockPiece) (r : MatchingResult) :
    Decidable (thicknessCompatible cutPieces stockPieces r) := by
  unfold thicknessCompatible
  infer_instance

set_option maxRecDepth 8000 in
/-- Claim C2 (code bug): thickness compatibility is violated by the
minimize-sheets mode, whose private sheet loop never partitions by
thickness: a 12 mm piece is placed on the 18 mm sheet. -/
theorem minimizeSheets_thickness_violation :
    ¬ thicknessCompatible [exShelf] [exSheet]
      (optimizeCuts [exShelf] [exSheet] ⟨OptimizationMode.minimizeSheets, none⟩) := by
  with_unfolding_all decide

/-- Claim C3 (corrected): with a nonempty supply, five of the six modes are
exactly the shared orchestrator run on the mode's reordering of the demand
with the mode's rotation flag.  The sixth mode, minimize-sheets, runs its
own loop and is not such a pre-processing step
(`policy_counterexample`); and with an empty supply `optimizeCuts` bypasses
the orchestrator entirely. -/
theorem policy_preprocessing_five_modes (cutPieces : List CutPiece)
    {stockPieces : List StockPiece} (hs : stockPieces ≠ []) (r : Option Bool) :
    optimizeCuts cutPieces stockPieces ⟨OptimizationMode.minimizeWaste, r⟩ =
      matchPiecesToStock cutPieces stockPieces (r.getD true) ∧
    optimizeCuts cutPieces stockPieces ⟨OptimizationMode.simplifyCuts, r⟩ =
      matchPiecesToStock (jsSorted pieceAreaDesc cutPieces) stockPieces false ∧
    optimizeCuts cutPieces stockPieces ⟨OptimizationMode.grainDirection, r⟩ =
      matchPiecesToStock (jsSorted categoryAsc cutPieces) stockPieces false ∧
    optimizeCuts cutPieces stockPieces ⟨OptimizationMode.largestFirst, r⟩ =
      matchPiecesToStock (jsSorted pieceAreaDesc cutPieces) stockPieces true ∧
    optimizeCuts cutPieces stockPieces ⟨OptimizationMode.edgeAlignment, r⟩ =
      matchPiecesToStock (jsSorted perimeterDesc cutPieces) stockPieces false := by
  have hse : stockPieces.isEmpty = false := by
    cases stockPieces with
    | nil => exact absurd rfl hs
    | cons a t => rfl
  cases hc : cutPieces with
  | nil =>
    have hs1 : ∀ cmp : CutPiece → CutPiece → ℚ, jsSorted cmp ([] : List CutPiece) = [] :=
      fun _ => rfl
    refine ⟨?_, ?_, ?_, ?_, ?_⟩ <;>
      rw [optimizeCuts_empty_demand] <;>
      first
        | rw [matchPiecesToStock_empty_demand hse]
        | rw [hs1, matchPiecesToStock_empty_demand hse]
  | cons a t =>
    have hce : (a :: t).isEmpty = false := rfl
    refine ⟨?_, ?_, ?_, ?_, ?_⟩ <;>
      rw [optimizeCuts_dispatch _ hce hse] <;>
      rfl

/-- The five-mode delegation at a concrete input. -/
theorem policy_preprocessing_witness :
    optimizeCuts [exTop] [exSmall] ⟨OptimizationMode.minimizeWaste, none⟩ =
      matchPiecesToStock [exTop] [exSmall] true ∧
    optimizeCuts [exTop] [exSmall] ⟨OptimizationMode.simplifyCuts, none⟩ =
      matchPiecesToStock (jsSorted pieceAreaDesc [exTop]) [exSmall] false ∧
    optimizeCuts [exTop] [exSmall] ⟨OptimizationMode.grainDirection, none⟩ =
      matchPiecesToStock (jsSorted categoryAsc [exTop]) [exSmall] false ∧
    optimizeCuts [exTop] [exSmall] ⟨OptimizationMode.largestFirst, none⟩ =
      matchPiecesToStock (jsSorted pieceAreaDesc [exTop]) [exSmall] true ∧
    optimizeCuts [exTop] [exSmall] ⟨OptimizationMode.edgeAlignment, none⟩ =
      matchPiecesToStock (jsSorted perimeterDesc [exTop]) [exSmall] false :=
  policy_preprocessing_five_modes [exTop] (by simp) none

set_option maxRecDepth 8000 in
/-- Minimize-sheets differs from the orchestrator on its own reordered
demand with rotation on: on a 12 mm piece and an 18 mm sheet the
orchestrator's thickness partition matches nothing while the private loop
packs the piece. -/
theorem policy_counterexample :
    optimizeCuts [exShelf] [exSheet] ⟨OptimizationMode.minimizeSheets, none⟩ ≠
      matchPiecesToStock (jsSorted pieceAreaDesc [exShelf]) [exSheet] true := by
  with_unfolding_all decide

/-- Claim C4 (confirmed): every placement's dimensions are the source
piece's (width, height) or their swap, and under the three
rotation-disallowed policies (simplify-cuts, grain-direction,
edge-alignment) they are exactly (width, height). -/
theorem rotation_legality (cutPieces : List CutPiece) (stockPieces : List StockPiece)
    (opts : OptimizationOptions) :
    (∀ l ∈ (optimizeCuts cutPieces stockPieces opts).layouts, ∀ c ∈ l.cuts,
      ∃ p ∈ cutPieces, ∃ i, c.cutPieceId = boxIdOf p.id i ∧
        ((c.width = p.width ∧ c.height = p.height) ∨
          (c.width = p.height ∧ c.height = p.width))) ∧
    ((opts.mode = OptimizationMode.simplifyCuts ∨
        opts.mode = OptimizationMode.grainDirection ∨
        opts.mode = OptimizationMode.edgeAlignment) →
      ∀ l ∈ (optimizeCuts cutPieces stockPieces opts).layouts, ∀ c ∈ l.cuts,
        ∃ p ∈ cutPieces, ∃ i, c.cutPieceId = boxIdOf p.id i ∧
          c.width = p.width ∧ c.height = p.height) :=
  ⟨optimizeCuts_rotation cutPieces stockPieces opts,
    fun hm => optimizeCuts_rotation_exact cutPieces stockPieces opts hm⟩

/-- Claim C5 (confirmed): the packing engine fails soft.  A failed library
attempt (modelled as `none`) yields zero placed pieces, the whole input as
unplaced and 100% waste for that sheet; the sheet loop skips a sheet whose
attempt placed nothing and carries the remaining pieces forward; and a
successful run never yields out-of-bounds or overlapping placements. -/
theorem failsoft_packing :
    (∀ (attempt : List (ℚ × ℚ) → Option (List PlacedBox)) (cutPieces : List CutPiece)
        (stock : StockPiece), attempt (boxDims cutPieces) = none →
      packPiecesIntoStockWith attempt cutPieces stock =
        ⟨[], cutPieces, 100, stock.width * stock.height, 0⟩) ∧
    (∀ (packFn : List CutPiece → StockPiece → PackingResult) (stock : StockPiece)
        (rest : List StockPiece) (remaining : List CutPiece),
      remaining ≠ [] → (packFn remaining stock).packedPieces = [] →
      packLoopWith packFn (stock :: rest) remaining = packLoopWith packFn rest remaining) ∧
    (∀ (cutPieces : List CutPiece) (stock : StockPiece) (rot : Bool),
      (∀ p ∈ cutPieces, 0 ≤ p.width ∧ 0 ≤ p.height) → 0 ≤ stock.width → 0 ≤ stock.height →
      (∀ c ∈ (packPiecesIntoStock cutPieces stock rot).packedPieces,
        0 ≤ c.x ∧ 0 ≤ c.y ∧ c.x + c.width ≤ stock.width ∧ c.y + c.height ≤ stock.height) ∧
      ((packPiecesIntoStock cutPieces stock rot).packedPieces.map
        (fun c => (⟨c.x, c.y, c.width, c.height⟩ : Rect))).Pairwise rectDisj) := by
  refine ⟨?_, ?_, ?_⟩
  · intro attempt cutPieces stock h
    simp only [packPiecesIntoStockWith, h]
  · intro packFn stock rest remaining hne hnp
    have h1 : remaining.isEmpty = false := by
      cases remaining with
      | nil => exact absurd rfl hne
      | cons a t => rfl
    have h2 : (packFn remaining stock).packedPieces.isEmpty = true := by
      rw [hnp]
      rfl
    simp only [packLoopWith, h1, h2, Bool.false_eq_true, if_false, if_true]
  · intro cutPieces stock rot hpos hsw hsh
    exact packPiecesIntoStock_geometry cutPieces stock rot hpos hsw hsh

/-- Claim C6 (confirmed): empty demand yields the empty result; nonempty
demand with an empty supply, or a supply with no available sheet, yields all
the demand unmatched (up to the order of the per-thickness regrouping),
no layouts, zero sheets used and zero waste. -/
theorem empty_input_edge_cases :
    (∀ (stockPieces : List StockPiece) (opts : OptimizationOptions),
      optimizeCuts [] stockPieces opts = ⟨[], [], 0, 0⟩) ∧
    (∀ (cutPieces : List CutPiece) (opts : OptimizationOptions), cutPieces ≠ [] →
      optimizeCuts cutPieces [] opts = ⟨[], cutPieces, 0, 0⟩) ∧
    (∀ (cutPieces : List CutPiece) (stockPieces : List StockPiece)
        (opts : OptimizationOptions), cutPieces ≠ [] →
      (∀ s ∈ stockPieces, s.available = false) →
      (optimizeCuts cutPieces stockPieces opts).layouts = [] ∧
      (optimizeCuts cutPieces stockPieces opts).unmatchedPieces.Perm cutPieces ∧
      (optimizeCuts cutPieces stockPieces opts).stockUsed = 0 ∧
      (optimizeCuts cutPieces stockPieces opts).totalWastePercentage = 0) := by
  refine ⟨?_, ?_, ?_⟩
  · intro stockPieces opts
    exact optimizeCuts_empty_demand stockPieces opts
  · intro cutPieces opts hne
    have hce : cutPieces.isEmpty = false := by
      cases cutPieces with
      | nil => exact absurd rfl hne
      | cons a t => rfl
    exact optimizeCuts_empty_stock hce opts
  · intro cutPieces stockPieces opts hne hunav
    have hce : cutPieces.isEmpty = false := by
      cases cutPieces with
      | nil => exact absurd rfl hne
      | cons a t => rfl
    cases hse : stockPieces.isEmpty with
    | true =>
      have hnil : stockPieces = [] := by simpa [List.isEmpty_iff] using hse
      subst hnil
      rw [optimizeCuts_empty_stock hce opts]
      exact ⟨rfl, List.Perm.refl _, rfl, rfl⟩
    | false =>
      have hud : stockPieces.filter (fun s => s.available) = [] := by
        rw [List.filter_eq_nil_iff]
        intro s hs
        simp [hunav s hs]
      rw [optimizeCuts_dispatch opts hce hse]
      obtain ⟨mode, ar⟩ := opts
      have hmain : ∀ (src : List CutPiece) (rot : Bool), src.Perm cutPieces →
          (matchPiecesToStock src stockPieces rot).layouts = [] ∧
          (matchPiecesToStock src stockPieces rot).unmatchedPieces.Perm cutPieces ∧
          (matchPiecesToStock src stockPieces rot).stockUsed = 0 ∧
          (matchPiecesToStock src stockPieces rot).totalWastePercentage = 0 := by
        intro src rot hperm
        obtain ⟨h1, h2, h3, h4⟩ := matchPiecesToStock_noavail src rot hse hud
        exact ⟨h1, h2.trans hperm, h4, h3⟩
      cases mode with
      | minimizeWaste =>
        exact hmain cutPieces (Option.getD ar true) (List.Perm.refl _)
      | simplifyCuts =>
        exact hmain (jsSorted pieceAreaDesc cutPieces) false (jsSorted_perm _ _)
      | grainDirection =>
        exact hmain (jsSorted categoryAsc cutPieces) false (jsSorted_perm _ _)
      | minimizeSheets =>
        obtain ⟨h1, h2, h3, h4⟩ := matchPiecesMinimizeSheets_noavail cutPieces hse hud
        exact ⟨h1, h2, h4, h3⟩
      | largestFirst =>
        exact hmain (jsSorted pieceAreaDesc cutPieces) true (jsSorted_perm _ _)
      | edgeAlignment =>
        exact hmain (jsSorted perimeterDesc cutPieces) false (jsSorted_perm _ _)

/-- Claim C7 (corrected): under hygienic ids and positive dimensions,
reported insufficiency (required area over available area) forces a
non-empty unmatched list, in every mode.  Without the id hygiene the
implication fails: `area_monotonicity_counterexample` has positive
dimensions, `isSufficient = false` and an empty unmatched list. -/
theorem area_monotonicity (cutPieces : List CutPiece) (stockPieces : List StockPiece)
    (opts : OptimizationOptions) (hg : goodIds cutPieces)
    (hpos : ∀ p ∈ cutPieces, 0 < p.width ∧ 0 < p.height)
    (hstk : ∀ s ∈ stockPieces, 0 < s.width ∧ 0 < s.height)
    (hins : (checkStockSufficiency cutPieces stockPieces).isSufficient = false) :
    (optimizeCuts cutPieces stockPieces opts).unmatchedPieces ≠ [] := by
  intro hempty
  have hlt := checkStockSufficiency_insufficient hins
  have havail0 : 0 ≤ ((stockPieces.filter (fun s => s.available)).map
      (fun s => s.width * s.height)).sum := by
    apply List.sum_nonneg
    intro x hx
    obtain ⟨s, hs, hsx⟩ := List.mem_map.mp hx
    have hsp := hstk s ((List.filter_sublist stockPieces).subset hs)
    rw [← hsx]
    exact le_of_lt (mul_pos hsp.1 hsp.2)
  cases hce : cutPieces.isEmpty with
  | true =>
    have hnil : cutPieces = [] := by simpa [List.isEmpty_iff] using hce
    subst hnil
    have hd0 : demandArea ([] : List CutPiece) = 0 := rfl
    rw [hd0] at hlt
    linarith
  | false =>
    cases hse : stockPieces.isEmpty with
    | true =>
      have hnil : stockPieces = [] := by simpa [List.isEmpty_iff] using hse
      subst hnil
      rw [optimizeCuts_empty_stock hce opts] at hempty
      have hcnil : cutPieces = [] := hempty
      rw [hcnil] at hce
      simp at hce
    | false =>
      have hle := optimizeCuts_area cutPieces stockPieces opts hg
        (fun p hp => ⟨le_of_lt (hpos p hp).1, le_of_lt (hpos p hp).2⟩)
        (fun s hs => ⟨le_of_lt (hstk s hs).1, le_of_lt (hstk s hs).2⟩) hce hse hempty
      linarith

/-- The area-monotonicity theorem at a concrete insufficient input. -/
theorem area_monotonicity_witness :
    (optimizeCuts [exBig] [exSmall]
      ⟨OptimizationMode.minimizeWaste, none⟩).unmatchedPieces ≠ [] :=
  area_monotonicity [exBig] [exSmall] ⟨OptimizationMode.minimizeWaste, none⟩
    (by with_unfolding_all decide) (by with_unfolding_all decide)
    (by with_unfolding_all decide) (by with_unfolding_all decide)

set_option maxRecDepth 8000 in
/-- Without id hygiene, insufficiency does not force a non-empty unmatched
list: all dimensions are positive, the sufficiency check reports a
shortfall, yet the underscore-id instance is dropped and `unmatchedPieces`
comes back empty. -/
theorem area_monotonicity_counterexample :
    (checkStockSufficiency [exTop, exUnderscore] [exSmall]).isSufficient = false ∧
    (∀ p ∈ [exTop, exUnderscore], 0 < p.width ∧ 0 < p.height) ∧
    (∀ s ∈ [exSmall], 0 < s.width ∧ 0 < s.height) ∧
    (optimizeCuts [exTop, exUnderscore] [exSmall]
      ⟨OptimizationMode.minimizeWaste, none⟩).unmatchedPieces = [] := by
  with_unfolding_all decide

/-- Claim C8 (corrected): when the placements' rows are separated — any two
y-coordinates equal or at least 10 apart — the cut sequence is a permutation
of the input (up to the assigned ranks) ordered row-by-row then
left-to-right, with ranks 1..n.  In general the tolerance comparator is not
transitive, and on overlapping bands the output is not
row-ordered: `cut_sequence_counterexample`. -/
theorem cut_sequence_rows (ps : List PlacedPiece)
    (hsep : ∀ a ∈ ps, ∀ b ∈ ps, a.y = b.y ∨ 10 ≤ ratAbs (a.y - b.y)) :
    ((calculateCutSequence ps).map eraseSeq).Perm (ps.map eraseSeq) ∧
    (calculateCutSequence ps).Pairwise cutLe ∧
    (calculateCutSequence ps).map (fun c => c.cutSequence) =
      (List.range ps.length).map (fun i => i + 1) :=
  ⟨calculateCutSequence_eraseSeq ps, calculateCutSequence_sorted ps hsep,
    calculateCutSequence_ranks ps⟩

/-- The cut-sequence theorem at two concretely separated rows. -/
theorem cut_sequence_rows_witness :
    ((calculateCutSequence [exRowA, exRowB]).map eraseSeq).Perm
      ([exRowA, exRowB].map eraseSeq) ∧
    (calculateCutSequence [exRowA, exRowB]).Pairwise cutLe ∧
    (calculateCutSequence [exRowA, exRowB]).map (fun c => c.cutSequence) =
      (List.range ([exRowA, exRowB] : List PlacedPiece).length).map (fun i => i + 1) :=
  cut_sequence_rows [exRowA, exRowB] (by with_unfolding_all decide)

set_option maxRecDepth 8000 in
/-- Three placements at y = 18, 9, 0 defeat the 10-unit tolerance band: the
comparator chains 18∼9 and 9∼0 as same-row but 18≁0, the sort leaves the
list unsorted for its own order, and the output is not row-ordered. -/
theorem cut_sequence_counterexample :
    ¬ (calculateCutSequence [exRow18, exRow9, exRow0]).Pairwise cutLe := by
  with_unfolding_all decide

/-- Claim C9 (confirmed): `calculateWasteStats` on a sheet of positive area
returns the used area as the sum of placed areas, waste as stock minus used,
and the percentage fields as 100·waste/stock and 100·used/stock. -/
theorem waste_stats_formulas (layout : CutLayout) (stock : StockPiece)
    (h : 0 < stock.width * stock.height) :
    (calculateWasteStats layout stock).stockArea = stock.width * stock.height ∧
    (calculateWasteStats layout stock).usedArea =
      (layout.cuts.map (fun c => c.width * c.height)).sum ∧
    (calculateWasteStats layout stock).wasteArea =
      stock.width * stock.height - (layout.cuts.map (fun c => c.width * c.height)).sum ∧
    (calculateWasteStats layout stock).wastePercentage =
      100 * (calculateWasteStats layout stock).wasteArea / (stock.width * stock.height) ∧
    (calculateWasteStats layout stock).efficiency =
      100 * (calculateWasteStats layout stock).usedArea / (stock.width * stock.height) := by
  refine ⟨rfl, rfl, rfl, ?_, ?_⟩
  all_goals
    unfold calculateWasteStats usedAreaOf
    dsimp only
    ring

/-- The waste-statistics theorem at a concrete layout and sheet. -/
theorem waste_stats_witness :
    (calculateWasteStats exLayout exSmall).stockArea = exSmall.width * exSmall.height ∧
    (calculateWasteStats exLayout exSmall).usedArea =
      (exLayout.cuts.map (fun c => c.width * c.height)).sum ∧
    (calculateWasteStats exLayout exSmall).wasteArea =
      exSmall.width * exSmall.height -
        (exLayout.cuts.map (fun c => c.width * c.height)).sum ∧
    (calculateWasteStats exLayout exSmall).wastePercentage =
      100 * (calculateWasteStats exLayout exSmall).wasteArea /
        (exSmall.width * exSmall.height) ∧
    (calculateWasteStats exLayout exSmall).efficiency =
      100 * (calculateWasteStats exLayout exSmall).usedArea /
        (exSmall.width * exSmall.height) :=
  waste_stats_formulas exLayout exSmall (by with_unfolding_all decide)

/-- Claim C10 (confirmed, implicit): every layout in a result carries at
least one placement, and `stockUsed` equals the number of layouts — exactly
the sheets that received a placement. -/
theorem no_empty_layouts (cutPieces : List CutPiece) (stockPieces : List StockPiece)
    (opts : OptimizationOptions) :
    (∀ l ∈ (optimizeCuts cutPieces stockPieces opts).layouts, l.cuts ≠ []) ∧
    (optimizeCuts cutPieces stockPieces opts).stockUsed =
      (optimizeCuts cutPieces stockPieces opts).layouts.length :=
  ⟨optimizeCuts_cuts_ne cutPieces stockPieces opts,
    optimizeCuts_stockUsed cutPieces stockPieces opts⟩

end Woodie
